import Mathlib

/-!
Ablock rebranding scripts: `rename-to-ablock.js` and `sigma-rename.js`

A shallow embedding of the tree-wide transformation engine of the two scripts
(line classifier, content rewriter, name rewriter, tree walker, dry-run/apply
executor) together with the properties proved about it.

JavaScript strings are modelled as lists of characters (`Str`); every pattern
the scripts search for is ASCII, so matching on characters and matching on
UTF-16 code units agree.  The string and path functions the scripts call
(`split`, `join`, `includes`, `trim`, `toLowerCase`, `path.extname`) are
modelled in the namespace `JS`.

The file system is a tree of `FS.Node`s below the directory the run starts
in, and a path is the list of its segments below that directory.  Every `fs`
call the scripts make on `dir/name` reads or changes the listing of `dir`
only, so `processFile` and the loop of `walk` take the current listing of the
directory they work in and return the new one.  A run yields, in order, the
`fs` calls it issues and the report lines it prints (`FS.Event`); the text of
an error message is not modelled.

The scripts' own functions live in `RenameToAblock` and `SigmaRename` and keep
their source names; the global `APPLY` is their first argument.
-/

/-- A JavaScript string, as the sequence of its characters. -/
abbrev Str := List Char

namespace JS

/-- The method `s.includes(p)`: `p` occurs in `s` as a contiguous substring. -/
def includes : Str → Str → Bool
  | [], p => p.isEmpty
  | c :: r, p => p.isPrefixOf (c :: r) || includes r p

/-- The scanning loop of `split` for a non-empty separator.  `skip` counts the
characters of a separator occurrence still to be passed over, `cur` holds the
current piece in reverse. -/
def splitGo (sep : Str) : Nat → Str → Str → List Str
  | _, cur, [] => [cur.reverse]
  | skip + 1, cur, _ :: rest => splitGo sep skip cur rest
  | 0, cur, c :: rest =>
      if sep.isPrefixOf (c :: rest) then
        cur.reverse :: splitGo sep (sep.length - 1) [] rest
      else splitGo sep 0 (c :: cur) rest

/-- The method `s.split(sep)` with a string separator and no limit: the pieces
between the successive leftmost non-overlapping occurrences of `sep`; with the
empty separator, the individual characters. -/
def split (s sep : Str) : List Str :=
  if sep.isEmpty then s.map (fun c => [c]) else splitGo sep 0 [] s

/-- The method `parts.join(sep)`. -/
def join : List Str → Str → Str
  | [], _ => []
  | [a], _ => a
  | a :: b :: rest, sep => a ++ sep ++ join (b :: rest) sep

/-- WhiteSpace and LineTerminator code points, the characters `trim` strips. -/
def isWhiteSpace (c : Char) : Bool :=
  let n := c.toNat
  n == 0x09 || n == 0x0A || n == 0x0B || n == 0x0C || n == 0x0D || n == 0x20 ||
  n == 0xA0 || n == 0x1680 || (0x2000 ≤ n && n ≤ 0x200A) || n == 0x2028 ||
  n == 0x2029 || n == 0x202F || n == 0x205F || n == 0x3000 || n == 0xFEFF

/-- The method `s.trim()`. -/
def trim (s : Str) : Str :=
  ((s.dropWhile isWhiteSpace).reverse.dropWhile isWhiteSpace).reverse

/-- Lower-case form of one character.  ASCII capitals map to their small
letters; KELVIN SIGN maps to `k` and LATIN CAPITAL LETTER I WITH DOT ABOVE to
`i` followed by COMBINING DOT ABOVE, the only other characters whose lower-case
form contains an ASCII character.  Every other character is kept: the scripts
only compare lowered text with ASCII strings, which such characters can neither
complete nor break. -/
def lowerChar (c : Char) : Str :=
  if c.toNat = 0x212A then ['k']
  else if c.toNat = 0x0130 then ['i', Char.ofNat 0x0307]
  else [c.toLower]

/-- The method `s.toLowerCase()`. -/
def toLowerCase : Str → Str
  | [] => []
  | c :: r => lowerChar c ++ toLowerCase r

/-- The call `path.extname(p)` on the last segment `base` of a path: the text
from the last dot of `base` to its end; empty when there is no dot, when the
only dot is the first character, or when `base` is `..`. -/
def extname (base : Str) : Str :=
  let afterDot := (base.reverse.takeWhile (fun c => c != '.')).reverse
  let upToDot := base.take (base.length - afterDot.length)
  if afterDot.length = base.length then []
  else if upToDot.length = 1 then []
  else if base = ['.', '.'] then []
  else '.' :: afterDot

/-- The scanning loop of `split(/\r?\n/)`: at each position the pattern
matches a carriage return followed by a line feed, or a line feed alone;
`cur` holds the current piece in reverse. -/
def splitLinesGo : Str → Str → List Str
  | cur, [] => [cur.reverse]
  | cur, [c] => if c = '\n' then [cur.reverse, []] else [(c :: cur).reverse]
  | cur, c :: d :: rest =>
      if c = '\n' then cur.reverse :: splitLinesGo [] (d :: rest)
      else if c = '\r' ∧ d = '\n' then cur.reverse :: splitLinesGo [] rest
      else splitLinesGo (c :: cur) (d :: rest)

/-- The call `s.split(/\r?\n/)`. -/
def splitLines (s : Str) : List Str := splitLinesGo [] s

/-- The idiom `s.split(f).join(t)`. -/
abbrev splitJoin (s f t : Str) : Str := join (split s f) t

end JS

/-- One replacement rule `{ from, to }` of the scripts' tables. -/
structure Rule where
  from_ : Str
  to_ : Str
deriving DecidableEq, Repr

namespace FS

/-- A path below the root directory of the run, one segment per level.
`path.join(dir, name)` is `dir ++ [name]`, `path.dirname` drops the last
segment and `path.basename` returns it. -/
abbrev RelPath := List Str

/-- What the `fs` calls observe of a regular file: `size` is `statSync(p).size`
(`none` when `statSync` throws), `content` is `readFileSync(p, 'utf8')` (`none`
when it throws), `writable` tells whether `writeFileSync` succeeds, and
`movable` whether `renameSync` can move the file: it is false when the call
throws for a reason of its own, whatever the target, such as a parent directory
without write permission. -/
structure FileData where
  size : Option Nat
  content : Option Str
  writable : Bool
  movable : Bool
deriving DecidableEq, Repr

/-- A directory entry: a regular file, a directory with its entries in the
order `readdirSync` returns them (`listable` is false when `readdirSync` throws
on it), or anything else (symbolic link, socket, ...), for which both
`isFile()` and `isDirectory()` are false. -/
inductive Node where
  | file (name : Str) (data : FileData)
  | dir (name : Str) (listable : Bool) (entries : List Node)
  | other (name : Str)
deriving Repr

/-- The directories of a tree, without their files. -/
inductive DirTree where
  | mk (name : Str) (listable : Bool) (subdirs : List DirTree)
deriving Repr

/-- The type of a `Dirent`. -/
inductive Kind where
  | file
  | directory
  | other
deriving DecidableEq, Repr

/-- A `fs.Dirent` as returned by `readdirSync(dir, { withFileTypes: true })`. -/
structure Dirent where
  name : Str
  kind : Kind
deriving DecidableEq, Repr

/-- What a run does, in order: the `fs` calls it issues (whether or not they
succeed) and the report lines it prints.  `logContent applied rel` is the line
`[WRITE] content: rel` when `applied`, else `[DRY]   content: rel`;
`logRename applied rel relNew` is `[RENAME] rel -> relNew` when `applied`, else
`[DRY]  rename: rel -> relNew`; `warnRead rel` is `[SKIP ] read error: rel: ...`
and `warnRename rel` is `[SKIP ] rename failed: rel: ...`. -/
inductive Event where
  | statSync (p : RelPath)
  | readdirSync (p : RelPath)
  | readFileSync (p : RelPath)
  | writeFileSync (p : RelPath) (data : Str)
  | renameSync (oldPath newPath : RelPath)
  | logContent (applied : Bool) (rel : RelPath)
  | logRename (applied : Bool) (rel relNew : RelPath)
  | warnRead (rel : RelPath)
  | warnRename (rel : RelPath)
deriving DecidableEq, Repr

/-- How a call ended: it returned, an exception escaped it, or the model ran
out of recursion fuel. -/
inductive Status where
  | returned
  | threw
  | outOfFuel
deriving DecidableEq, Repr

/-- Result of running a piece of the script: the file system state it leaves,
what it did, and how it ended. -/
structure Outcome (σ : Type) where
  state : σ
  trace : List Event
  status : Status

/-- Name of an entry. -/
def Node.name : Node → Str
  | .file name _ => name
  | .dir name _ _ => name
  | .other name => name

/-- The entry under a new name. -/
def Node.rename : Node → Str → Node
  | .file _ d, name => .file name d
  | .dir _ l es, name => .dir name l es
  | .other _, name => .other name

/-- The `Dirent` of an entry. -/
def Node.dirent : Node → Dirent
  | .file name _ => ⟨name, .file⟩
  | .dir name _ _ => ⟨name, .directory⟩
  | .other name => ⟨name, .other⟩

/-- The entry called `name` in a directory listing. -/
def find (es : List Node) (name : Str) : Option Node :=
  es.find? (fun n => n.name == name)

/-- Number of bytes of the UTF-8 encoding of a string. -/
def utf8Length (s : Str) : Nat := (s.map (fun c => c.utf8Size)).sum

/-- The call `fs.statSync(dir/name).size` in the directory with entries `es`.
The scripts stat, read and write regular files only; on any other entry the
model lets these calls throw. -/
def statSync (es : List Node) (name : Str) : Option Nat :=
  match find es name with
  | some (.file _ d) => d.size
  | _ => none

/-- The call `fs.readFileSync(dir/name, 'utf8')`. -/
def readFileSync (es : List Node) (name : Str) : Option Str :=
  match find es name with
  | some (.file _ d) => d.content
  | _ => none

/-- A file after `data` is written to it. -/
def Node.written : Node → Str → Node
  | .file name d, data =>
      .file name ⟨d.size.map (fun _ => utf8Length data), some data, d.writable, d.movable⟩
  | n, _ => n

/-- The call `fs.writeFileSync(dir/name, data, 'utf8')`: the new listing, or
`none` when it throws. -/
def writeFileSync (es : List Node) (name : Str) (data : Str) : Option (List Node) :=
  match find es name with
  | some (.file _ d) =>
      if d.writable then
        some (es.map (fun n => if n.name == name then n.written data else n))
      else none
  | _ => none

/-- Whether `renameSync` can move an entry.  The scripts rename regular files
only. -/
def Node.movable : Node → Bool
  | .file _ d => d.movable
  | _ => true

/-- The call `fs.renameSync(dir/oldName, dir/newName)` within one directory:
it throws when the source is missing, when the source cannot be moved, or when
the target is an existing directory; otherwise the source takes the new name,
replacing an existing entry of that name. -/
def renameSync (es : List Node) (oldName newName : Str) : Option (List Node) :=
  match find es oldName with
  | none => none
  | some n =>
      if !n.movable then none
      else if oldName == newName then some es
      else
        match find es newName with
        | some (.dir _ _ _) => none
        | _ =>
            some ((es.filter (fun n => n.name != newName)).map
              (fun n => if n.name == oldName then n.rename newName else n))

/-- The call `fs.readdirSync(dir, { withFileTypes: true })` on the entry found
at `dir`: `none` when it throws. -/
def readdirSync : Node → Option (List Dirent)
  | .dir _ true es => some (es.map Node.dirent)
  | _ => none

/-- Entries of a directory node. -/
def Node.entries : Node → List Node
  | .dir _ _ es => es
  | _ => []

/-- A directory node with new entries. -/
def Node.withEntries : Node → List Node → Node
  | .dir name l _, es => .dir name l es
  | n, _ => n

/-- Body of the `for (const entry of entries)` loop of `walk`, run in the
directory `dir` whose current entries are `cur`.  `skip` is `shouldSkipDir`,
`processFile` the script's function (applied to `dir`, the entry name and the
current entries), `walkDir` the recursive call. -/
def walkEntry (skip : Str → Bool)
    (processFile : RelPath → Str → List Node → List Node × List Event)
    (walkDir : RelPath → Node → Outcome Node)
    (dir : RelPath) (cur : List Node) (entry : Dirent) : Outcome (List Node) :=
  let fullPath := dir ++ [entry.name]
  match entry.kind with
  | .directory =>
      if skip entry.name then ⟨cur, [], .returned⟩
      else
        match find cur entry.name with
        | none => ⟨cur, [.readdirSync fullPath], .threw⟩
        | some child =>
            let r := walkDir fullPath child
            ⟨cur.map (fun n => if n.name == entry.name then r.state else n), r.trace, r.status⟩
  | .file =>
      let r := processFile dir entry.name cur
      ⟨r.1, r.2, .returned⟩
  | .other => ⟨cur, [], .returned⟩

/-- The `for (const entry of entries)` loop of `walk`: the entries were read
once, before the loop; an exception ends the loop. -/
def walkLoop (skip : Str → Bool)
    (processFile : RelPath → Str → List Node → List Node × List Event)
    (walkDir : RelPath → Node → Outcome Node)
    (dir : RelPath) : List Dirent → List Node → Outcome (List Node)
  | [], cur => ⟨cur, [], .returned⟩
  | entry :: rest, cur =>
      let r := walkEntry skip processFile walkDir dir cur entry
      match r.status with
      | .returned =>
          let r2 := walkLoop skip processFile walkDir dir rest r.state
          ⟨r2.state, r.trace ++ r2.trace, r2.status⟩
      | _ => r

/-- The function `walk(dir)` of either script, on the node found at `dir`.
Both scripts define the same function; they differ in `SKIP_DIRS` and in
`processFile`.  `fuel` bounds the nesting depth of the recursion. -/
def walkWith (skip : Str → Bool)
    (processFile : RelPath → Str → List Node → List Node × List Event) :
    Nat → RelPath → Node → Outcome Node
  | 0, _, n => ⟨n, [], .outOfFuel⟩
  | fuel + 1, dir, n =>
      match readdirSync n with
      | none => ⟨n, [.readdirSync dir], .threw⟩
      | some entries =>
          let r := walkLoop skip processFile (walkWith skip processFile fuel) dir entries n.entries
          ⟨n.withEntries r.state, .readdirSync dir :: r.trace, r.status⟩

mutual
/-- Nesting depth of a tree. -/
def Node.depth : Node → Nat
  | .dir _ _ es => depthList es + 1
  | _ => 0
/-- Largest nesting depth among the entries of a listing. -/
def depthList : List Node → Nat
  | [] => 0
  | n :: ns => max n.depth (depthList ns)
end

mutual
/-- The directories below an entry. -/
def Node.skeleton : Node → List DirTree
  | .dir name l es => [DirTree.mk name l (skeletonList es)]
  | _ => []
/-- The directories of a listing, in order. -/
def skeletonList : List Node → List DirTree
  | [] => []
  | n :: ns => n.skeleton ++ skeletonList ns
end

/-- Names of the entries of a listing, in order. -/
def names (es : List Node) : List Str := es.map Node.name

/-- Whether an entry is a directory. -/
def Node.isDir : Node → Bool
  | .dir _ _ _ => true
  | _ => false

/-- Whether an entry is a regular file. -/
def Node.isFile : Node → Bool
  | .file _ _ => true
  | _ => false

mutual
/-- Well-formed tree: within every directory the entry names are pairwise
distinct. -/
def Node.wf : Node → Bool
  | .dir _ _ es => decide (names es).Nodup && wfList es
  | _ => true
/-- Every entry of a listing is a well-formed tree. -/
def wfList : List Node → Bool
  | [] => true
  | n :: ns => n.wf && wfList ns
end

/-- Nothing can make the apply run differ from the dry run at the regular file
`name` with data `d`, listed in the directory with entries `all` before the
entries `rest`: the file is writable if its content is rewritten (`writes`),
and if its name is rewritten, the file can be moved, no directory of `all` has
the rewritten name, and no regular file of `rest` has it. -/
def calmFile (rewrite : Str → Str) (writes : Str → FileData → Bool)
    (all rest : List Node) (name : Str) (d : FileData) : Bool :=
  (!writes name d || d.writable) &&
    (rewrite name == name ||
      (d.movable && all.all (fun n => !(n.isDir && n.name == rewrite name)) &&
        rest.all (fun n => !(n.isFile && n.name == rewrite name))))

/-- The condition `calmFile` for every regular file of the entries `rest`
listed last in the directory with entries `all`. -/
def calmTail (rewrite : Str → Str) (writes : Str → FileData → Bool) (all : List Node) :
    List Node → Bool
  | [] => true
  | .file name d :: rest =>
      calmFile rewrite writes all rest name d && calmTail rewrite writes all rest
  | _ :: rest => calmTail rewrite writes all rest

/-- Within one directory nothing can make the apply run differ from the dry
run: no write and no rename that the apply run attempts throws, and no file is
renamed over a regular file listed after it. -/
def calmHere (rewrite : Str → Str) (writes : Str → FileData → Bool) (es : List Node) : Bool :=
  calmTail rewrite writes es es

mutual
/-- The condition `calmHere` in every directory below an entry that `walk`
enters (`skip` is `shouldSkipDir`). -/
def Node.calm (skip : Str → Bool) (rewrite : Str → Str) (writes : Str → FileData → Bool) :
    Node → Bool
  | .dir name _ es =>
      skip name || (calmHere rewrite writes es && calmList skip rewrite writes es)
  | _ => true
/-- The condition `Node.calm` for every entry of a listing. -/
def calmList (skip : Str → Bool) (rewrite : Str → Str) (writes : Str → FileData → Bool) :
    List Node → Bool
  | [] => true
  | n :: ns => n.calm skip rewrite writes && calmList skip rewrite writes ns
end

/-- No directory of the listing is called `m`. -/
def NoDirNamed (es : List Node) (m : Str) : Prop :=
  ∀ n ∈ es, n.name = m → n.isDir = false

/-- The listings that can result from `cur` by writing the file `name` and
renaming it to `new`, any number of times in any order. -/
inductive Touched (name new : Str) : List Node → List Node → Prop where
  | refl (cur : List Node) : Touched name new cur cur
  | write {cur c1 c2 : List Node} {data : Str} :
      writeFileSync cur name data = some c1 → Touched name new c1 c2 → Touched name new cur c2
  | rename {cur c1 c2 : List Node} :
      renameSync cur name new = some c1 → Touched name new c1 c2 → Touched name new cur c2

/-- The report of a run: the lines it printed, without the `fs` calls. -/
def report (trace : List Event) : List Event :=
  trace.filter (fun e =>
    match e with
    | .logContent _ _ => true
    | .logRename _ _ _ => true
    | .warnRead _ => true
    | .warnRename _ => true
    | _ => false)

/-- A report line with its mode tag erased. -/
def untag : Event → Event
  | .logContent _ rel => .logContent false rel
  | .logRename _ rel relNew => .logRename false rel relNew
  | e => e

/-- The paths an event names. -/
def Event.paths : Event → List RelPath
  | .statSync p => [p]
  | .readdirSync p => [p]
  | .readFileSync p => [p]
  | .writeFileSync p _ => [p]
  | .renameSync p q => [p, q]
  | .logContent _ p => [p]
  | .logRename _ p q => [p, q]
  | .warnRead p => [p]
  | .warnRename p => [p]

/-- Name of the directory at the top of a directory tree. -/
def DirTree.name : DirTree → Str
  | .mk name _ _ => name

/-- Where an event of a `walk(dir)` comes from: it is the `readdirSync` of a
directory reached from `dir` through directories that are not skipped, or an
event of a `processFile` call on a file of such a directory. -/
def Origin (skip : Str → Bool) (pf : RelPath → Str → List Node → List Node × List Event)
    (dir : RelPath) (e : Event) : Prop :=
  (∃ rel, e = .readdirSync (dir ++ rel) ∧ ∀ seg ∈ rel, skip seg = false) ∨
  (∃ rel name cur, e ∈ (pf (dir ++ rel) name cur).2 ∧ ∀ seg ∈ rel, skip seg = false)

/-- What the theorems about `walk` use of a script's `processFile`, whose
rename step maps a base name with `rewrite` and whose content block rewrites
the files told by `writes`: a dry run leaves the listing as it is; the listing
is only ever changed by writing the file and renaming it to its rewritten name;
on a file that is writable if its content is rewritten and, if its name is
rewritten, can be moved and has a rewritten name not taken by a directory, the
report lines are those of the dry run up to the mode tag; every path of an
event lies in the directory of the file; no directory is enumerated; and every
rename goes from the file to its rewritten name in the same directory. -/
structure ProcessFileSpec
    (pf : Bool → RelPath → Str → List Node → List Node × List Event)
    (rewrite : Str → Str) (writes : Str → FileData → Bool) : Prop where
  dry_state : ∀ dir name cur, (pf false dir name cur).1 = cur
  touched : ∀ b dir name cur, Touched name (rewrite name) cur (pf b dir name cur).1
  parity : ∀ dir name cur cur0 d,
    find cur name = some (.file name d) → find cur0 name = some (.file name d) →
    (writes name d = true → d.writable = true) →
    (rewrite name = name ∨
      (d.movable = true ∧ ∀ n, find cur (rewrite name) = some n → n.isDir = false)) →
    (report (pf true dir name cur).2).map untag = (report (pf false dir name cur0).2).map untag
  paths : ∀ b dir name cur, ∀ e ∈ (pf b dir name cur).2, ∀ p ∈ e.paths, ∃ x, p = dir ++ [x]
  no_readdir : ∀ b dir name cur p, Event.readdirSync p ∉ (pf b dir name cur).2
  renames : ∀ b dir name cur, ∀ e ∈ (pf b dir name cur).2, ∀ old new,
    (e = .renameSync old new ∨ ∃ a, e = .logRename a old new) →
    old = dir ++ [name] ∧ new = dir ++ [rewrite name]

end FS

namespace RenameToAblock
open FS

/-- The table `contentReplacements` of `rename-to-ablock.js`. -/
def contentReplacements : List Rule :=
  [ ⟨"Sigma Block".toList, "A Block".toList⟩,
    ⟨"Sigma Block".toList, "A Block".toList⟩,
    ⟨"Sigma Block".toList, "A Block".toList⟩,
    ⟨"Sigma".toList, "A Block".toList⟩,
    ⟨"uBlock Origin".toList, "A Block".toList⟩,
    ⟨"uBlock".toList, "A Block".toList⟩,
    ⟨"ublock".toList, "ablock".toList⟩,
    ⟨"uBO".toList, "A Block".toList⟩,
    ⟨"my-sigma-static-filters_".toList, "my-ablock-static-filters_".toList⟩,
    ⟨"my-sigma-dynamic-rules_".toList, "my-ablock-dynamic-rules_".toList⟩,
    ⟨"my-sigma-trusted-sites_".toList, "my-ablock-trusted-sites_".toList⟩,
    ⟨"my-ublock-static-filters_".toList, "my-ablock-static-filters_".toList⟩,
    ⟨"my-ublock-dynamic-rules_".toList, "my-ablock-dynamic-rules_".toList⟩,
    ⟨"my-ublock-trusted-sites_".toList, "my-ablock-trusted-sites_".toList⟩ ]

/-- The table `filenameReplacements` of `rename-to-ablock.js`. -/
def filenameReplacements : List Rule :=
  [ ⟨"sigma".toList, "ablock".toList⟩,
    ⟨"ublock".toList, "ablock".toList⟩,
    ⟨"Sigma".toList, "Ablock".toList⟩ ]

/-- The function `shouldSkipLine(line)`. -/
def shouldSkipLine (line : Str) : Bool :=
  let trimmed := JS.trim line
  JS.includes trimmed "http://".toList ||
  JS.includes trimmed "https://".toList ||
  JS.includes trimmed "import ".toList ||
  JS.includes trimmed "require(".toList ||
  JS.includes trimmed "export ".toList ||
  JS.includes trimmed "from ".toList ||
  JS.includes trimmed "@import".toList ||
  JS.includes trimmed "url(".toList

/-- The loop `for (const { from, to } of rules) updated = updated.split(from).join(to)`
of `applyContentReplacements` and `applyFilenameReplacements`, with the table
as a parameter. -/
def applyReplacementsWith : List Rule → Str → Str
  | [], updated => updated
  | r :: rest, updated =>
      applyReplacementsWith rest (JS.join (JS.split updated r.from_) r.to_)

/-- The function `applyContentReplacements(content)`. -/
def applyContentReplacements (content : Str) : Str :=
  applyReplacementsWith contentReplacements content

/-- The function `applyFilenameReplacements(filename)`. -/
def applyFilenameReplacements (filename : Str) : Str :=
  applyReplacementsWith filenameReplacements filename

/-- The set `SKIP_DIRS` of `rename-to-ablock.js`. -/
def SKIP_DIRS : List Str :=
  [".git".toList, "node_modules".toList, "dist".toList, "build".toList, "out".toList,
   ".vscode".toList, ".idea".toList]

/-- The function `shouldSkipDir(dirName)`. -/
def shouldSkipDir (dirName : Str) : Bool := SKIP_DIRS.contains dirName

/-- The list `binaryExts` of `shouldSkipFile`. -/
def binaryExts : List Str :=
  [".png".toList, ".jpg".toList, ".jpeg".toList, ".gif".toList, ".ico".toList, ".svg".toList,
   ".woff".toList, ".woff2".toList, ".ttf".toList, ".eot".toList, ".zip".toList, ".tar".toList,
   ".gz".toList]

/-- The function `shouldSkipFile(filePath)` for the entry `name` of the
directory with entries `fs`; a throwing `statSync` is caught and gives `true`. -/
def shouldSkipFile (fs : List Node) (name : Str) : Bool :=
  match FS.statSync fs name with
  | none => true
  | some size =>
      if size > 1024 * 1024 then true
      else binaryExts.contains (JS.toLowerCase (JS.extname name))

/-- One turn of the `for (const line of lines)` loop of `processFile`: the
line pushed to `updatedLines`, and whether the turn sets `hasChanges`. -/
def processLine (line : Str) : Str × Bool :=
  if shouldSkipLine line then (line, false)
  else
    let updatedLine := applyContentReplacements line
    (updatedLine, updatedLine != line)

/-- The `for (const line of lines)` loop of `processFile`, on the accumulators
`(updatedLines, hasChanges)`. -/
def processLines : List Str → List Str × Bool → List Str × Bool
  | [], acc => acc
  | line :: rest, (updatedLines, hasChanges) =>
      let r := processLine line
      processLines rest (updatedLines ++ [r.1], hasChanges || r.2)

/-- The `try { ... } catch` block of `processFile`: reading, rewriting and
(when `APPLY`) writing back the content. -/
def processContent (APPLY : Bool) (filePath : RelPath) (name : Str) (fs : List Node) :
    List Node × List Event :=
  match FS.readFileSync fs name with
  | none => (fs, [.readFileSync filePath, .warnRead filePath])
  | some content =>
      let lines := JS.split content ['\n']
      let r := processLines lines ([], false)
      if r.2 then
        let updated := JS.join r.1 ['\n']
        if APPLY then
          match FS.writeFileSync fs name updated with
          | none =>
              (fs, [.readFileSync filePath, .writeFileSync filePath updated, .warnRead filePath])
          | some fs1 =>
              (fs1, [.readFileSync filePath, .writeFileSync filePath updated,
                .logContent true filePath])
        else (fs, [.readFileSync filePath, .logContent false filePath])
      else (fs, [.readFileSync filePath])

/-- The second part of `processFile`: the file name rename. -/
def processRename (APPLY : Bool) (dir : RelPath) (baseName : Str) (fs : List Node) :
    List Node × List Event :=
  let filePath := dir ++ [baseName]
  let newBase := applyFilenameReplacements baseName
  if newBase != baseName then
    let newFullPath := dir ++ [newBase]
    if APPLY then
      match FS.renameSync fs baseName newBase with
      | some fs1 => (fs1, [.renameSync filePath newFullPath, .logRename true filePath newFullPath])
      | none => (fs, [.renameSync filePath newFullPath, .warnRename filePath])
    else (fs, [.logRename false filePath newFullPath])
  else (fs, [])

/-- The function `processFile(filePath)` for `filePath = dir/name`, in the
directory with entries `fs`; `APPLY` is the script's global flag. -/
def processFile (APPLY : Bool) (dir : RelPath) (name : Str) (fs : List Node) :
    List Node × List Event :=
  let filePath := dir ++ [name]
  if shouldSkipFile fs name then (fs, [.statSync filePath])
  else
    let r1 := processContent APPLY filePath name fs
    let r2 := processRename APPLY dir name r1.1
    (r2.1, .statSync filePath :: (r1.2 ++ r2.2))

/-- The function `walk(dir)` of `rename-to-ablock.js`. -/
def walk (APPLY : Bool) : Nat → RelPath → Node → Outcome Node :=
  FS.walkWith shouldSkipDir (processFile APPLY)

end RenameToAblock

namespace SigmaRename
open FS

/-- The table `contentReplacements` of `sigma-rename.js`. -/
def contentReplacements : List Rule :=
  [ ⟨"A Block".toList, "A Block".toList⟩,
    ⟨"A Block".toList, "A Block".toList⟩,
    ⟨"A Block".toList, "A Block".toList⟩,
    ⟨"my-ablock-static-filters_".toList, "my-ablock-static-filters_".toList⟩,
    ⟨"my-ablock-dynamic-rules_".toList, "my-ablock-dynamic-rules_".toList⟩,
    ⟨"my-ablock-trusted-sites_".toList, "my-ablock-trusted-sites_".toList⟩ ]

/-- The table `nameReplacements` of `sigma-rename.js`. -/
def nameReplacements : List Rule :=
  [ ⟨"ublock".toList, "ablock".toList⟩,
    ⟨"A Block".toList, "ABlock".toList⟩ ]

/-- The function `lineLooksLikeUrlOrImport(line)`. -/
def lineLooksLikeUrlOrImport (line : Str) : Bool :=
  let lower := JS.toLowerCase line
  if JS.includes lower "http://".toList || JS.includes lower "https://".toList ||
      JS.includes lower "://".toList then true
  else if JS.includes lower "src=\"".toList || JS.includes lower "href=\"".toList then true
  else false

/-- The loop `for (const { from, to } of rules) if (s.includes(from)) s = s.split(from).join(to)`
of `applyContentReplacements` and `applyNameReplacements`, with the table as a
parameter. -/
def applyGuardedWith : List Rule → Str → Str
  | [], s => s
  | r :: rest, s =>
      applyGuardedWith rest
        (if JS.includes s r.from_ then JS.join (JS.split s r.from_) r.to_ else s)

/-- The function `applyNameReplacements(name)`. -/
def applyNameReplacements (name : Str) : Str :=
  applyGuardedWith nameReplacements name

/-- The set `SKIP_DIRS` of `sigma-rename.js`. -/
def SKIP_DIRS : List Str :=
  [".git".toList, "node_modules".toList, "dist".toList, "build".toList, "out".toList]

/-- The set `TEXT_FILE_EXTS`. -/
def TEXT_FILE_EXTS : List Str :=
  [".js".toList, ".mjs".toList, ".cjs".toList, ".ts".toList, ".tsx".toList, ".jsx".toList,
   ".json".toList, ".html".toList, ".htm".toList, ".css".toList, ".md".toList, ".txt".toList,
   ".yml".toList, ".yaml".toList, ".ini".toList, ".conf".toList, ".xml".toList]

/-- The function `shouldSkipDir(dirName)`. -/
def shouldSkipDir (dirName : Str) : Bool := SKIP_DIRS.contains dirName

/-- The function `isTextFile(filePath)` for the entry `name` of the directory
with entries `fs`: its result and the `fs` calls it issues. -/
def isTextFile (dir : RelPath) (name : Str) (fs : List Node) : Bool × List Event :=
  let ext := JS.extname name
  if TEXT_FILE_EXTS.contains ext then (true, [])
  else
    match FS.statSync fs name with
    | some size => (decide (size < 1024 * 1024), [.statSync (dir ++ [name])])
    | none => (false, [.statSync (dir ++ [name])])

/-- The callback of `lines.map` in `applyContentReplacements`: the line it
returns, and whether it sets `changed`. -/
def mapLine (line : Str) : Str × Bool :=
  if lineLooksLikeUrlOrImport line then (line, false)
  else
    let newLine := applyGuardedWith contentReplacements line
    (newLine, newLine != line)

/-- The function `applyContentReplacements(content, filePath)`: the pair
`{ content, changed }`. -/
def applyContentReplacements (content : Str) : Str × Bool :=
  let lines := JS.splitLines content
  let rs := lines.map mapLine
  (JS.join (rs.map Prod.fst) ['\n'], rs.any Prod.snd)

/-- The `try { ... } catch` block of `processFile`. -/
def processContent (APPLY : Bool) (filePath : RelPath) (name : Str) (fs : List Node) :
    List Node × List Event :=
  match FS.readFileSync fs name with
  | none => (fs, [.readFileSync filePath, .warnRead filePath])
  | some orig =>
      let r := applyContentReplacements orig
      if r.2 then
        if APPLY then
          match FS.writeFileSync fs name r.1 with
          | none =>
              (fs, [.readFileSync filePath, .writeFileSync filePath r.1, .warnRead filePath])
          | some fs1 =>
              (fs1, [.readFileSync filePath, .writeFileSync filePath r.1,
                .logContent true filePath])
        else (fs, [.readFileSync filePath, .logContent false filePath])
      else (fs, [.readFileSync filePath])

/-- The second part of `processFile`: the file name rename. -/
def processRename (APPLY : Bool) (dir : RelPath) (baseName : Str) (fs : List Node) :
    List Node × List Event :=
  let filePath := dir ++ [baseName]
  let newBase := applyNameReplacements baseName
  if newBase != baseName then
    let newFullPath := dir ++ [newBase]
    if APPLY then
      match FS.renameSync fs baseName newBase with
      | some fs1 => (fs1, [.renameSync filePath newFullPath, .logRename true filePath newFullPath])
      | none => (fs, [.renameSync filePath newFullPath, .warnRename filePath])
    else (fs, [.logRename false filePath newFullPath])
  else (fs, [])

/-- The function `processFile(filePath)` for `filePath = dir/name`, in the
directory with entries `fs`; `APPLY` is the script's global flag. -/
def processFile (APPLY : Bool) (dir : RelPath) (name : Str) (fs : List Node) :
    List Node × List Event :=
  let filePath := dir ++ [name]
  let t := isTextFile dir name fs
  let r1 := if t.1 then processContent APPLY filePath name fs else (fs, [])
  let r2 := processRename APPLY dir name r1.1
  (r2.1, t.2 ++ r1.2 ++ r2.2)

/-- The function `walk(dir)` of `sigma-rename.js`. -/
def walk (APPLY : Bool) : Nat → RelPath → Node → Outcome Node :=
  FS.walkWith shouldSkipDir (processFile APPLY)

end SigmaRename

namespace Scan

/-- All ways of cutting a text in two. -/
def splits : Str → List (Str × Str)
  | [] => [([], [])]
  | c :: r => ([], c :: r) :: (splits r).map (fun p => (c :: p.1, p.2))

/-- An occurrence of `q` and an inserted copy of `t` can overlap in a way that
does not depend on the surrounding text: one contains the other, or `q` starts
with a non-empty end of `t`. -/
def clash (q t : Str) : Bool :=
  JS.includes q t || JS.includes t q ||
    (splits t).any (fun p => !p.2.isEmpty && p.2.isPrefixOf q)

/-- The beginnings `q1` of `q` whose remainder is a non-empty start of `t`:
an occurrence of `q` can end inside an inserted `t` only when `q1` stood right
before the replaced pattern. -/
def seams (q t : Str) : List Str :=
  ((splits q).filter (fun p => !p.2.isEmpty && p.2.isPrefixOf t)).map Prod.fst

/-- The text `w` contains one of the patterns of `abs`. -/
def covered (abs : List Str) (w : Str) : Bool :=
  abs.any (fun a => JS.includes w a)

/-- Sufficient check that `q`, absent from a text in which no pattern of `abs`
occurs, is still absent after every `f` is replaced by `t`; with `q = f`, that
no occurrence of `f` is left. -/
def keeps (abs : List Str) (f t q : Str) : Bool :=
  !clash q t && (seams q t).all (fun q1 => covered abs (q1 ++ f))

/-- Patterns certified absent from the output of a rule table, given the
patterns `abs` absent from its input. -/
def absentAfter : List Rule → List Str → List Str
  | [], abs => abs
  | r :: rest, abs =>
      let kept := abs.filter (keeps abs r.from_ r.to_)
      absentAfter rest (if keeps abs r.from_ r.to_ r.from_ then r.from_ :: kept else kept)

/-- Sufficient check that the output of a rule table contains none of the
table's patterns whenever its input contains none of `abs`. -/
def stable (rules : List Rule) (abs : List Str) : Bool :=
  rules.all (fun r => !r.from_.isEmpty) &&
    rules.all (fun r => covered (absentAfter rules abs) r.from_)

/-- No pattern of `abs` occurs in `s`. -/
def Absent (abs : List Str) (s : Str) : Prop := ∀ a ∈ abs, ¬ a <:+: s

end Scan

namespace RenameToAblock

/-- Whether `processFile` rewrites the content of the regular file `name` with
data `d`: the file is not skipped by `shouldSkipFile`, it can be read, and the
loop over its lines sets `hasChanges`. -/
def wouldWrite (name : Str) (d : FS.FileData) : Bool :=
  !shouldSkipFile [.file name d] name &&
    match d.content with
    | some content => (processLines (JS.split content ['\n']) ([], false)).2
    | none => false

/-- Nothing in a directory that `walk` enters can make the apply run of
`rename-to-ablock.js` differ from its dry run: every regular file whose content
is rewritten is writable, every regular file whose name is rewritten can be
moved, and its rewritten name is neither the name of a directory of its
directory nor that of a regular file listed after it. -/
def calm (root : FS.Node) : Bool :=
  FS.calmHere applyFilenameReplacements wouldWrite root.entries &&
    FS.calmList shouldSkipDir applyFilenameReplacements wouldWrite root.entries

end RenameToAblock

namespace SigmaRename

/-- Whether `processFile` rewrites the content of the regular file `name` with
data `d`: `isTextFile` accepts the file, it can be read, and
`applyContentReplacements` returns `changed`. -/
def wouldWrite (name : Str) (d : FS.FileData) : Bool :=
  (isTextFile [] name [.file name d]).1 &&
    match d.content with
    | some orig => (applyContentReplacements orig).2
    | none => false

/-- Nothing in a directory that `walk` enters can make the apply run of
`sigma-rename.js` differ from its dry run: every regular file whose content is
rewritten is writable, every regular file whose name is rewritten can be moved,
and its rewritten name is neither the name of a directory of its directory nor
that of a regular file listed after it. -/
def calm (root : FS.Node) : Bool :=
  FS.calmHere applyNameReplacements wouldWrite root.entries &&
    FS.calmList shouldSkipDir applyNameReplacements wouldWrite root.entries

end SigmaRename

namespace Example
open FS

/-- A readable, writable regular file with the given text. -/
def textFile (name content : String) : Node :=
  .file name.toList ⟨some (utf8Length content.toList), some content.toList, true, true⟩

/-- A root directory holding the directory `ablock` and the file `ublock`. -/
def dirConflict : Node :=
  .dir [] true [.dir "ablock".toList true [], textFile "ublock" "x"]

/-- A regular file that can be stat'ed, written and moved but not read. -/
def unreadable (name : String) : Node :=
  .file name.toList ⟨some 4, none, true, true⟩

/-- A root directory holding the unreadable `A Block.txt` and, listed after it,
the file `ABlock.txt`. -/
def renamedOver : Node :=
  .dir [] true [unreadable "A Block.txt", textFile "ABlock.txt" "fine"]

/-- A root directory holding one file `ublock` that cannot be moved. -/
def noRename : Node :=
  .dir [] true [.file "ublock".toList ⟨some 1, some "x".toList, true, false⟩]

/-- A root directory holding `ablock.txt` and, listed after it, `ublock.txt`,
whose rewritten name is `ablock.txt`. -/
def renamedBack : Node :=
  .dir [] true [textFile "ablock.txt" "x", textFile "ublock.txt" "y"]

/-- A root directory holding one read-only file that mentions `uBlock`. -/
def readOnly : Node :=
  .dir [] true [.file "notes.txt".toList ⟨some 6, some "uBlock".toList, false, true⟩]

/-- A small project: files to rewrite and rename, a protected line, a nested
directory whose name contains a brand string, an excluded directory and an
entry that is neither file nor directory. -/
def project : Node :=
  .dir [] true
    [ textFile "ublock.txt" "uBlock Origin rocks\nsee https://ublock.org/uBlock",
      .dir "src".toList true
        [ .dir "ublock".toList true
            [ textFile "ublock-icon.png" "0123456789",
              textFile "sigma-notes.md" "Sigma Block" ],
          textFile "A Block.md" "plain" ],
      .dir ".git".toList true [textFile "ublock" "uBlock"],
      .other "link".toList ]

/-- The ten-byte image `ublock-icon.png`, alone in its directory. -/
def icon : List Node := [textFile "ublock-icon.png" "0123456789"]

end Example

namespace FS

/-- Whether an event changes or reports the content of a file: the call
`writeFileSync` and the lines `[WRITE] content:` / `[DRY]   content:`. -/
def Event.isContent : Event → Bool
  | .writeFileSync _ _ => true
  | .logContent _ _ => true
  | _ => false

/-- Whether an event renames a file or reports a rename: the call `renameSync`
and the lines `[RENAME]` / `[DRY]  rename:`. -/
def Event.isRename : Event → Bool
  | .renameSync _ _ => true
  | .logRename _ _ _ => true
  | _ => false

end FS

namespace Scan

/-- The rules of a table that are left when every rule whose pattern is
certified absent at its turn is dropped; `abs` are the patterns absent from the
input. -/
def prune : List Rule → List Str → List Rule
  | [], _ => []
  | r :: rest, abs =>
      if covered abs r.from_ then prune rest abs
      else
        let kept := abs.filter (keeps abs r.from_ r.to_)
        r :: prune rest (if keeps abs r.from_ r.to_ r.from_ then r.from_ :: kept else kept)

end Scan

namespace RenameToAblock

/-- The table `contentReplacements` of `rename-to-ablock.js` without the second
and third `Sigma Block` rules and without the three `my-ublock-..._` rules. -/
def reducedContentReplacements : List Rule :=
  [ ⟨"Sigma Block".toList, "A Block".toList⟩,
    ⟨"Sigma".toList, "A Block".toList⟩,
    ⟨"uBlock Origin".toList, "A Block".toList⟩,
    ⟨"uBlock".toList, "A Block".toList⟩,
    ⟨"ublock".toList, "ablock".toList⟩,
    ⟨"uBO".toList, "A Block".toList⟩,
    ⟨"my-sigma-static-filters_".toList, "my-ablock-static-filters_".toList⟩,
    ⟨"my-sigma-dynamic-rules_".toList, "my-ablock-dynamic-rules_".toList⟩,
    ⟨"my-sigma-trusted-sites_".toList, "my-ablock-trusted-sites_".toList⟩ ]

end RenameToAblock

namespace FS

mutual
/-- The regular files that `walk` is to visit below an entry of the directory
`dir`, as pairs of directory and base name, in the order of enumeration: a
file itself, the visits of the entries of a directory that is not skipped, at
the position of that directory. -/
def Node.visits (skip : Str → Bool) : RelPath → Node → List (RelPath × Str)
  | dir, .file name _ => [(dir, name)]
  | dir, .dir name _ es => if skip name then [] else visitsList skip (dir ++ [name]) es
  | _, .other _ => []
/-- The visits of the entries of a listing, in order. -/
def visitsList (skip : Str → Bool) : RelPath → List Node → List (RelPath × Str)
  | _, [] => []
  | dir, n :: ns => n.visits skip dir ++ visitsList skip dir ns
end

mutual
/-- Every directory that `walk` enters at or below this entry can be
enumerated: `readdirSync` does not throw on it. -/
def Node.enterable (skip : Str → Bool) : Node → Bool
  | .dir name l es => skip name || (l && enterableList skip es)
  | _ => true
/-- The condition `Node.enterable` for every entry of a listing. -/
def enterableList (skip : Str → Bool) : List Node → Bool
  | [] => true
  | n :: ns => n.enterable skip && enterableList skip ns
end

/-- Whether an event is a `readdirSync` call. -/
def Event.isReaddir : Event → Bool
  | .readdirSync _ => true
  | _ => false

/-- The events `t` are those of one `processFile` call for each file of the
list, in the order of the list, each call made on some listing of the file's
directory. -/
inductive CallsOf (pf : RelPath → Str → List Node → List Node × List Event) :
    List (RelPath × Str) → List Event → Prop where
  | nil : CallsOf pf [] []
  | cons (dir : RelPath) (name : Str) (cur : List Node) {ps : List (RelPath × Str)}
      {t : List Event} :
      CallsOf pf ps t → CallsOf pf ((dir, name) :: ps) ((pf dir name cur).2 ++ t)

end FS

namespace Example
open FS

/-- A root directory whose first entry is a directory that cannot be
enumerated, listed before a regular file. -/
def locked : Node :=
  .dir [] true [.dir "private".toList false [textFile "ublock.txt" "uBlock"],
    textFile "notes.txt" "uBlock"]

end Example

namespace FS

/-- Whether the entry called `m` of a listing is a directory. -/
def isDirAt (es : List Node) (m : Str) : Bool :=
  match find es m with
  | some n => n.isDir
  | none => false

/-- The two listings hold the same entry under every name outside `D`. -/
def AgreeOn (D : List Str) (c1 c2 : List Node) : Prop :=
  ∀ m, m ∉ D → find c1 m = find c2 m

/-- Under every name the two listings both hold a directory or both hold
none. -/
def SameKind (c1 c2 : List Node) : Prop :=
  ∀ m, isDirAt c1 m = isDirAt c2 m

/-- The events of a run that do not concern the file at path `p`: those whose
first path is not `p`. -/
def others (p : RelPath) (t : List Event) : List Event :=
  t.filter (fun e => e.paths.head? != some p)

end FS

namespace Example
open FS

/-- The files `ublock.md` and `zeta.txt`, both to be rewritten. -/
def afterSigma : List Node :=
  [textFile "ublock.md" "uBlock", textFile "zeta.txt" "Sigma"]

/-- A root directory holding an unreadable file, the file `sigma` that cannot
be moved, and two files listed after them. -/
def faulty : Node :=
  .dir [] true
    (unreadable "notes.txt" ::
      .file "sigma".toList ⟨some 1, some "x".toList, true, false⟩ :: afterSigma)

/-- A root directory holding an unreadable file, then a directory that cannot
be enumerated, then a regular file. -/
def lockedAfter : Node :=
  .dir [] true [unreadable "notes.txt",
    .dir "private".toList false [textFile "ublock.txt" "uBlock"], textFile "zeta.txt" "uBlock"]

/-- A root directory holding `A Block.txt` and, listed after it, `ABlock.txt`,
with the given data. -/
def twoFiles (d1 d2 : FileData) : Node :=
  .dir [] true [.file "A Block.txt".toList d1, .file "ABlock.txt".toList d2]

end Example

namespace FS

/-- What the theorems about failures use of a script's `processFile`: a call on
a file whose name is not in `D` issues the same events and leaves listings that
agree outside `D`, on any two listings that agree outside `D` and hold
directories under the same names; and every event of a call names the file's
own path first. -/
structure ProcessFileLocal
    (pf : Bool → RelPath → Str → List Node → List Node × List Event) : Prop where
  congr : ∀ b D c1 c2 dir m, AgreeOn D c1 c2 → SameKind c1 c2 → m ∉ D →
    (pf b dir m c1).2 = (pf b dir m c2).2 ∧ AgreeOn D (pf b dir m c1).1 (pf b dir m c2).1
  subject : ∀ b dir m cur, ∀ e ∈ (pf b dir m cur).2, e.paths.head? = some (dir ++ [m])

end FS
/-! ## Strings: the scan of `split` and what `split(f).join(t)` can create -/

namespace JS

theorem includes_iff (s p : Str) : includes s p = true ↔ p <:+: s := by
  induction s with
  | nil => cases p <;> simp [includes]
  | cons c r ih =>
    simp only [includes, Bool.or_eq_true, ih, List.isPrefixOf_iff_prefix, List.infix_cons_iff]

theorem includes_eq_false_iff (s p : Str) : includes s p = false ↔ ¬ p <:+: s := by
  rw [← includes_iff]; simp

theorem splitGo_ne_nil (sep : Str) : ∀ (s : Str) (k : Nat) (cur : Str), splitGo sep k cur s ≠ [] := by
  intro s
  induction s with
  | nil => intro k cur; simp [splitGo]
  | cons c r ih =>
    intro k cur
    cases k with
    | zero =>
      simp only [splitGo]
      split
      · simp
      · exact ih _ _
    | succ k => simp only [splitGo]; exact ih _ _

theorem splitGo_skip (sep : Str) : ∀ (x r cur : Str),
    splitGo sep x.length cur (x ++ r) = splitGo sep 0 cur r := by
  intro x
  induction x with
  | nil => intro r cur; rfl
  | cons a x ih => intro r cur; simp only [List.length_cons, List.cons_append, splitGo]; exact ih r cur

theorem join_cons_of_ne_nil (a : Str) (L : List Str) (t : Str) (h : L ≠ []) :
    join (a :: L) t = a ++ t ++ join L t := by
  cases L with
  | nil => exact absurd rfl h
  | cons b rest => rfl

theorem splitGo_zero_cons (sep cur : Str) (c : Char) (rest : Str) :
    splitGo sep 0 cur (c :: rest) =
      if sep.isPrefixOf (c :: rest) then
        cur.reverse :: splitGo sep (sep.length - 1) [] rest
      else splitGo sep 0 (c :: cur) rest := rfl

/-- Joined output of the scanning loop started with a partial piece. -/
theorem join_splitGo_hit (f t : Str) (hf : f ≠ []) (cur r : Str) :
    join (splitGo f 0 cur (f ++ r)) t = cur.reverse ++ t ++ join (splitGo f 0 [] r) t := by
  cases f with
  | nil => exact absurd rfl hf
  | cons a f' =>
    have hp : (a :: f').isPrefixOf (a :: (f' ++ r)) = true := by
      rw [List.isPrefixOf_iff_prefix]; exact ⟨r, rfl⟩
    rw [List.cons_append, splitGo_zero_cons, if_pos hp,
      join_cons_of_ne_nil _ _ _ (splitGo_ne_nil _ _ _ _)]
    have := splitGo_skip (a :: f') f' r []
    simp only [List.length_cons, Nat.add_sub_cancel]
    rw [this]

theorem join_splitGo_miss (f t : Str) (cur : Str) (c : Char) (r : Str)
    (h : ¬ f <+: c :: r) :
    join (splitGo f 0 cur (c :: r)) t = join (splitGo f 0 (c :: cur) r) t := by
  have hp : f.isPrefixOf (c :: r) = false := by
    rw [← Bool.not_eq_true, List.isPrefixOf_iff_prefix]; exact h
  rw [splitGo_zero_cons, hp]; rfl


theorem join_splitGo_cur (f t : Str) (hf : f ≠ []) : ∀ (s cur : Str),
    join (splitGo f 0 cur s) t = cur.reverse ++ join (splitGo f 0 [] s) t := by
  intro s
  induction s with
  | nil => intro cur; simp [splitGo, join]
  | cons c r ih =>
    intro cur
    by_cases hp : f <+: c :: r
    · obtain ⟨r', hr'⟩ := hp
      rw [← hr', join_splitGo_hit f t hf, join_splitGo_hit f t hf]
      simp
    · rw [join_splitGo_miss f t cur c r hp, join_splitGo_miss f t [] c r hp, ih (c :: cur), ih [c]]
      simp

theorem split_of_ne_nil (s f : Str) (hf : f ≠ []) : split s f = splitGo f 0 [] s := by
  cases f with
  | nil => exact absurd rfl hf
  | cons a f' => rfl

theorem splitJoin_nil (f t : Str) (hf : f ≠ []) : splitJoin [] f t = [] := by
  rw [splitJoin, split_of_ne_nil _ _ hf]; rfl

theorem splitJoin_hit (f t : Str) (hf : f ≠ []) (r : Str) :
    splitJoin (f ++ r) f t = t ++ splitJoin r f t := by
  rw [splitJoin, splitJoin, split_of_ne_nil _ _ hf, split_of_ne_nil _ _ hf,
    join_splitGo_hit f t hf]
  simp

theorem splitJoin_miss (f t : Str) (hf : f ≠ []) (c : Char) (r : Str) (h : ¬ f <+: c :: r) :
    splitJoin (c :: r) f t = c :: splitJoin r f t := by
  rw [splitJoin, splitJoin, split_of_ne_nil _ _ hf, split_of_ne_nil _ _ hf,
    join_splitGo_miss f t [] c r h, join_splitGo_cur f t hf r [c]]
  simp

/-- Induction along the left-to-right scan of `split`: the text is empty, or
starts with an occurrence of the separator, or starts with a character at
which no occurrence begins. -/
theorem scan_induction (f : Str) (hf : f ≠ []) (P : Str → Prop) (hnil : P [])
    (hit : ∀ r, P r → P (f ++ r))
    (miss : ∀ c r, ¬ f <+: c :: r → P r → P (c :: r)) : ∀ s, P s := by
  have key : ∀ (n : Nat) (s : Str), s.length ≤ n → P s := by
    intro n
    induction n with
    | zero =>
      intro s hs
      have : s = [] := List.length_eq_zero.mp (Nat.le_zero.mp hs)
      subst this; exact hnil
    | succ n ih =>
      intro s hs
      cases s with
      | nil => exact hnil
      | cons c r =>
        by_cases hp : f <+: c :: r
        · obtain ⟨r', hr'⟩ := hp
          rw [← hr']
          apply hit
          apply ih
          have hlen : (f ++ r').length = (c :: r).length := by rw [hr']
          have hfl : 0 < f.length := List.length_pos.mpr hf
          simp only [List.length_append, List.length_cons] at hlen hs
          omega
        · apply miss c r hp
          apply ih
          simp only [List.length_cons] at hs
          omega
  intro s
  exact key s.length s (Nat.le_refl _)

/-- A text in which the pattern does not occur is left as it is. -/
theorem splitJoin_of_absent (f t : Str) (hf : f ≠ []) :
    ∀ s : Str, ¬ f <:+: s → splitJoin s f t = s := by
  intro s
  induction s with
  | nil => intro _; exact splitJoin_nil f t hf
  | cons c r ih =>
    intro h
    have h1 : ¬ f <+: c :: r := fun hp => h hp.isInfix
    have h2 : ¬ f <:+: r := fun hp => h (List.infix_cons hp)
    rw [splitJoin_miss f t hf c r h1, ih h2]

theorem prefix_append_cases {q a b : Str} (h : q <+: a ++ b) :
    q <+: a ∨ ∃ q2, q = a ++ q2 ∧ q2 <+: b := by
  rcases List.prefix_or_prefix_of_prefix h (List.prefix_append a b) with h1 | h1
  · exact Or.inl h1
  · obtain ⟨q2, hq2⟩ := h1
    refine Or.inr ⟨q2, hq2.symm, ?_⟩
    rw [← hq2] at h
    exact (List.prefix_append_right_inj a).mp h

theorem suffix_append_cases {u : Str} : ∀ {a b : Str}, u <:+ a ++ b →
    (∃ a1, u = a1 ++ b ∧ a1 <:+ a) ∨ u <:+ b := by
  intro a
  induction a with
  | nil => intro b h; exact Or.inr h
  | cons x a ih =>
    intro b h
    rcases List.suffix_cons_iff.mp h with h1 | h2
    · exact Or.inl ⟨x :: a, h1, List.suffix_refl _⟩
    · rcases ih h2 with ⟨a1, h3, h4⟩ | h3
      · exact Or.inl ⟨a1, h3, h4.trans (List.suffix_cons x a)⟩
      · exact Or.inr h3

/-- Where a prefix of the rewritten text comes from: it is a prefix of the
original text, or it contains the whole replacement, or it ends inside the
first inserted replacement and is preceded in the original by an occurrence of
the pattern. -/
theorem prefix_splitJoin (f t : Str) (hf : f ≠ []) : ∀ (s q : Str),
    q <+: splitJoin s f t →
      q <+: s ∨ t <:+: q ∨
        ∃ q1 q2, q = q1 ++ q2 ∧ q2 ≠ [] ∧ q2 <+: t ∧ (q1 ++ f) <+: s := by
  intro s
  induction s using scan_induction f hf with
  | hnil =>
    intro q hq
    rw [splitJoin_nil f t hf] at hq
    exact Or.inl hq
  | hit r _ =>
    intro q hq
    rw [splitJoin_hit f t hf] at hq
    rcases prefix_append_cases hq with h1 | ⟨q2, hq2, _⟩
    · by_cases hq0 : q = []
      · subst hq0; exact Or.inl List.nil_prefix
      · exact Or.inr (Or.inr ⟨[], q, rfl, hq0, h1, by simp⟩)
    · exact Or.inr (Or.inl (hq2 ▸ (List.prefix_append t q2).isInfix))
  | miss c r hm ih =>
    intro q hq
    rw [splitJoin_miss f t hf c r hm] at hq
    rcases List.prefix_cons_iff.mp hq with h0 | ⟨q', hq', hpre⟩
    · subst h0; exact Or.inl List.nil_prefix
    · subst hq'
      rcases ih q' hpre with h1 | h1 | ⟨q1, q2, h1, h2, h3, h4⟩
      · exact Or.inl ((List.prefix_cons_inj c).mpr h1)
      · exact Or.inr (Or.inl (List.infix_cons h1))
      · refine Or.inr (Or.inr ⟨c :: q1, q2, by rw [h1]; rfl, h2, h3, ?_⟩)
        exact (List.prefix_cons_inj c).mpr h4

/-- Every suffix of the rewritten text is a suffix of the replacement followed
by the rewriting of a suffix of the original text. -/
theorem suffix_splitJoin (f t : Str) (hf : f ≠ []) : ∀ (s u : Str),
    u <:+ splitJoin s f t →
      ∃ t1 s1, u = t1 ++ splitJoin s1 f t ∧ t1 <:+ t ∧ s1 <:+ s := by
  intro s
  induction s using scan_induction f hf with
  | hnil =>
    intro u hu
    rw [splitJoin_nil f t hf] at hu
    have hu0 : u = [] := List.eq_nil_of_suffix_nil hu
    exact ⟨[], [], by rw [hu0, splitJoin_nil f t hf]; rfl, List.nil_suffix, List.suffix_refl _⟩
  | hit r ih =>
    intro u hu
    rw [splitJoin_hit f t hf] at hu
    rcases suffix_append_cases hu with ⟨t1, ht1, ht2⟩ | h2
    · exact ⟨t1, r, ht1, ht2, List.suffix_append f r⟩
    · obtain ⟨t1, s1, h1, h2, h3⟩ := ih u h2
      exact ⟨t1, s1, h1, h2, h3.trans (List.suffix_append f r)⟩
  | miss c r hm ih =>
    intro u hu
    rw [splitJoin_miss f t hf c r hm] at hu
    rcases List.suffix_cons_iff.mp hu with h1 | h2
    · refine ⟨[], c :: r, ?_, List.nil_suffix, List.suffix_refl _⟩
      rw [h1, splitJoin_miss f t hf c r hm]; rfl
    · obtain ⟨t1, s1, h1, h2, h3⟩ := ih u h2
      exact ⟨t1, s1, h1, h2, h3.trans (List.suffix_cons c r)⟩

end JS

namespace Scan
open JS

theorem mem_splits : ∀ (q q1 q2 : Str), (q1, q2) ∈ splits q ↔ q1 ++ q2 = q := by
  intro q
  induction q with
  | nil =>
    intro q1 q2
    simp [splits]
  | cons c r ih =>
    intro q1 q2
    simp only [splits, List.mem_cons, List.mem_map, Prod.mk.injEq, Prod.exists]
    constructor
    · rintro (⟨h1, h2⟩ | ⟨a, b, hab, h1, h2⟩)
      · subst h1; subst h2; rfl
      · subst h1; subst h2
        rw [List.cons_append, (ih a b).mp hab]
    · intro h
      cases q1 with
      | nil => exact Or.inl ⟨rfl, h⟩
      | cons x q1 =>
        rw [List.cons_append] at h
        injection h with hx hr
        subst hx
        exact Or.inr ⟨q1, q2, (ih q1 q2).mpr hr, rfl, rfl⟩

theorem clash_of_infix_left {q t : Str} (h : t <:+: q) : clash q t = true := by
  simp [clash, (includes_iff q t).mpr h]

theorem clash_of_infix_right {q t : Str} (h : q <:+: t) : clash q t = true := by
  simp [clash, (includes_iff t q).mpr h]

theorem clash_of_overlap {q t t1 : Str} (h1 : t1 <:+ t) (h2 : t1 ≠ [])
    (h3 : t1 <+: q) : clash q t = true := by
  obtain ⟨t0, ht0⟩ := h1
  have hm : (t0, t1) ∈ splits t := (mem_splits t t0 t1).mpr ht0
  have : (splits t).any (fun p => !p.2.isEmpty && p.2.isPrefixOf q) = true := by
    rw [List.any_eq_true]
    refine ⟨(t0, t1), hm, ?_⟩
    simp [List.isEmpty_iff, h2, List.isPrefixOf_iff_prefix, h3]
  simp [clash, this]

theorem mem_seams {q t q1 q2 : Str} (h1 : q = q1 ++ q2) (h2 : q2 ≠ []) (h3 : q2 <+: t) :
    q1 ∈ seams q t := by
  simp only [seams, List.mem_map, List.mem_filter]
  refine ⟨(q1, q2), ⟨(mem_splits q q1 q2).mpr h1.symm, ?_⟩, rfl⟩
  simp [List.isEmpty_iff, h2, List.isPrefixOf_iff_prefix, h3]

/-- Where an occurrence of `q` in the rewritten text comes from. -/
theorem infix_splitJoin (f t : Str) (hf : f ≠ []) (s q : Str)
    (h : q <:+: splitJoin s f t) :
    q <:+: s ∨ clash q t = true ∨ ∃ q1 ∈ seams q t, (q1 ++ f) <:+: s := by
  obtain ⟨u, hqu, hus⟩ := List.infix_iff_prefix_suffix.mp h
  obtain ⟨t1, s1, hu, ht1, hs1⟩ := suffix_splitJoin f t hf s u hus
  subst hu
  rcases prefix_append_cases hqu with h1 | ⟨q2, hq2, hpre⟩
  · exact Or.inr (Or.inl (clash_of_infix_right (h1.isInfix.trans ht1.isInfix)))
  · by_cases ht : t1 = []
    · subst ht
      simp only [List.nil_append] at hq2
      subst hq2
      rcases prefix_splitJoin f t hf s1 q hpre with h1 | h1 | ⟨q1, q2, h1, h2, h3, h4⟩
      · exact Or.inl (h1.isInfix.trans hs1.isInfix)
      · exact Or.inr (Or.inl (clash_of_infix_left h1))
      · exact Or.inr (Or.inr ⟨q1, mem_seams h1 h2 h3, h4.isInfix.trans hs1.isInfix⟩)
    · exact Or.inr (Or.inl (clash_of_overlap ht1 ht (hq2 ▸ List.prefix_append t1 q2)))

/-- Where an occurrence of the replaced pattern itself in the rewritten text
comes from. -/
theorem pattern_infix_splitJoin (f t : Str) (hf : f ≠ []) (s : Str)
    (h : f <:+: splitJoin s f t) :
    clash f t = true ∨ ∃ q1 ∈ seams f t, (q1 ++ f) <:+: s := by
  obtain ⟨u, hqu, hus⟩ := List.infix_iff_prefix_suffix.mp h
  obtain ⟨t1, s1, hu, ht1, hs1⟩ := suffix_splitJoin f t hf s u hus
  subst hu
  rcases prefix_append_cases hqu with h1 | ⟨q2, hq2, hpre⟩
  · exact Or.inl (clash_of_infix_right (h1.isInfix.trans ht1.isInfix))
  · by_cases ht : t1 = []
    · subst ht
      simp only [List.nil_append] at hq2
      subst hq2
      rcases prefix_splitJoin f t hf s1 f hpre with h1 | h1 | ⟨q1, q2, h1, h2, h3, h4⟩
      · obtain ⟨r, hr⟩ := h1
        rw [← hr, splitJoin_hit f t hf] at hpre
        rcases prefix_append_cases hpre with h5 | ⟨q3, h5, _⟩
        · exact Or.inl (clash_of_infix_right h5.isInfix)
        · exact Or.inl (clash_of_infix_left (h5 ▸ (List.prefix_append t q3).isInfix))
      · exact Or.inl (clash_of_infix_left h1)
      · exact Or.inr ⟨q1, mem_seams h1 h2 h3, h4.isInfix.trans hs1.isInfix⟩
    · exact Or.inl (clash_of_overlap ht1 ht (hq2 ▸ List.prefix_append t1 q2))

theorem not_infix_of_covered {abs : List Str} {s w : Str} (ha : Absent abs s)
    (hc : covered abs w = true) : ¬ w <:+: s := by
  simp only [covered, List.any_eq_true] at hc
  obtain ⟨a, hmem, hinc⟩ := hc
  intro hw
  exact ha a hmem (((includes_iff w a).mp hinc).trans hw)

theorem keeps_sound {abs : List Str} {f t q s : Str} (hf : f ≠ []) (ha : Absent abs s)
    (hq : ¬ q <:+: s) (hk : keeps abs f t q = true) : ¬ q <:+: splitJoin s f t := by
  simp only [keeps, Bool.and_eq_true, Bool.not_eq_true', List.all_eq_true] at hk
  intro h
  rcases infix_splitJoin f t hf s q h with h1 | h1 | ⟨q1, hq1, h1⟩
  · exact hq h1
  · rw [hk.1] at h1; exact Bool.noConfusion h1
  · exact not_infix_of_covered ha (hk.2 q1 hq1) h1

theorem kills_sound {abs : List Str} {f t s : Str} (hf : f ≠ []) (ha : Absent abs s)
    (hk : keeps abs f t f = true) : ¬ f <:+: splitJoin s f t := by
  simp only [keeps, Bool.and_eq_true, Bool.not_eq_true', List.all_eq_true] at hk
  intro h
  rcases pattern_infix_splitJoin f t hf s h with h1 | ⟨q1, hq1, h1⟩
  · rw [hk.1] at h1; exact Bool.noConfusion h1
  · exact not_infix_of_covered ha (hk.2 q1 hq1) h1

theorem absentAfter_sound : ∀ (rules : List Rule) (abs : List Str) (s : Str),
    (∀ r ∈ rules, r.from_ ≠ []) → Absent abs s →
    Absent (absentAfter rules abs) (RenameToAblock.applyReplacementsWith rules s) := by
  intro rules
  induction rules with
  | nil => intro abs s _ ha; exact ha
  | cons r rest ih =>
    intro abs s hne ha
    have hf : r.from_ ≠ [] := hne r (List.mem_cons_self _ _)
    simp only [absentAfter, RenameToAblock.applyReplacementsWith]
    apply ih _ _ (fun r' hr' => hne r' (List.mem_cons_of_mem _ hr'))
    have hkept : Absent (abs.filter (keeps abs r.from_ r.to_)) (splitJoin s r.from_ r.to_) := by
      intro a hmem
      rw [List.mem_filter] at hmem
      exact keeps_sound hf ha (ha a hmem.1) hmem.2
    split
    · next hk =>
      intro a hmem
      rcases List.mem_cons.mp hmem with h1 | h1
      · subst h1; exact kills_sound hf ha hk
      · exact hkept a h1
    · exact hkept

theorem applyReplacementsWith_fixed : ∀ (rules : List Rule) (s : Str),
    (∀ r ∈ rules, r.from_ ≠ [] ∧ ¬ r.from_ <:+: s) →
    RenameToAblock.applyReplacementsWith rules s = s := by
  intro rules
  induction rules with
  | nil => intro s _; rfl
  | cons r rest ih =>
    intro s h
    have h1 := h r (List.mem_cons_self _ _)
    simp only [RenameToAblock.applyReplacementsWith]
    have : join (split s r.from_) r.to_ = s := splitJoin_of_absent r.from_ r.to_ h1.1 s h1.2
    rw [this]
    exact ih s (fun r' hr' => h r' (List.mem_cons_of_mem _ hr'))

/-- A table that passes `stable` is idempotent on every text in which none of
the patterns `abs` occurs. -/
theorem idempotent_of_stable (rules : List Rule) (abs : List Str) (s : Str)
    (hst : stable rules abs = true) (ha : Absent abs s) :
    RenameToAblock.applyReplacementsWith rules (RenameToAblock.applyReplacementsWith rules s) =
      RenameToAblock.applyReplacementsWith rules s := by
  simp only [stable, Bool.and_eq_true, List.all_eq_true, Bool.not_eq_true', List.isEmpty_eq_false] at hst
  have hne : ∀ r ∈ rules, r.from_ ≠ [] := fun r hr => hst.1 r hr
  have hout := absentAfter_sound rules abs s hne ha
  apply applyReplacementsWith_fixed
  intro r hr
  exact ⟨hne r hr, not_infix_of_covered hout (hst.2 r hr) ⟩

theorem applyGuardedWith_eq : ∀ (rules : List Rule) (s : Str),
    SigmaRename.applyGuardedWith rules s = RenameToAblock.applyReplacementsWith rules s := by
  intro rules
  induction rules with
  | nil => intro s; rfl
  | cons r rest ih =>
    intro s
    simp only [SigmaRename.applyGuardedWith, RenameToAblock.applyReplacementsWith]
    by_cases hinc : includes s r.from_ = true
    · rw [if_pos hinc]; exact ih _
    · rw [if_neg hinc]
      have hni : ¬ r.from_ <:+: s := fun h => hinc ((includes_iff s r.from_).mpr h)
      have hf : r.from_ ≠ [] := fun h0 => hni (h0 ▸ List.nil_infix)
      have : join (split s r.from_) r.to_ = s := splitJoin_of_absent r.from_ r.to_ hf s hni
      rw [this]; exact ih _

end Scan


/-! ## Line classifier and rewriters -/

namespace JS

theorem infix_dropWhile (P : Char → Bool) (c : Char) (p1 : Str) (hc : P c = false) :
    ∀ s : Str, (c :: p1) <:+: s → (c :: p1) <:+: s.dropWhile P := by
  intro s
  induction s with
  | nil => intro h; exact h
  | cons x r ih =>
    intro h
    by_cases hx : P x = true
    · rw [List.dropWhile_cons_of_pos hx]
      rcases List.infix_cons_iff.mp h with h1 | h1
      · have hcx : c = x := (List.cons_prefix_cons.mp h1).1
        rw [hcx, hx] at hc
        exact Bool.noConfusion hc
      · exact ih h1
    · rw [List.dropWhile_cons_of_neg hx]
      exact h

/-- A substring that neither starts nor ends with white space survives `trim`. -/
theorem infix_trim (p : Str) (a : Char) (p1 : Str) (b : Char) (p2 : Str)
    (h1 : p = a :: p1) (h2 : p.reverse = b :: p2)
    (ha : isWhiteSpace a = false) (hb : isWhiteSpace b = false) (s : Str)
    (h : p <:+: s) : p <:+: trim s := by
  have s1 : p <:+: s.dropWhile isWhiteSpace := by
    rw [h1] at h ⊢
    exact infix_dropWhile isWhiteSpace a p1 ha s h
  have s2 : p.reverse <:+: (s.dropWhile isWhiteSpace).reverse := List.reverse_infix.mpr s1
  rw [h2] at s2
  have s3 := infix_dropWhile isWhiteSpace b p2 hb _ s2
  rw [← h2] at s3
  have s4 := List.reverse_infix.mpr s3
  rw [List.reverse_reverse] at s4
  exact s4

theorem toLowerCase_append (a b : Str) :
    toLowerCase (a ++ b) = toLowerCase a ++ toLowerCase b := by
  induction a with
  | nil => rfl
  | cons c r ih =>
    show lowerChar c ++ toLowerCase (r ++ b) = (lowerChar c ++ toLowerCase r) ++ toLowerCase b
    rw [ih, List.append_assoc]

/-- A substring that lower-casing leaves alone is still there after
`toLowerCase`. -/
theorem infix_toLowerCase (p : Str) (hp : toLowerCase p = p) (s : Str) (h : p <:+: s) :
    p <:+: toLowerCase s := by
  obtain ⟨a, b, hab⟩ := h
  rw [← hab, toLowerCase_append, toLowerCase_append, hp]
  exact ⟨toLowerCase a, toLowerCase b, rfl⟩

end JS

namespace RenameToAblock
open JS

theorem shouldSkipLine_of_http (line : Str) (h : includes line "http://".toList = true) :
    shouldSkipLine line = true := by
  have h1 : includes (trim line) "http://".toList = true :=
    (includes_iff _ _).mpr
      (infix_trim "http://".toList 'h' "ttp://".toList '/' "/:ptth".toList rfl rfl
        (by decide) (by decide) line ((includes_iff _ _).mp h))
  simp only [shouldSkipLine, h1, Bool.or_true, Bool.true_or]

theorem shouldSkipLine_of_https (line : Str) (h : includes line "https://".toList = true) :
    shouldSkipLine line = true := by
  have h1 : includes (trim line) "https://".toList = true :=
    (includes_iff _ _).mpr
      (infix_trim "https://".toList 'h' "ttps://".toList '/' "/:sptth".toList rfl rfl
        (by decide) (by decide) line ((includes_iff _ _).mp h))
  simp only [shouldSkipLine, h1, Bool.or_true, Bool.true_or]

end RenameToAblock

namespace SigmaRename
open JS

theorem looksLikeUrl_of_http (line : Str) (h : includes line "http://".toList = true) :
    lineLooksLikeUrlOrImport line = true := by
  have h1 : includes (toLowerCase line) "http://".toList = true :=
    (includes_iff _ _).mpr
      (infix_toLowerCase "http://".toList (by decide) line ((includes_iff _ _).mp h))
  simp only [lineLooksLikeUrlOrImport, h1, Bool.or_true, Bool.true_or, if_true]

theorem looksLikeUrl_of_https (line : Str) (h : includes line "https://".toList = true) :
    lineLooksLikeUrlOrImport line = true := by
  have h1 : includes (toLowerCase line) "https://".toList = true :=
    (includes_iff _ _).mpr
      (infix_toLowerCase "https://".toList (by decide) line ((includes_iff _ _).mp h))
  simp only [lineLooksLikeUrlOrImport, h1, Bool.or_true, Bool.true_or, if_true]

end SigmaRename

/-- C1 (protection invariant).  A line that contains `http://` or `https://`
is pushed unchanged by the line loop of `processFile` in `rename-to-ablock.js`
and returned unchanged by the `lines.map` callback of `applyContentReplacements`
in `sigma-rename.js`; neither sets the change flag, whatever else the line
contains. -/
theorem protected_line_unchanged (line : Str)
    (h : JS.includes line "http://".toList = true ∨ JS.includes line "https://".toList = true) :
    RenameToAblock.processLine line = (line, false) ∧
      SigmaRename.mapLine line = (line, false) := by
  rcases h with h | h
  · exact ⟨by simp [RenameToAblock.processLine, RenameToAblock.shouldSkipLine_of_http line h],
      by simp [SigmaRename.mapLine, SigmaRename.looksLikeUrl_of_http line h]⟩
  · exact ⟨by simp [RenameToAblock.processLine, RenameToAblock.shouldSkipLine_of_https line h],
      by simp [SigmaRename.mapLine, SigmaRename.looksLikeUrl_of_https line h]⟩

/-- Witness for C1: the line `uBlock docs: https://example.com/ublock-thing`. -/
theorem protected_line_unchanged_witness :
    (JS.includes "uBlock docs: https://example.com/ublock-thing".toList "http://".toList = true ∨
      JS.includes "uBlock docs: https://example.com/ublock-thing".toList "https://".toList = true) ∧
    (RenameToAblock.processLine "uBlock docs: https://example.com/ublock-thing".toList =
        ("uBlock docs: https://example.com/ublock-thing".toList, false) ∧
      SigmaRename.mapLine "uBlock docs: https://example.com/ublock-thing".toList =
        ("uBlock docs: https://example.com/ublock-thing".toList, false)) :=
  ⟨by decide, protected_line_unchanged _ (by decide)⟩

/-- C2 (rule ordering).  `applyContentReplacements` of `rename-to-ablock.js` is
the left fold of `split(from).join(to)` over the rule table in its listed
order, each rule working on the output of the one before; with the table as a
parameter, the rules `Alpha Widget -> X`, `Alpha -> Y` turn
`Alpha Widget uses Alpha` into `X uses Y`.  For a non-empty pattern,
`split(f).join(t)` is the literal replace-all: scanning from the left, an
occurrence of `f` is replaced by `t` and skipped, any other character is
copied. -/
theorem rule_order_fold (rules : List Rule) (line : Str) :
    RenameToAblock.applyReplacementsWith rules line =
        rules.foldl (fun cur r => JS.join (JS.split cur r.from_) r.to_) line ∧
      RenameToAblock.applyContentReplacements line =
        RenameToAblock.contentReplacements.foldl
          (fun cur r => JS.join (JS.split cur r.from_) r.to_) line ∧
      RenameToAblock.applyReplacementsWith
          [⟨"Alpha Widget".toList, "X".toList⟩, ⟨"Alpha".toList, "Y".toList⟩]
          "Alpha Widget uses Alpha".toList = "X uses Y".toList ∧
      (∀ f t : Str, f ≠ [] →
        JS.join (JS.split [] f) t = [] ∧
        (∀ r, JS.join (JS.split (f ++ r) f) t = t ++ JS.join (JS.split r f) t) ∧
        (∀ c r, ¬ f <+: c :: r →
          JS.join (JS.split (c :: r) f) t = c :: JS.join (JS.split r f) t)) := by
  have key : ∀ (rs : List Rule) (s : Str),
      RenameToAblock.applyReplacementsWith rs s =
        rs.foldl (fun cur r => JS.join (JS.split cur r.from_) r.to_) s := by
    intro rs
    induction rs with
    | nil => intro s; rfl
    | cons r rest ih => intro s; exact ih _
  exact ⟨key rules line, key _ line, by decide,
    fun f t hf => ⟨JS.splitJoin_nil f t hf, JS.splitJoin_hit f t hf, JS.splitJoin_miss f t hf⟩⟩

/-- C3, counterexample.  The unprotected line `Sigmublock` is rewritten to
`Sigmablock` (only `ublock -> ablock` matches), and rewriting that output again
changes it to `A Blockblock` (now `Sigma -> A Block` matches): the second run
reports a content change. -/
theorem content_rewrite_not_idempotent :
    RenameToAblock.processLine "Sigmublock".toList = ("Sigmablock".toList, true) ∧
      RenameToAblock.processLine (RenameToAblock.processLine "Sigmublock".toList).1 =
        ("A Blockblock".toList, true) ∧
      (RenameToAblock.processLine (RenameToAblock.processLine "Sigmublock".toList).1).1 ≠
        (RenameToAblock.processLine "Sigmublock".toList).1 := by
  decide

/-- C3, amended (content idempotence of `rename-to-ablock.js`).  For every line
that does not contain `Sigmublock`, running the per-line rewrite on its own
output returns that output and does not set the change flag. -/
theorem content_rewrite_idempotent (line : Str)
    (h : JS.includes line "Sigmublock".toList = false) :
    RenameToAblock.processLine (RenameToAblock.processLine line).1 =
      ((RenameToAblock.processLine line).1, false) := by
  have habs : Scan.Absent ["Sigmublock".toList] line := by
    intro a ha
    rw [List.mem_singleton] at ha
    subst ha
    exact (JS.includes_eq_false_iff _ _).mp h
  have hidem := Scan.idempotent_of_stable RenameToAblock.contentReplacements
    ["Sigmublock".toList] line (by decide) habs
  by_cases hs : RenameToAblock.shouldSkipLine line = true
  · simp [RenameToAblock.processLine, hs]
  · by_cases hs2 : RenameToAblock.shouldSkipLine (RenameToAblock.applyContentReplacements line) = true
    · simp [RenameToAblock.processLine, hs, hs2]
    · have h3 : RenameToAblock.applyContentReplacements
          (RenameToAblock.applyContentReplacements line) =
          RenameToAblock.applyContentReplacements line := hidem
      simp [RenameToAblock.processLine, hs, hs2, h3]

/-- Witness for C3 amended: the line `Sigma Block and uBlock Origin (ublock)`. -/
theorem content_rewrite_idempotent_witness :
    JS.includes "Sigma Block and uBlock Origin (ublock)".toList "Sigmublock".toList = false ∧
    RenameToAblock.processLine
        (RenameToAblock.processLine "Sigma Block and uBlock Origin (ublock)".toList).1 =
      ((RenameToAblock.processLine "Sigma Block and uBlock Origin (ublock)".toList).1, false) :=
  ⟨by decide, content_rewrite_idempotent _ (by decide)⟩

/-- C4, counterexample.  The file name `sigmsigma` is rewritten to
`sigmablock`, and rewriting `sigmablock` gives `ablockblock`: a second run
renames the already renamed file again. -/
theorem filename_rewrite_not_idempotent :
    RenameToAblock.applyFilenameReplacements "sigmsigma".toList = "sigmablock".toList ∧
      RenameToAblock.applyFilenameReplacements
          (RenameToAblock.applyFilenameReplacements "sigmsigma".toList) =
        "ablockblock".toList ∧
      RenameToAblock.applyFilenameReplacements
          (RenameToAblock.applyFilenameReplacements "sigmsigma".toList) ≠
        RenameToAblock.applyFilenameReplacements "sigmsigma".toList := by
  decide

/-- C4, amended (name idempotence of `rename-to-ablock.js`).  For every file
name that contains neither `sigmsigma` nor `sigmublock`,
`applyFilenameReplacements` applied to its own output returns that output. -/
theorem filename_rewrite_idempotent (n : Str)
    (h1 : JS.includes n "sigmsigma".toList = false)
    (h2 : JS.includes n "sigmublock".toList = false) :
    RenameToAblock.applyFilenameReplacements (RenameToAblock.applyFilenameReplacements n) =
      RenameToAblock.applyFilenameReplacements n := by
  have habs : Scan.Absent ["sigmsigma".toList, "sigmublock".toList] n := by
    intro a ha
    simp only [List.mem_cons, List.mem_singleton, List.not_mem_nil, or_false] at ha
    rcases ha with ha | ha
    · subst ha; exact (JS.includes_eq_false_iff _ _).mp h1
    · subst ha; exact (JS.includes_eq_false_iff _ _).mp h2
  exact Scan.idempotent_of_stable RenameToAblock.filenameReplacements
    ["sigmsigma".toList, "sigmublock".toList] n (by decide) habs

/-- Witness for C4 amended: the file name `Sigma-ublock-sigma.txt`. -/
theorem filename_rewrite_idempotent_witness :
    JS.includes "Sigma-ublock-sigma.txt".toList "sigmsigma".toList = false ∧
    JS.includes "Sigma-ublock-sigma.txt".toList "sigmublock".toList = false ∧
    RenameToAblock.applyFilenameReplacements
        (RenameToAblock.applyFilenameReplacements "Sigma-ublock-sigma.txt".toList) =
      RenameToAblock.applyFilenameReplacements "Sigma-ublock-sigma.txt".toList :=
  ⟨by decide, by decide, filename_rewrite_idempotent _ (by decide) (by decide)⟩

/-- C5 (name idempotence of `sigma-rename.js`).  For every file name,
`applyNameReplacements` applied to its own output returns that output. -/
theorem name_rewrite_idempotent (n : Str) :
    SigmaRename.applyNameReplacements (SigmaRename.applyNameReplacements n) =
      SigmaRename.applyNameReplacements n := by
  simp only [SigmaRename.applyNameReplacements, Scan.applyGuardedWith_eq]
  exact Scan.idempotent_of_stable SigmaRename.nameReplacements [] n (by decide)
    (fun a ha => absurd ha (List.not_mem_nil a))

/-! ## The file system model -/

namespace FS

theorem find_nil (m : Str) : find [] m = none := rfl

theorem find_cons (x : Node) (xs : List Node) (m : Str) :
    find (x :: xs) m = if x.name = m then some x else find xs m := by
  unfold find
  rw [List.find?_cons]
  by_cases h : x.name = m
  · simp [h]
  · have hb : (x.name == m) = false := by simp [h]
    rw [hb, if_neg h]

theorem find_some {es : List Node} {m : Str} {n : Node} (h : find es m = some n) :
    n.name = m ∧ n ∈ es := by
  induction es with
  | nil => rw [find_nil] at h; exact Option.noConfusion h
  | cons x xs ih =>
    rw [find_cons] at h
    by_cases hx : x.name = m
    · rw [if_pos hx] at h
      injection h with h
      subst h
      exact ⟨hx, List.mem_cons_self _ _⟩
    · rw [if_neg hx] at h
      exact ⟨(ih h).1, List.mem_cons_of_mem _ (ih h).2⟩

theorem find_none {es : List Node} {m : Str} (h : find es m = none) : m ∉ names es := by
  induction es with
  | nil => simp [names]
  | cons x xs ih =>
    rw [find_cons] at h
    by_cases hx : x.name = m
    · rw [if_pos hx] at h; exact Option.noConfusion h
    · rw [if_neg hx] at h
      intro hm
      simp only [names, List.map_cons, List.mem_cons] at hm
      rcases hm with hm | hm
      · exact hx hm.symm
      · exact ih h hm

theorem mem_names_of_mem {es : List Node} {n : Node} (h : n ∈ es) : n.name ∈ names es :=
  List.mem_map_of_mem _ h

/-- With distinct names, an entry is what `find` returns for its name. -/
theorem find_of_mem {es : List Node} (hnd : (names es).Nodup) {n : Node} (h : n ∈ es) :
    find es n.name = some n := by
  induction es with
  | nil => exact absurd h (List.not_mem_nil _)
  | cons x xs ih =>
    rw [find_cons]
    simp only [names, List.map_cons, List.nodup_cons] at hnd
    rcases List.mem_cons.mp h with h1 | h1
    · subst h1; rw [if_pos rfl]
    · have hne : x.name ≠ n.name := fun he => hnd.1 (he ▸ mem_names_of_mem h1)
      rw [if_neg hne]
      exact ih hnd.2 h1

theorem find_map_same_name (g : Node → Node) (hg : ∀ n, (g n).name = n.name)
    (es : List Node) (m : Str) : find (es.map g) m = (find es m).map g := by
  induction es with
  | nil => rfl
  | cons x xs ih =>
    rw [List.map_cons, find_cons, find_cons, hg]
    by_cases hx : x.name = m
    · rw [if_pos hx, if_pos hx]; rfl
    · rw [if_neg hx, if_neg hx]; exact ih

theorem names_map_same_name (g : Node → Node) (hg : ∀ n, (g n).name = n.name)
    (es : List Node) : names (es.map g) = names es := by
  induction es with
  | nil => rfl
  | cons x xs ih =>
    simp only [names, List.map_cons, hg] at ih ⊢
    rw [ih]

theorem find_filter_ne (es : List Node) (m new : Str) (h : m ≠ new) :
    find (es.filter (fun n => n.name != new)) m = find es m := by
  induction es with
  | nil => rfl
  | cons x xs ih =>
    rw [List.filter_cons]
    by_cases hx : x.name = new
    · have hb : (x.name != new) = false := by simp [hx]
      have hxm : ¬ x.name = m := fun he => h (he.symm.trans hx)
      rw [hb, find_cons, if_neg hxm]
      exact ih
    · have hb : (x.name != new) = true := by simp [hx]
      rw [hb, if_pos rfl, find_cons, find_cons, ih]

theorem find_map_rename_other (es : List Node) (old new m : Str) (h1 : m ≠ old) (h2 : m ≠ new) :
    find (es.map (fun n => if n.name == old then n.rename new else n)) m = find es m := by
  induction es with
  | nil => rfl
  | cons x xs ih =>
    rw [List.map_cons, find_cons, find_cons, ih]
    by_cases hx : x.name = old
    · have hxm : x.name ≠ m := fun he => h1 (he ▸ hx)
      have hrn : (x.rename new).name = new := by cases x <;> rfl
      simp only [hx, beq_self_eq_true, if_true, hrn]
      rw [if_neg (fun he => h2 he.symm), if_neg (fun he => h1 he.symm)]
    · have : (x.name == old) = false := by simp [hx]
      simp only [this]
      rfl


theorem skeleton_dir (name : Str) (l : Bool) (es : List Node) :
    (Node.dir name l es).skeleton = [DirTree.mk name l (skeletonList es)] := by
  rw [Node.skeleton]

theorem skeleton_of_not_isDir {n : Node} (h : n.isDir = false) : n.skeleton = [] := by
  cases n with
  | file name d => simp [Node.skeleton]
  | dir name l es => exact Bool.noConfusion h
  | other name => simp [Node.skeleton]

theorem skeletonList_cons (n : Node) (ns : List Node) :
    skeletonList (n :: ns) = n.skeleton ++ skeletonList ns := by
  rw [skeletonList]

theorem skeletonList_map (g : Node → Node) (es : List Node)
    (hg : ∀ n ∈ es, (g n).skeleton = n.skeleton) :
    skeletonList (es.map g) = skeletonList es := by
  induction es with
  | nil => rfl
  | cons x xs ih =>
    rw [List.map_cons, skeletonList_cons, skeletonList_cons, hg x (List.mem_cons_self _ _),
      ih (fun n hn => hg n (List.mem_cons_of_mem _ hn))]

theorem skeletonList_filter (p : Node → Bool) (es : List Node)
    (hp : ∀ n ∈ es, p n = false → n.isDir = false) :
    skeletonList (es.filter p) = skeletonList es := by
  induction es with
  | nil => rfl
  | cons x xs ih =>
    have ih1 := ih (fun n hn => hp n (List.mem_cons_of_mem _ hn))
    rw [List.filter_cons]
    by_cases hx : p x = true
    · rw [if_pos hx, skeletonList_cons, skeletonList_cons, ih1]
    · rw [if_neg hx, skeletonList_cons, ih1,
        skeleton_of_not_isDir (hp x (List.mem_cons_self _ _) (by simpa using hx))]
      rfl

theorem wf_dir (name : Str) (l : Bool) (es : List Node) :
    (Node.dir name l es).wf = (decide (names es).Nodup && wfList es) := by
  rw [Node.wf]

theorem wf_of_not_isDir {n : Node} (h : n.isDir = false) : n.wf = true := by
  cases n with
  | file name d => simp [Node.wf]
  | dir name l es => exact Bool.noConfusion h
  | other name => simp [Node.wf]

theorem wfList_iff (es : List Node) : wfList es = true ↔ ∀ n ∈ es, n.wf = true := by
  induction es with
  | nil => simp [wfList]
  | cons x xs ih =>
    rw [wfList, Bool.and_eq_true, ih]
    simp

theorem rename_name (n : Node) (new : Str) : (n.rename new).name = new := by
  cases n <;> rfl

theorem rename_isDir (n : Node) (new : Str) : (n.rename new).isDir = n.isDir := by
  cases n <;> rfl

theorem written_name (n : Node) (data : Str) : (n.written data).name = n.name := by
  cases n <;> rfl

theorem written_isDir (n : Node) (data : Str) : (n.written data).isDir = n.isDir := by
  cases n <;> rfl

theorem written_of_isDir {n : Node} (data : Str) (h : n.isDir = true) : n.written data = n := by
  cases n with
  | file name d => exact Bool.noConfusion h
  | dir name l es => rfl
  | other name => rfl


theorem rename_wf (n : Node) (new : Str) : (n.rename new).wf = n.wf := by
  cases n with
  | file name d => simp [Node.rename, Node.wf]
  | dir name l es => simp only [Node.rename, wf_dir]
  | other name => simp [Node.rename, Node.wf]

theorem writeFileSync_some {es c1 : List Node} {name data : Str}
    (h : writeFileSync es name data = some c1) :
    c1 = es.map (fun n => if n.name == name then n.written data else n) := by
  unfold writeFileSync at h
  split at h
  · split at h
    · injection h with h; exact h.symm
    · exact Option.noConfusion h
  · exact Option.noConfusion h

theorem renameSync_some {es c1 : List Node} {old new : Str}
    (h : renameSync es old new = some c1) :
    c1 = es ∨ (old ≠ new ∧ (∀ n, find es new = some n → n.isDir = false) ∧
      c1 = (es.filter (fun n => n.name != new)).map
        (fun n => if n.name == old then n.rename new else n)) := by
  unfold renameSync at h
  split at h
  · exact Option.noConfusion h
  · split at h
    · exact Option.noConfusion h
    · split at h
      · injection h with h; exact Or.inl h.symm
      · next hne =>
        have hne1 : old ≠ new := by simpa using hne
        split at h
        · exact Option.noConfusion h
        · next hnd =>
          injection h with h
          refine Or.inr ⟨hne1, ?_, h.symm⟩
          intro n hn
          cases n with
          | file name d => rfl
          | dir name l sub => exact absurd hn (hnd name l sub)
          | other name => rfl

theorem write_step {es c1 : List Node} {name data : Str}
    (h : writeFileSync es name data = some c1) :
    names c1 = names es ∧ skeletonList c1 = skeletonList es ∧ wfList c1 = wfList es ∧
      (∀ m, m ≠ name → find c1 m = find es m) ∧
      (∀ m, NoDirNamed es m → NoDirNamed c1 m) := by
  have hc := writeFileSync_some h
  subst hc
  have hname : ∀ n : Node, (if n.name == name then n.written data else n).name = n.name := by
    intro n; split
    · exact written_name n data
    · rfl
  have hdir : ∀ n : Node, (if n.name == name then n.written data else n).isDir = n.isDir := by
    intro n; split
    · exact written_isDir n data
    · rfl
  have hsame : ∀ n : Node, n.isDir = true →
      (if n.name == name then n.written data else n) = n := by
    intro n hn; split
    · exact written_of_isDir data hn
    · rfl
  refine ⟨names_map_same_name _ hname es, ?_, ?_, ?_, ?_⟩
  · apply skeletonList_map
    intro n _
    by_cases hn : n.isDir = true
    · rw [hsame n hn]
    · have hn1 : n.isDir = false := by simpa using hn
      rw [skeleton_of_not_isDir hn1, skeleton_of_not_isDir ((hdir n).trans hn1)]
  · have hwf : ∀ n : Node, (if n.name == name then n.written data else n).wf = n.wf := by
      intro n
      by_cases hn : n.isDir = true
      · rw [hsame n hn]
      · have hn1 : n.isDir = false := by simpa using hn
        rw [wf_of_not_isDir hn1, wf_of_not_isDir ((hdir n).trans hn1)]
    apply Bool.eq_iff_iff.mpr
    rw [wfList_iff, wfList_iff]
    constructor
    · intro hall n hn
      rw [← hwf n]
      exact hall _ (List.mem_map_of_mem _ hn)
    · intro hall n hn
      obtain ⟨n0, hn0, hn1⟩ := List.mem_map.mp hn
      rw [← hn1, hwf n0]
      exact hall n0 hn0
  · intro m hm
    rw [find_map_same_name _ hname]
    cases hf : find es m with
    | none => rfl
    | some n =>
      have hnm : n.name = m := (find_some hf).1
      have : (n.name == name) = false := by
        rw [hnm]; simpa using hm
      simp only [Option.map, this, Bool.false_eq_true, if_false]
  · intro m hno n hn hnm
    obtain ⟨n0, hn0, hn1⟩ := List.mem_map.mp hn
    rw [← hn1, hdir n0]
    rw [← hn1, hname n0] at hnm
    exact hno n0 hn0 hnm

theorem rename_step {es c1 : List Node} {old new : Str}
    (h : renameSync es old new = some c1) (hnd : (names es).Nodup)
    (hno : NoDirNamed es old) :
    (names c1).Nodup ∧ skeletonList c1 = skeletonList es ∧
      (wfList es = true → wfList c1 = true) ∧
      (∀ m, m ≠ old → m ≠ new → find c1 m = find es m) ∧
      NoDirNamed c1 old := by
  rcases renameSync_some h with hc | ⟨hne, hnew, hc⟩
  · subst hc
    exact ⟨hnd, rfl, fun hw => hw, fun _ _ _ => rfl, hno⟩
  · subst hc
    have hmemf : ∀ n, n ∈ es.filter (fun n => n.name != new) → n ∈ es ∧ n.name ≠ new := by
      intro n hn
      rw [List.mem_filter] at hn
      exact ⟨hn.1, by simpa using hn.2⟩
    refine ⟨?_, ?_, ?_, ?_, ?_⟩
    · have hnames : names ((es.filter (fun n => n.name != new)).map
          (fun n => if n.name == old then n.rename new else n)) =
          (names (es.filter (fun n => n.name != new))).map
            (fun x => if x == old then new else x) := by
        simp only [names, List.map_map]
        apply List.map_congr_left
        intro n _
        simp only [Function.comp]
        split
        · exact rename_name n new
        · rfl
      rw [hnames]
      apply List.Nodup.map_on
      · intro x hx y hy hxy
        have hx1 : x ≠ new := by
          obtain ⟨n, hn, hn1⟩ := List.mem_map.mp hx
          exact hn1 ▸ (hmemf n hn).2
        have hy1 : y ≠ new := by
          obtain ⟨n, hn, hn1⟩ := List.mem_map.mp hy
          exact hn1 ▸ (hmemf n hn).2
        by_cases hxo : x = old <;> by_cases hyo : y = old
        · rw [hxo, hyo]
        · simp only [hxo, beq_self_eq_true, if_true] at hxy
          have : (y == old) = false := by simpa using hyo
          simp only [this] at hxy
          exact absurd hxy.symm hy1
        · simp only [hyo, beq_self_eq_true, if_true] at hxy
          have : (x == old) = false := by simpa using hxo
          simp only [this] at hxy
          exact absurd hxy hx1
        · have h1 : (x == old) = false := by simpa using hxo
          have h2 : (y == old) = false := by simpa using hyo
          simp only [h1, h2] at hxy
          exact hxy
      · exact hnd.sublist ((List.filter_sublist es).map Node.name)
    · rw [skeletonList_map, skeletonList_filter]
      · intro n hn hp
        have hnn : n.name = new := by simpa using hp
        exact hnew n (hnn ▸ find_of_mem hnd hn)
      · intro n hn
        split
        · next hn1 =>
          have hn2 : n.name = old := by simpa using hn1
          have hd : n.isDir = false := hno n (hmemf n hn).1 hn2
          rw [skeleton_of_not_isDir hd, skeleton_of_not_isDir ((rename_isDir n new).trans hd)]
        · rfl
    · intro hw
      rw [wfList_iff] at hw ⊢
      intro n hn
      obtain ⟨n0, hn0, hn1⟩ := List.mem_map.mp hn
      rw [← hn1]
      split
      · rw [rename_wf]; exact hw n0 (hmemf n0 hn0).1
      · exact hw n0 (hmemf n0 hn0).1
    · intro m hm1 hm2
      rw [find_map_rename_other _ _ _ _ hm1 hm2, find_filter_ne _ _ _ hm2]
    · intro n hn hnm
      obtain ⟨n0, hn0, hn1⟩ := List.mem_map.mp hn
      rw [← hn1] at hnm
      split at hnm
      · rw [rename_name] at hnm
        exact absurd hnm.symm hne
      · next hn2 =>
        exact absurd hnm (by simpa using hn2)

/-- What writing and renaming the file `name` leave alone: distinct names, the
directories of the listing, and every entry called neither `name` nor `new`. -/
theorem touched_frame {name new : Str} {cur c2 : List Node}
    (h : Touched name new cur c2) :
    (names cur).Nodup → NoDirNamed cur name →
    (names c2).Nodup ∧ skeletonList c2 = skeletonList cur ∧
      (wfList cur = true → wfList c2 = true) ∧
      (∀ m, m ≠ name → m ≠ new → find c2 m = find cur m) ∧
      NoDirNamed c2 name := by
  induction h with
  | refl cur => intro hnd hno; exact ⟨hnd, rfl, fun hw => hw, fun _ _ _ => rfl, hno⟩
  | write hw _ ih =>
    intro hnd hno
    obtain ⟨w1, w2, w3, w4, w5⟩ := write_step hw
    obtain ⟨i1, i2, i3, i4, i5⟩ := ih (w1 ▸ hnd) (w5 _ hno)
    exact ⟨i1, i2.trans w2, fun hwf => i3 (w3 ▸ hwf),
      fun m hm1 hm2 => (i4 m hm1 hm2).trans (w4 m hm1), i5⟩
  | rename hr _ ih =>
    intro hnd hno
    obtain ⟨r1, r2, r3, r4, r5⟩ := rename_step hr hnd hno
    obtain ⟨i1, i2, i3, i4, i5⟩ := ih r1 r5
    exact ⟨i1, i2.trans r2, fun hwf => i3 (r3 hwf),
      fun m hm1 hm2 => (i4 m hm1 hm2).trans (r4 m hm1 hm2), i5⟩

end FS

namespace FS

theorem renameSync_succeeds {es : List Node} {old new : Str} {n0 : Node}
    (h0 : find es old = some n0) (hmov : n0.movable = true)
    (hnew : ∀ n, find es new = some n → n.isDir = false) :
    ∃ c1, renameSync es old new = some c1 := by
  unfold renameSync
  rw [h0]
  simp only [hmov, Bool.not_true, Bool.false_eq_true, if_false]
  split
  · exact ⟨_, rfl⟩
  · split
    · next nm l sub hf => exact absurd (hnew _ hf) (by simp [Node.isDir])
    · exact ⟨_, rfl⟩

/-- A file that cannot be moved is not renamed. -/
theorem renameSync_unmovable {es : List Node} {old new : Str} {n0 : Node}
    (h0 : find es old = some n0) (hmov : n0.movable = false) :
    renameSync es old new = none := by
  unfold renameSync
  rw [h0]
  simp only [hmov, Bool.not_false, if_true]

theorem written_movable (n : Node) (data : Str) : (n.written data).movable = n.movable := by
  cases n <;> rfl

theorem rename_movable (n : Node) (new : Str) : (n.rename new).movable = n.movable := by
  cases n <;> rfl

theorem writeFileSync_succeeds {es : List Node} {name data : Str} {d : FileData}
    (h0 : find es name = some (.file name d)) (hw : d.writable = true) :
    writeFileSync es name data =
      some (es.map (fun n => if n.name == name then n.written data else n)) := by
  unfold writeFileSync
  rw [h0]
  simp only [hw, if_true]

theorem find_after_write {es : List Node} {name data : Str} (m : Str) :
    find (es.map (fun n => if n.name == name then n.written data else n)) m =
      (find es m).map (fun n => if n.name == name then n.written data else n) := by
  apply find_map_same_name
  intro n
  split
  · exact written_name n data
  · rfl

end FS

namespace RenameToAblock
open FS

theorem processContent_state (b : Bool) (p : RelPath) (name : Str) (fs : List Node) :
    (processContent b p name fs).1 = fs ∨
      ∃ data, writeFileSync fs name data = some (processContent b p name fs).1 := by
  unfold processContent
  split
  · exact Or.inl rfl
  · simp only
    split
    · split
      · split
        · exact Or.inl rfl
        · next hw => exact Or.inr ⟨_, hw⟩
      · exact Or.inl rfl
    · exact Or.inl rfl

theorem processRename_state (b : Bool) (dir : RelPath) (name : Str) (fs : List Node) :
    (processRename b dir name fs).1 = fs ∨
      renameSync fs name (applyFilenameReplacements name) =
        some (processRename b dir name fs).1 := by
  unfold processRename
  simp only
  split
  · split
    · split
      · next hr => exact Or.inr hr
      · exact Or.inl rfl
    · exact Or.inl rfl
  · exact Or.inl rfl

theorem processFile_touched (b : Bool) (dir : RelPath) (name : Str) (cur : List Node) :
    Touched name (applyFilenameReplacements name) cur (processFile b dir name cur).1 := by
  unfold processFile
  simp only
  split
  · exact Touched.refl _
  · rcases processContent_state b (dir ++ [name]) name cur with h1 | ⟨data, h1⟩
    · rw [h1]
      rcases processRename_state b dir name cur with h2 | h2
      · rw [h2]; exact Touched.refl _
      · exact Touched.rename h2 (Touched.refl _)
    · refine Touched.write h1 ?_
      rcases processRename_state b dir name (processContent b (dir ++ [name]) name cur).1 with h2 | h2
      · rw [h2]; exact Touched.refl _
      · exact Touched.rename h2 (Touched.refl _)

theorem processContent_dry (p : RelPath) (name : Str) (fs : List Node) :
    (processContent false p name fs).1 = fs := by
  unfold processContent
  split
  · rfl
  · simp only
    split
    · simp
    · rfl

theorem processRename_dry (dir : RelPath) (name : Str) (fs : List Node) :
    (processRename false dir name fs).1 = fs := by
  unfold processRename
  simp only
  split
  · simp
  · rfl

theorem processFile_dry (dir : RelPath) (name : Str) (cur : List Node) :
    (processFile false dir name cur).1 = cur := by
  unfold processFile
  simp only
  split
  · rfl
  · simp only [processRename_dry, processContent_dry]

theorem processContent_events (b : Bool) (p : RelPath) (name : Str) (fs : List Node) :
    ∀ e ∈ (processContent b p name fs).2,
      e = .readFileSync p ∨ (∃ data, e = .writeFileSync p data) ∨
        (∃ a, e = .logContent a p) ∨ e = .warnRead p := by
  intro e he
  unfold processContent at he
  split at he
  · simp only [List.mem_cons, List.mem_singleton, List.not_mem_nil, or_false] at he
    rcases he with he | he
    · exact Or.inl he
    · exact Or.inr (Or.inr (Or.inr he))
  · simp only at he
    split at he
    · split at he
      · split at he
        · simp only [List.mem_cons, List.mem_singleton, List.not_mem_nil, or_false] at he
          rcases he with he | he | he
          · exact Or.inl he
          · exact Or.inr (Or.inl ⟨_, he⟩)
          · exact Or.inr (Or.inr (Or.inr he))
        · simp only [List.mem_cons, List.mem_singleton, List.not_mem_nil, or_false] at he
          rcases he with he | he | he
          · exact Or.inl he
          · exact Or.inr (Or.inl ⟨_, he⟩)
          · exact Or.inr (Or.inr (Or.inl ⟨_, he⟩))
      · simp only [List.mem_cons, List.mem_singleton, List.not_mem_nil, or_false] at he
        rcases he with he | he
        · exact Or.inl he
        · exact Or.inr (Or.inr (Or.inl ⟨_, he⟩))
    · simp only [List.mem_cons, List.mem_singleton, List.not_mem_nil, or_false] at he
      exact Or.inl he

theorem processRename_events (b : Bool) (dir : RelPath) (name : Str) (fs : List Node) :
    ∀ e ∈ (processRename b dir name fs).2,
      e = .renameSync (dir ++ [name]) (dir ++ [applyFilenameReplacements name]) ∨
        (∃ a, e = .logRename a (dir ++ [name]) (dir ++ [applyFilenameReplacements name])) ∨
        e = .warnRename (dir ++ [name]) := by
  intro e he
  unfold processRename at he
  simp only at he
  split at he
  · split at he
    · split at he
      · simp only [List.mem_cons, List.mem_singleton, List.not_mem_nil, or_false] at he
        rcases he with he | he
        · exact Or.inl he
        · exact Or.inr (Or.inl ⟨_, he⟩)
      · simp only [List.mem_cons, List.mem_singleton, List.not_mem_nil, or_false] at he
        rcases he with he | he
        · exact Or.inl he
        · exact Or.inr (Or.inr he)
    · simp only [List.mem_cons, List.mem_singleton, List.not_mem_nil, or_false] at he
      exact Or.inr (Or.inl ⟨_, he⟩)
  · exact absurd he (List.not_mem_nil _)

/-- The events of one `processFile` call: a `statSync`, then events of the
content block, then events of the rename step, all on the file's own path. -/
theorem processFile_events (b : Bool) (dir : RelPath) (name : Str) (cur : List Node) :
    ∀ e ∈ (processFile b dir name cur).2,
      e = .statSync (dir ++ [name]) ∨
      (e = .readFileSync (dir ++ [name]) ∨ (∃ data, e = .writeFileSync (dir ++ [name]) data) ∨
        (∃ a, e = .logContent a (dir ++ [name])) ∨ e = .warnRead (dir ++ [name])) ∨
      (e = .renameSync (dir ++ [name]) (dir ++ [applyFilenameReplacements name]) ∨
        (∃ a, e = .logRename a (dir ++ [name]) (dir ++ [applyFilenameReplacements name])) ∨
        e = .warnRename (dir ++ [name])) := by
  intro e he
  unfold processFile at he
  simp only at he
  split at he
  · simp only [List.mem_singleton] at he
    exact Or.inl he
  · simp only [List.mem_cons, List.mem_append] at he
    rcases he with he | he | he
    · exact Or.inl he
    · exact Or.inr (Or.inl (processContent_events b _ name cur e he))
    · exact Or.inr (Or.inr (processRename_events b dir name _ e he))

end RenameToAblock

namespace FS

theorem statSync_file {es : List Node} {name : Str} {d : FileData}
    (h : find es name = some (.file name d)) : statSync es name = d.size := by
  unfold statSync; rw [h]

theorem readFileSync_file {es : List Node} {name : Str} {d : FileData}
    (h : find es name = some (.file name d)) : readFileSync es name = d.content := by
  unfold readFileSync; rw [h]

theorem report_cons_stat (p : RelPath) (l : List Event) :
    report (.statSync p :: l) = report l := rfl

theorem report_append (a b : List Event) : report (a ++ b) = report a ++ report b := by
  unfold report; exact List.filter_append _ _

theorem find_single (name : Str) (d : FileData) :
    find [Node.file name d] name = some (.file name d) := by
  rw [find_cons]
  exact if_pos rfl

/-- After the content block the file is still there and can be moved as
before, and so is whatever is not a directory under another name. -/
theorem after_content {cur fs1 : List Node} {name new : Str} {d : FileData}
    (h1 : find cur name = some (.file name d))
    (hnew : ∀ n, find cur new = some n → n.isDir = false)
    (hfs : fs1 = cur ∨ ∃ data, writeFileSync cur name data = some fs1) :
    (∃ n, find fs1 name = some n ∧ n.movable = d.movable) ∧
      ∀ n, find fs1 new = some n → n.isDir = false := by
  rcases hfs with hfs | ⟨data, hfs⟩
  · subst hfs; exact ⟨⟨_, h1, rfl⟩, hnew⟩
  · have hc := writeFileSync_some hfs
    subst hc
    constructor
    · rw [find_after_write, h1]
      refine ⟨_, rfl, ?_⟩
      show (if ((Node.file name d).name == name) = true then (Node.file name d).written data
        else Node.file name d).movable = d.movable
      split
      · rw [written_movable]; rfl
      · rfl
    · intro n hn
      rw [find_after_write] at hn
      cases hf : find cur new with
      | none => rw [hf] at hn; exact Option.noConfusion hn
      | some n0 =>
        rw [hf] at hn
        simp only [Option.map] at hn
        injection hn with hn
        rw [← hn]
        split
        · rw [written_isDir]; exact hnew n0 hf
        · exact hnew n0 hf

end FS

namespace RenameToAblock
open FS

theorem processRename_parity (dir : RelPath) (name : Str) (fs1 fs0 : List Node)
    (hnew : applyFilenameReplacements name = name ∨
      ((∃ n, find fs1 name = some n ∧ n.movable = true) ∧
        ∀ n, find fs1 (applyFilenameReplacements name) = some n → n.isDir = false)) :
    (report (processRename true dir name fs1).2).map untag =
      (report (processRename false dir name fs0).2).map untag := by
  unfold processRename
  simp only
  split
  · next hne =>
    have hne1 : applyFilenameReplacements name ≠ name := by simpa using hne
    rcases hnew with hnew | ⟨⟨n0, hn0, hmov⟩, hnew⟩
    · exact absurd hnew hne1
    · obtain ⟨c1, hc1⟩ := renameSync_succeeds hn0 hmov hnew
      simp only [if_true, hc1]
      rfl
  · rfl

theorem processContent_parity (p : RelPath) (name : Str) (cur cur0 : List Node) (d : FileData)
    (h1 : find cur name = some (.file name d)) (h0 : find cur0 name = some (.file name d))
    (hw : ∀ content, d.content = some content →
      (processLines (JS.split content ['\n']) ([], false)).2 = true → d.writable = true) :
    (report (processContent true p name cur).2).map untag =
      (report (processContent false p name cur0).2).map untag := by
  unfold processContent
  rw [readFileSync_file h1, readFileSync_file h0]
  cases hc : d.content with
  | none => rfl
  | some content =>
    simp only
    split
    · next hch =>
      simp only [if_true, writeFileSync_succeeds h1 (hw content hc hch)]
      rfl
    · rfl

theorem shouldSkipFile_data {cur : List Node} {name : Str} {d : FileData}
    (h1 : find cur name = some (.file name d)) :
    shouldSkipFile cur name = shouldSkipFile [.file name d] name := by
  unfold shouldSkipFile
  rw [statSync_file h1, statSync_file (find_single name d)]

theorem processFile_parity (dir : RelPath) (name : Str) (cur cur0 : List Node) (d : FileData)
    (h1 : find cur name = some (.file name d)) (h0 : find cur0 name = some (.file name d))
    (hw : wouldWrite name d = true → d.writable = true)
    (hnew : applyFilenameReplacements name = name ∨
      (d.movable = true ∧
        ∀ n, find cur (applyFilenameReplacements name) = some n → n.isDir = false)) :
    (report (processFile true dir name cur).2).map untag =
      (report (processFile false dir name cur0).2).map untag := by
  have hskip : shouldSkipFile cur name = shouldSkipFile cur0 name := by
    rw [shouldSkipFile_data h1, shouldSkipFile_data h0]
  unfold processFile
  simp only
  rw [hskip]
  split
  · rfl
  · next hns =>
    have hns1 : shouldSkipFile [Node.file name d] name = false := by
      rw [← shouldSkipFile_data h0]; simpa using hns
    have hw2 : ∀ content, d.content = some content →
        (processLines (JS.split content ['\n']) ([], false)).2 = true → d.writable = true := by
      intro content hc hch
      apply hw
      unfold wouldWrite
      rw [hns1, hc]
      simpa using hch
    rw [report_cons_stat, report_cons_stat, report_append, report_append, List.map_append,
      List.map_append, processContent_parity (dir ++ [name]) name cur cur0 d h1 h0 hw2]
    congr 1
    apply processRename_parity
    rcases hnew with hnew | ⟨hmov, hnew⟩
    · exact Or.inl hnew
    · obtain ⟨⟨n, hn, hm⟩, h3⟩ := after_content h1 hnew
        (processContent_state true (dir ++ [name]) name cur)
      exact Or.inr ⟨⟨n, hn, hm.trans hmov⟩, h3⟩

/-- `processFile` of `rename-to-ablock.js` meets `ProcessFileSpec`. -/
theorem processFile_spec :
    ProcessFileSpec processFile applyFilenameReplacements wouldWrite where
  dry_state := processFile_dry
  touched := processFile_touched
  parity := processFile_parity
  paths := by
    intro b dir name cur e he p hp
    rcases processFile_events b dir name cur e he with h | h | h
    · subst h
      simp only [Event.paths, List.mem_singleton] at hp
      exact ⟨name, hp⟩
    · rcases h with h | ⟨data, h⟩ | ⟨a, h⟩ | h <;> subst h <;>
        simp only [Event.paths, List.mem_singleton] at hp <;> exact ⟨name, hp⟩
    · rcases h with h | ⟨a, h⟩ | h <;> subst h <;>
        simp only [Event.paths, List.mem_cons, List.mem_singleton, List.not_mem_nil, or_false] at hp
      · rcases hp with hp | hp
        · exact ⟨name, hp⟩
        · exact ⟨_, hp⟩
      · rcases hp with hp | hp
        · exact ⟨name, hp⟩
        · exact ⟨_, hp⟩
      · exact ⟨name, hp⟩
  no_readdir := by
    intro b dir name cur p he
    rcases processFile_events b dir name cur _ he with h | h | h
    · exact Event.noConfusion h
    · rcases h with h | ⟨data, h⟩ | ⟨a, h⟩ | h <;> exact Event.noConfusion h
    · rcases h with h | ⟨a, h⟩ | h <;> exact Event.noConfusion h
  renames := by
    intro b dir name cur e he old new hren
    rcases processFile_events b dir name cur e he with h | h | h
    · subst h
      rcases hren with h2 | ⟨a, h2⟩ <;> exact Event.noConfusion h2
    · rcases h with h | ⟨data, h⟩ | ⟨a, h⟩ | h <;> subst h <;>
        rcases hren with h2 | ⟨a2, h2⟩ <;> exact Event.noConfusion h2
    · rcases h with h | ⟨a, h⟩ | h <;> subst h
      · rcases hren with h2 | ⟨a2, h2⟩
        · injection h2 with h3 h4; exact ⟨h3.symm, h4.symm⟩
        · exact Event.noConfusion h2
      · rcases hren with h2 | ⟨a2, h2⟩
        · exact Event.noConfusion h2
        · injection h2 with _ h3 h4; exact ⟨h3.symm, h4.symm⟩
      · rcases hren with h2 | ⟨a2, h2⟩ <;> exact Event.noConfusion h2

end RenameToAblock

namespace SigmaRename
open FS

theorem sigma_processContent_state (b : Bool) (p : RelPath) (name : Str) (fs : List Node) :
    (processContent b p name fs).1 = fs ∨
      ∃ data, writeFileSync fs name data = some (processContent b p name fs).1 := by
  unfold processContent
  split
  · exact Or.inl rfl
  · simp only
    split
    · split
      · split
        · exact Or.inl rfl
        · next hw => exact Or.inr ⟨_, hw⟩
      · exact Or.inl rfl
    · exact Or.inl rfl

theorem sigma_processRename_state (b : Bool) (dir : RelPath) (name : Str) (fs : List Node) :
    (processRename b dir name fs).1 = fs ∨
      renameSync fs name (applyNameReplacements name) =
        some (processRename b dir name fs).1 := by
  unfold processRename
  simp only
  split
  · split
    · split
      · next hr => exact Or.inr hr
      · exact Or.inl rfl
    · exact Or.inl rfl
  · exact Or.inl rfl

theorem sigma_processContent_dry (p : RelPath) (name : Str) (fs : List Node) :
    (processContent false p name fs).1 = fs := by
  unfold processContent
  split
  · rfl
  · simp only
    split
    · simp
    · rfl

theorem sigma_processRename_dry (dir : RelPath) (name : Str) (fs : List Node) :
    (processRename false dir name fs).1 = fs := by
  unfold processRename
  simp only
  split
  · simp
  · rfl

theorem sigma_processContent_events (b : Bool) (p : RelPath) (name : Str) (fs : List Node) :
    ∀ e ∈ (processContent b p name fs).2,
      e = .readFileSync p ∨ (∃ data, e = .writeFileSync p data) ∨
        (∃ a, e = .logContent a p) ∨ e = .warnRead p := by
  intro e he
  unfold processContent at he
  split at he
  · simp only [List.mem_cons, List.mem_singleton, List.not_mem_nil, or_false] at he
    rcases he with he | he
    · exact Or.inl he
    · exact Or.inr (Or.inr (Or.inr he))
  · simp only at he
    split at he
    · split at he
      · split at he
        · simp only [List.mem_cons, List.mem_singleton, List.not_mem_nil, or_false] at he
          rcases he with he | he | he
          · exact Or.inl he
          · exact Or.inr (Or.inl ⟨_, he⟩)
          · exact Or.inr (Or.inr (Or.inr he))
        · simp only [List.mem_cons, List.mem_singleton, List.not_mem_nil, or_false] at he
          rcases he with he | he | he
          · exact Or.inl he
          · exact Or.inr (Or.inl ⟨_, he⟩)
          · exact Or.inr (Or.inr (Or.inl ⟨_, he⟩))
      · simp only [List.mem_cons, List.mem_singleton, List.not_mem_nil, or_false] at he
        rcases he with he | he
        · exact Or.inl he
        · exact Or.inr (Or.inr (Or.inl ⟨_, he⟩))
    · simp only [List.mem_cons, List.mem_singleton, List.not_mem_nil, or_false] at he
      exact Or.inl he

theorem sigma_processRename_events (b : Bool) (dir : RelPath) (name : Str) (fs : List Node) :
    ∀ e ∈ (processRename b dir name fs).2,
      e = .renameSync (dir ++ [name]) (dir ++ [applyNameReplacements name]) ∨
        (∃ a, e = .logRename a (dir ++ [name]) (dir ++ [applyNameReplacements name])) ∨
        e = .warnRename (dir ++ [name]) := by
  intro e he
  unfold processRename at he
  simp only at he
  split at he
  · split at he
    · split at he
      · simp only [List.mem_cons, List.mem_singleton, List.not_mem_nil, or_false] at he
        rcases he with he | he
        · exact Or.inl he
        · exact Or.inr (Or.inl ⟨_, he⟩)
      · simp only [List.mem_cons, List.mem_singleton, List.not_mem_nil, or_false] at he
        rcases he with he | he
        · exact Or.inl he
        · exact Or.inr (Or.inr he)
    · simp only [List.mem_cons, List.mem_singleton, List.not_mem_nil, or_false] at he
      exact Or.inr (Or.inl ⟨_, he⟩)
  · exact absurd he (List.not_mem_nil _)

theorem sigma_processRename_parity (dir : RelPath) (name : Str) (fs1 fs0 : List Node)
    (hnew : applyNameReplacements name = name ∨
      ((∃ n, find fs1 name = some n ∧ n.movable = true) ∧
        ∀ n, find fs1 (applyNameReplacements name) = some n → n.isDir = false)) :
    (report (processRename true dir name fs1).2).map untag =
      (report (processRename false dir name fs0).2).map untag := by
  unfold processRename
  simp only
  split
  · next hne =>
    have hne1 : applyNameReplacements name ≠ name := by simpa using hne
    rcases hnew with hnew | ⟨⟨n0, hn0, hmov⟩, hnew⟩
    · exact absurd hnew hne1
    · obtain ⟨c1, hc1⟩ := renameSync_succeeds hn0 hmov hnew
      simp only [if_true, hc1]
      rfl
  · rfl

theorem sigma_processContent_parity (p : RelPath) (name : Str) (cur cur0 : List Node) (d : FileData)
    (h1 : find cur name = some (.file name d)) (h0 : find cur0 name = some (.file name d))
    (hw : ∀ orig, d.content = some orig → (applyContentReplacements orig).2 = true →
      d.writable = true) :
    (report (processContent true p name cur).2).map untag =
      (report (processContent false p name cur0).2).map untag := by
  unfold processContent
  rw [readFileSync_file h1, readFileSync_file h0]
  cases hc : d.content with
  | none => rfl
  | some content =>
    simp only
    split
    · next hch =>
      simp only [if_true, writeFileSync_succeeds h1 (hw content hc hch)]
      rfl
    · rfl

theorem isTextFile_events (dir : RelPath) (name : Str) (fs : List Node) :
    ∀ e ∈ (isTextFile dir name fs).2, e = .statSync (dir ++ [name]) := by
  intro e he
  unfold isTextFile at he
  simp only at he
  split at he
  · exact absurd he (List.not_mem_nil _)
  · split at he <;> simpa using he

theorem isTextFile_file (dir : RelPath) (name : Str) {cur cur0 : List Node} {d : FileData}
    (h1 : find cur name = some (.file name d)) (h0 : find cur0 name = some (.file name d)) :
    isTextFile dir name cur = isTextFile dir name cur0 := by
  unfold isTextFile
  rw [statSync_file h1, statSync_file h0]

theorem report_isTextFile (dir : RelPath) (name : Str) (fs : List Node) :
    report (isTextFile dir name fs).2 = [] := by
  unfold isTextFile
  simp only
  split
  · rfl
  · split <;> rfl

theorem sigma_processFile_state (b : Bool) (dir : RelPath) (name : Str) (cur : List Node) :
    (processFile b dir name cur).1 =
      (processRename b dir name
        (if (isTextFile dir name cur).1 then processContent b (dir ++ [name]) name cur
          else (cur, [])).1).1 := rfl

theorem content_step_state (b : Bool) (dir : RelPath) (name : Str) (cur : List Node) :
    (if (isTextFile dir name cur).1 then processContent b (dir ++ [name]) name cur
        else (cur, [])).1 = cur ∨
      ∃ data, writeFileSync cur name data =
        some (if (isTextFile dir name cur).1 then processContent b (dir ++ [name]) name cur
          else (cur, [])).1 := by
  split
  · exact sigma_processContent_state b _ name cur
  · exact Or.inl rfl

theorem sigma_processFile_touched (b : Bool) (dir : RelPath) (name : Str) (cur : List Node) :
    Touched name (applyNameReplacements name) cur (processFile b dir name cur).1 := by
  rw [sigma_processFile_state]
  rcases content_step_state b dir name cur with h1 | ⟨data, h1⟩
  · rw [h1]
    rcases sigma_processRename_state b dir name cur with h2 | h2
    · rw [h2]; exact Touched.refl _
    · exact Touched.rename h2 (Touched.refl _)
  · refine Touched.write h1 ?_
    rcases sigma_processRename_state b dir name
      (if (isTextFile dir name cur).1 then processContent b (dir ++ [name]) name cur
        else (cur, [])).1 with h2 | h2
    · rw [h2]; exact Touched.refl _
    · exact Touched.rename h2 (Touched.refl _)

theorem sigma_processFile_dry (dir : RelPath) (name : Str) (cur : List Node) :
    (processFile false dir name cur).1 = cur := by
  rw [sigma_processFile_state, sigma_processRename_dry]
  split
  · exact sigma_processContent_dry _ name cur
  · rfl

/-- The events of one `processFile` call: at most a `statSync`, then events of
the content block, then events of the rename step, all on the file's own path. -/
theorem sigma_processFile_events (b : Bool) (dir : RelPath) (name : Str) (cur : List Node) :
    ∀ e ∈ (processFile b dir name cur).2,
      e = .statSync (dir ++ [name]) ∨
      (e = .readFileSync (dir ++ [name]) ∨ (∃ data, e = .writeFileSync (dir ++ [name]) data) ∨
        (∃ a, e = .logContent a (dir ++ [name])) ∨ e = .warnRead (dir ++ [name])) ∨
      (e = .renameSync (dir ++ [name]) (dir ++ [applyNameReplacements name]) ∨
        (∃ a, e = .logRename a (dir ++ [name]) (dir ++ [applyNameReplacements name])) ∨
        e = .warnRename (dir ++ [name])) := by
  intro e he
  unfold processFile at he
  simp only [List.mem_append] at he
  rcases he with (he | he) | he
  · exact Or.inl (isTextFile_events dir name cur e he)
  · split at he
    · exact Or.inr (Or.inl (sigma_processContent_events b _ name cur e he))
    · exact absurd he (List.not_mem_nil _)
  · exact Or.inr (Or.inr (sigma_processRename_events b dir name _ e he))

theorem isTextFile_data (dir : RelPath) {cur : List Node} {name : Str} {d : FileData}
    (h1 : find cur name = some (.file name d)) :
    (isTextFile dir name cur).1 = (isTextFile [] name [.file name d]).1 := by
  unfold isTextFile
  rw [statSync_file h1, statSync_file (find_single name d)]
  simp only
  split
  · rfl
  · cases d.size <;> rfl

theorem sigma_processFile_parity (dir : RelPath) (name : Str) (cur cur0 : List Node) (d : FileData)
    (h1 : find cur name = some (.file name d)) (h0 : find cur0 name = some (.file name d))
    (hw : wouldWrite name d = true → d.writable = true)
    (hnew : applyNameReplacements name = name ∨
      (d.movable = true ∧
        ∀ n, find cur (applyNameReplacements name) = some n → n.isDir = false)) :
    (report (processFile true dir name cur).2).map untag =
      (report (processFile false dir name cur0).2).map untag := by
  unfold processFile
  simp only
  rw [report_append, report_append, report_append, report_append, report_isTextFile,
    report_isTextFile, List.map_append, List.map_append, List.map_append, List.map_append,
    isTextFile_file dir name h1 h0]
  congr 1
  · congr 1
    split
    · next ht =>
      have ht1 : (isTextFile [] name [Node.file name d]).1 = true := by
        rw [← isTextFile_data dir h0]; exact ht
      apply sigma_processContent_parity (dir ++ [name]) name cur cur0 d h1 h0
      intro orig hc hch
      apply hw
      unfold wouldWrite
      rw [ht1, hc]
      simpa using hch
    · rfl
  · rw [← isTextFile_file dir name h1 h0]
    apply sigma_processRename_parity
    rcases hnew with hnew | ⟨hmov, hnew⟩
    · exact Or.inl hnew
    · obtain ⟨⟨n, hn, hm⟩, h3⟩ := after_content h1 hnew (content_step_state true dir name cur)
      exact Or.inr ⟨⟨n, hn, hm.trans hmov⟩, h3⟩

/-- `processFile` of `sigma-rename.js` meets `ProcessFileSpec`. -/
theorem sigma_processFile_spec :
    ProcessFileSpec processFile applyNameReplacements wouldWrite where
  dry_state := sigma_processFile_dry
  touched := sigma_processFile_touched
  parity := sigma_processFile_parity
  paths := by
    intro b dir name cur e he p hp
    rcases sigma_processFile_events b dir name cur e he with h | h | h
    · subst h
      simp only [Event.paths, List.mem_singleton] at hp
      exact ⟨name, hp⟩
    · rcases h with h | ⟨data, h⟩ | ⟨a, h⟩ | h <;> subst h <;>
        simp only [Event.paths, List.mem_singleton] at hp <;> exact ⟨name, hp⟩
    · rcases h with h | ⟨a, h⟩ | h <;> subst h <;>
        simp only [Event.paths, List.mem_cons, List.mem_singleton, List.not_mem_nil, or_false] at hp
      · rcases hp with hp | hp
        · exact ⟨name, hp⟩
        · exact ⟨_, hp⟩
      · rcases hp with hp | hp
        · exact ⟨name, hp⟩
        · exact ⟨_, hp⟩
      · exact ⟨name, hp⟩
  no_readdir := by
    intro b dir name cur p he
    rcases sigma_processFile_events b dir name cur _ he with h | h | h
    · exact Event.noConfusion h
    · rcases h with h | ⟨data, h⟩ | ⟨a, h⟩ | h <;> exact Event.noConfusion h
    · rcases h with h | ⟨a, h⟩ | h <;> exact Event.noConfusion h
  renames := by
    intro b dir name cur e he old new hren
    rcases sigma_processFile_events b dir name cur e he with h | h | h
    · subst h
      rcases hren with h2 | ⟨a, h2⟩ <;> exact Event.noConfusion h2
    · rcases h with h | ⟨data, h⟩ | ⟨a, h⟩ | h <;> subst h <;>
        rcases hren with h2 | ⟨a2, h2⟩ <;> exact Event.noConfusion h2
    · rcases h with h | ⟨a, h⟩ | h <;> subst h
      · rcases hren with h2 | ⟨a2, h2⟩
        · injection h2 with h3 h4; exact ⟨h3.symm, h4.symm⟩
        · exact Event.noConfusion h2
      · rcases hren with h2 | ⟨a2, h2⟩
        · exact Event.noConfusion h2
        · injection h2 with _ h3 h4; exact ⟨h3.symm, h4.symm⟩
      · rcases hren with h2 | ⟨a2, h2⟩ <;> exact Event.noConfusion h2

end SigmaRename

/-! ## The tree walker -/

namespace FS

theorem origin_child {skip : Str → Bool}
    {pf : RelPath → Str → List Node → List Node × List Event}
    {dir : RelPath} {name : Str} {e : Event} (hs : skip name = false)
    (h : Origin skip pf (dir ++ [name]) e) : Origin skip pf dir e := by
  rcases h with ⟨rel, h1, h2⟩ | ⟨rel, nm, cur, h1, h2⟩
  · refine Or.inl ⟨name :: rel, ?_, ?_⟩
    · rw [h1, List.append_assoc]; rfl
    · intro seg hseg
      rcases List.mem_cons.mp hseg with h3 | h3
      · rw [h3]; exact hs
      · exact h2 seg h3
  · refine Or.inr ⟨name :: rel, nm, cur, ?_, ?_⟩
    · rw [List.append_assoc] at h1; exact h1
    · intro seg hseg
      rcases List.mem_cons.mp hseg with h3 | h3
      · rw [h3]; exact hs
      · exact h2 seg h3

theorem walkEntry_origin (skip : Str → Bool)
    (pf : RelPath → Str → List Node → List Node × List Event)
    (walkDir : RelPath → Node → Outcome Node) (dir : RelPath)
    (hw : ∀ name child, skip name = false →
      ∀ e ∈ (walkDir (dir ++ [name]) child).trace, Origin skip pf (dir ++ [name]) e)
    (cur : List Node) (entry : Dirent) :
    ∀ e ∈ (walkEntry skip pf walkDir dir cur entry).trace, Origin skip pf dir e := by
  intro e he
  unfold walkEntry at he
  simp only at he
  split at he
  · split at he
    · exact absurd he (List.not_mem_nil _)
    · next hs =>
      have hs1 : skip entry.name = false := by simpa using hs
      split at he
      · simp only [List.mem_singleton] at he
        refine Or.inl ⟨[entry.name], he, ?_⟩
        intro seg hseg
        rw [List.mem_singleton.mp hseg]; exact hs1
      · exact origin_child hs1 (hw entry.name _ hs1 e he)
  · exact Or.inr ⟨[], entry.name, cur, by rw [List.append_nil]; exact he,
      fun seg hseg => absurd hseg (List.not_mem_nil _)⟩
  · exact absurd he (List.not_mem_nil _)

theorem walkLoop_cons (skip : Str → Bool)
    (pf : RelPath → Str → List Node → List Node × List Event)
    (walkDir : RelPath → Node → Outcome Node) (dir : RelPath)
    (entry : Dirent) (rest : List Dirent) (cur : List Node) :
    walkLoop skip pf walkDir dir (entry :: rest) cur =
      match (walkEntry skip pf walkDir dir cur entry).status with
      | .returned =>
          ⟨(walkLoop skip pf walkDir dir rest (walkEntry skip pf walkDir dir cur entry).state).state,
            (walkEntry skip pf walkDir dir cur entry).trace ++
              (walkLoop skip pf walkDir dir rest
                (walkEntry skip pf walkDir dir cur entry).state).trace,
            (walkLoop skip pf walkDir dir rest
              (walkEntry skip pf walkDir dir cur entry).state).status⟩
      | _ => walkEntry skip pf walkDir dir cur entry := rfl

theorem walkLoop_origin (skip : Str → Bool)
    (pf : RelPath → Str → List Node → List Node × List Event)
    (walkDir : RelPath → Node → Outcome Node) (dir : RelPath)
    (hw : ∀ name child, skip name = false →
      ∀ e ∈ (walkDir (dir ++ [name]) child).trace, Origin skip pf (dir ++ [name]) e) :
    ∀ (entries : List Dirent) (cur : List Node),
      ∀ e ∈ (walkLoop skip pf walkDir dir entries cur).trace, Origin skip pf dir e := by
  intro entries
  induction entries with
  | nil => intro cur e he; exact absurd he (List.not_mem_nil _)
  | cons entry rest ih =>
    intro cur e he
    rw [walkLoop_cons] at he
    split at he
    · simp only [List.mem_append] at he
      rcases he with he | he
      · exact walkEntry_origin skip pf walkDir dir hw cur entry e he
      · exact ih _ e he
    · exact walkEntry_origin skip pf walkDir dir hw cur entry e he

/-- Every event of `walk(dir)` is the `readdirSync` of a directory reached
through directories that are not skipped, or comes from a `processFile` call
on a file of such a directory. -/
theorem walkWith_origin (skip : Str → Bool)
    (pf : RelPath → Str → List Node → List Node × List Event) :
    ∀ (fuel : Nat) (dir : RelPath) (n : Node),
      ∀ e ∈ (walkWith skip pf fuel dir n).trace, Origin skip pf dir e := by
  intro fuel
  induction fuel with
  | zero => intro dir n e he; exact absurd he (List.not_mem_nil _)
  | succ fuel ih =>
    intro dir n e he
    unfold walkWith at he
    split at he
    · simp only [List.mem_singleton] at he
      exact Or.inl ⟨[], by rw [List.append_nil]; exact he,
        fun seg hseg => absurd hseg (List.not_mem_nil _)⟩
    · simp only [List.mem_cons] at he
      rcases he with he | he
      · exact Or.inl ⟨[], by rw [List.append_nil]; exact he,
          fun seg hseg => absurd hseg (List.not_mem_nil _)⟩
      · exact walkLoop_origin skip pf (walkWith skip pf fuel) dir
          (fun name child _ => ih (dir ++ [name]) child) _ _ e he

end FS

namespace FS

theorem noDirNamed_iff_skeleton (es : List Node) (m : Str) :
    NoDirNamed es m ↔ ∀ t ∈ skeletonList es, t.name ≠ m := by
  induction es with
  | nil =>
    constructor
    · intro _ t ht; exact absurd ht (List.not_mem_nil _)
    · intro _ n hn; exact absurd hn (List.not_mem_nil _)
  | cons x xs ih =>
    rw [skeletonList_cons]
    constructor
    · intro h t ht
      rcases List.mem_append.mp ht with h1 | h1
      · cases x with
        | file name d => simp [Node.skeleton] at h1
        | dir name l sub =>
          rw [skeleton_dir, List.mem_singleton] at h1
          intro hm
          have := h (.dir name l sub) (List.mem_cons_self _ _) (by rw [h1] at hm; exact hm)
          exact Bool.noConfusion this
        | other name => simp [Node.skeleton] at h1
      · exact (ih.mp (fun n hn => h n (List.mem_cons_of_mem _ hn))) t h1
    · intro h n hn hnm
      rcases List.mem_cons.mp hn with h1 | h1
      · subst h1
        cases n with
        | file name d => rfl
        | dir name l sub =>
          exact absurd hnm (h (.mk name l (skeletonList sub))
            (List.mem_append_left _ (by rw [skeleton_dir]; exact List.mem_singleton.mpr rfl)))
        | other name => rfl
      · exact (ih.mpr (fun t ht => h t (List.mem_append_right _ ht))) n h1 hnm

theorem noDirNamed_of_skeleton_eq {a b : List Node} (h : skeletonList a = skeletonList b)
    {m : Str} (hb : NoDirNamed b m) : NoDirNamed a m := by
  rw [noDirNamed_iff_skeleton] at hb ⊢
  rw [h]; exact hb

theorem dirent_name (n : Node) : n.dirent.name = n.name := by
  cases n <;> rfl

theorem isDir_of_dirent_file {n : Node} (h : n.dirent.kind = .file) : n.isDir = false := by
  cases n with
  | file name d => rfl
  | dir name l es => exact Kind.noConfusion h
  | other name => rfl

theorem readdirSync_some {n : Node} {entries : List Dirent} (h : readdirSync n = some entries) :
    ∃ name es, n = .dir name true es ∧ entries = es.map Node.dirent := by
  cases n with
  | file name d => exact Option.noConfusion h
  | dir name l es =>
    cases l with
    | false => exact Option.noConfusion h
    | true =>
      simp only [readdirSync] at h
      injection h with h
      exact ⟨name, es, rfl, h.symm⟩
  | other name => exact Option.noConfusion h

/-- With distinct names, no directory has the name of a file entry. -/
theorem noDirNamed_of_file_entry {es : List Node} (hnd : (names es).Nodup) {e : Dirent}
    (he : e ∈ es.map Node.dirent) (hk : e.kind = .file) : NoDirNamed es e.name := by
  obtain ⟨n0, hn0, hn1⟩ := List.mem_map.mp he
  intro n hn hnm
  have h0 : find es n0.name = some n0 := find_of_mem hnd hn0
  have h1 : find es n.name = some n := find_of_mem hnd hn
  have hname : n.name = n0.name := by rw [hnm, ← hn1, dirent_name]
  rw [hname, h0] at h1
  injection h1 with h1
  rw [← h1]
  exact isDir_of_dirent_file (hn1 ▸ hk)

theorem replace_keeps {cur : List Node} {m : Str} {child c2 : Node}
    (hnd : (names cur).Nodup) (hwf : wfList cur = true)
    (hf : find cur m = some child) (hname : c2.name = child.name)
    (hsk : c2.skeleton = child.skeleton) (hw : c2.wf = true) :
    (names (cur.map (fun n => if n.name == m then c2 else n))).Nodup ∧
      wfList (cur.map (fun n => if n.name == m then c2 else n)) = true ∧
      skeletonList (cur.map (fun n => if n.name == m then c2 else n)) = skeletonList cur ∧
      ∀ k, k ≠ m → find (cur.map (fun n => if n.name == m then c2 else n)) k = find cur k := by
  have hcm : child.name = m := (find_some hf).1
  have hpres : ∀ n : Node, (if n.name == m then c2 else n).name = n.name := by
    intro n
    split
    · next h => rw [hname, hcm]; exact (by simpa using h : n.name = m).symm
    · rfl
  refine ⟨?_, ?_, ?_, ?_⟩
  · rw [names_map_same_name _ hpres]; exact hnd
  · rw [wfList_iff] at hwf ⊢
    intro n hn
    obtain ⟨n0, hn0, hn1⟩ := List.mem_map.mp hn
    rw [← hn1]
    split
    · exact hw
    · exact hwf n0 hn0
  · apply skeletonList_map
    intro n hn
    split
    · next h =>
      have hnm : n.name = m := by simpa using h
      have h1 : find cur n.name = some n := find_of_mem hnd hn
      rw [hnm, hf] at h1
      injection h1 with h1
      rw [← h1]; exact hsk
    · rfl
  · intro k hk
    rw [find_map_same_name _ hpres]
    cases hfk : find cur k with
    | none => rfl
    | some n =>
      have hnk : n.name = k := (find_some hfk).1
      have : (n.name == m) = false := by rw [hnk]; simpa using hk
      simp only [Option.map, this, Bool.false_eq_true, if_false]

theorem walkEntry_keeps {skip : Str → Bool}
    {pf : Bool → RelPath → Str → List Node → List Node × List Event} {rewrite : Str → Str}
    {writes : Str → FileData → Bool} (hspec : ProcessFileSpec pf rewrite writes) (b : Bool)
    (walkDir : RelPath → Node → Outcome Node)
    (hwd : ∀ p child, child.wf = true →
      (walkDir p child).state.wf = true ∧ (walkDir p child).state.skeleton = child.skeleton ∧
        (walkDir p child).state.name = child.name)
    (dir : RelPath) (cur : List Node) (entry : Dirent)
    (hnd : (names cur).Nodup) (hwf : wfList cur = true)
    (hfile : entry.kind = .file → NoDirNamed cur entry.name) :
    (names (walkEntry skip (pf b) walkDir dir cur entry).state).Nodup ∧
      wfList (walkEntry skip (pf b) walkDir dir cur entry).state = true ∧
      skeletonList (walkEntry skip (pf b) walkDir dir cur entry).state = skeletonList cur := by
  unfold walkEntry
  simp only
  split
  · split
    · exact ⟨hnd, hwf, rfl⟩
    · split
      · exact ⟨hnd, hwf, rfl⟩
      · next child hf =>
        have hcw : child.wf = true := (wfList_iff cur).mp hwf child (find_some hf).2
        obtain ⟨w1, w2, w3⟩ := hwd (dir ++ [entry.name]) child hcw
        obtain ⟨r1, r2, r3, _⟩ := replace_keeps hnd hwf hf w3 w2 w1
        exact ⟨r1, r2, r3⟩
  · next hk =>
    obtain ⟨t1, t2, t3, _, _⟩ :=
      touched_frame (hspec.touched b dir entry.name cur) hnd (hfile hk)
    exact ⟨t1, t3 hwf, t2⟩
  · exact ⟨hnd, hwf, rfl⟩

theorem walkLoop_keeps {skip : Str → Bool}
    {pf : Bool → RelPath → Str → List Node → List Node × List Event} {rewrite : Str → Str}
    {writes : Str → FileData → Bool} (hspec : ProcessFileSpec pf rewrite writes) (b : Bool)
    (walkDir : RelPath → Node → Outcome Node)
    (hwd : ∀ p child, child.wf = true →
      (walkDir p child).state.wf = true ∧ (walkDir p child).state.skeleton = child.skeleton ∧
        (walkDir p child).state.name = child.name)
    (dir : RelPath) :
    ∀ (entries : List Dirent) (cur : List Node),
      (names cur).Nodup → wfList cur = true →
      (∀ e ∈ entries, e.kind = .file → NoDirNamed cur e.name) →
      (names (walkLoop skip (pf b) walkDir dir entries cur).state).Nodup ∧
        wfList (walkLoop skip (pf b) walkDir dir entries cur).state = true ∧
        skeletonList (walkLoop skip (pf b) walkDir dir entries cur).state = skeletonList cur := by
  intro entries
  induction entries with
  | nil => intro cur hnd hwf _; exact ⟨hnd, hwf, rfl⟩
  | cons entry rest ih =>
    intro cur hnd hwf hfile
    obtain ⟨e1, e2, e3⟩ := walkEntry_keeps hspec b walkDir hwd dir cur entry hnd hwf
      (hfile entry (List.mem_cons_self _ _))
    rw [walkLoop_cons]
    split
    · obtain ⟨l1, l2, l3⟩ := ih _ e1 e2
        (fun e he hk => noDirNamed_of_skeleton_eq e3 (hfile e (List.mem_cons_of_mem _ he) hk))
      exact ⟨l1, l2, l3.trans e3⟩
    · exact ⟨e1, e2, e3⟩

/-- A walk of a well-formed tree leaves a well-formed tree with the same
directories: it renames no directory, and neither adds nor removes one. -/
theorem walkWith_keeps {skip : Str → Bool}
    {pf : Bool → RelPath → Str → List Node → List Node × List Event} {rewrite : Str → Str}
    {writes : Str → FileData → Bool} (hspec : ProcessFileSpec pf rewrite writes) (b : Bool) :
    ∀ (fuel : Nat) (dir : RelPath) (n : Node), n.wf = true →
      (walkWith skip (pf b) fuel dir n).state.wf = true ∧
        (walkWith skip (pf b) fuel dir n).state.skeleton = n.skeleton ∧
        (walkWith skip (pf b) fuel dir n).state.name = n.name := by
  intro fuel
  induction fuel with
  | zero => intro dir n hn; exact ⟨hn, rfl, rfl⟩
  | succ fuel ih =>
    intro dir n hn
    unfold walkWith
    split
    · exact ⟨hn, rfl, rfl⟩
    · next entries hrd =>
      obtain ⟨name, es, hne, hent⟩ := readdirSync_some hrd
      subst hne
      subst hent
      rw [wf_dir, Bool.and_eq_true, decide_eq_true_eq] at hn
      obtain ⟨l1, l2, l3⟩ := walkLoop_keeps hspec b (walkWith skip (pf b) fuel) ih dir
        (es.map Node.dirent) es hn.1 hn.2
        (fun e he hk => noDirNamed_of_file_entry hn.1 he hk)
      simp only [Node.entries, Node.withEntries]
      refine ⟨?_, ?_, rfl⟩
      · rw [wf_dir, Bool.and_eq_true, decide_eq_true_eq]; exact ⟨l1, l2⟩
      · rw [skeleton_dir, skeleton_dir, l3]

end FS

namespace FS

theorem map_replace_self {cur : List Node} {m : Str} {c : Node}
    (hnd : (names cur).Nodup) (hf : find cur m = some c) :
    cur.map (fun n => if n.name == m then c else n) = cur := by
  have key : ∀ n ∈ cur, (fun n : Node => if n.name == m then c else n) n = id n := by
    intro n hn
    simp only [id]
    split
    · next h =>
      have hnm : n.name = m := by simpa using h
      have h1 : find cur n.name = some n := find_of_mem hnd hn
      rw [hnm, hf] at h1
      injection h1
    · rfl
  rw [List.map_congr_left key, List.map_id]

theorem walkEntry_dry {skip : Str → Bool}
    {pf : Bool → RelPath → Str → List Node → List Node × List Event} {rewrite : Str → Str}
    {writes : Str → FileData → Bool} (hspec : ProcessFileSpec pf rewrite writes) (walkDir : RelPath → Node → Outcome Node)
    (hwd : ∀ p child, child.wf = true → (walkDir p child).state = child)
    (dir : RelPath) (cur : List Node) (entry : Dirent)
    (hnd : (names cur).Nodup) (hwf : wfList cur = true) :
    (walkEntry skip (pf false) walkDir dir cur entry).state = cur := by
  unfold walkEntry
  simp only
  split
  · split
    · rfl
    · split
      · rfl
      · next child hf =>
        simp only
        rw [hwd _ child ((wfList_iff cur).mp hwf child (find_some hf).2)]
        exact map_replace_self hnd hf
  · exact hspec.dry_state dir entry.name cur
  · rfl

theorem walkLoop_dry {skip : Str → Bool}
    {pf : Bool → RelPath → Str → List Node → List Node × List Event} {rewrite : Str → Str}
    {writes : Str → FileData → Bool} (hspec : ProcessFileSpec pf rewrite writes) (walkDir : RelPath → Node → Outcome Node)
    (hwd : ∀ p child, child.wf = true → (walkDir p child).state = child)
    (dir : RelPath) (cur : List Node) (hnd : (names cur).Nodup) (hwf : wfList cur = true) :
    ∀ entries : List Dirent, (walkLoop skip (pf false) walkDir dir entries cur).state = cur := by
  intro entries
  induction entries with
  | nil => rfl
  | cons entry rest ih =>
    have he := @walkEntry_dry skip pf rewrite writes hspec walkDir hwd dir cur entry hnd hwf
    rw [walkLoop_cons]
    split
    · simp only [he]; exact ih
    · exact he

/-- A dry run leaves a well-formed tree as it is. -/
theorem walkWith_dry {skip : Str → Bool}
    {pf : Bool → RelPath → Str → List Node → List Node × List Event} {rewrite : Str → Str}
    {writes : Str → FileData → Bool} (hspec : ProcessFileSpec pf rewrite writes) :
    ∀ (fuel : Nat) (dir : RelPath) (n : Node), n.wf = true →
      (walkWith skip (pf false) fuel dir n).state = n := by
  intro fuel
  induction fuel with
  | zero => intro dir n _; rfl
  | succ fuel ih =>
    intro dir n hn
    unfold walkWith
    split
    · rfl
    · next entries hrd =>
      obtain ⟨name, es, hne, hent⟩ := readdirSync_some hrd
      subst hne
      rw [wf_dir, Bool.and_eq_true, decide_eq_true_eq] at hn
      simp only [Node.entries, Node.withEntries]
      rw [walkLoop_dry hspec (walkWith skip (pf false) fuel) ih dir es hn.1 hn.2]

theorem calm_dir (skip : Str → Bool) (rewrite : Str → Str) (writes : Str → FileData → Bool)
    (name : Str) (l : Bool) (es : List Node) :
    (Node.dir name l es).calm skip rewrite writes =
      (skip name || (calmHere rewrite writes es && calmList skip rewrite writes es)) := by
  rw [Node.calm]

theorem calmList_iff (skip : Str → Bool) (rewrite : Str → Str)
    (writes : Str → FileData → Bool) (es : List Node) :
    calmList skip rewrite writes es = true ↔ ∀ n ∈ es, n.calm skip rewrite writes = true := by
  induction es with
  | nil => simp [calmList]
  | cons x xs ih =>
    rw [calmList, Bool.and_eq_true, ih]
    simp

theorem calmTail_file (rewrite : Str → Str) (writes : Str → FileData → Bool)
    (all rest : List Node) (name : Str) (d : FileData) :
    calmTail rewrite writes all (.file name d :: rest) =
      (calmFile rewrite writes all rest name d && calmTail rewrite writes all rest) := by
  rw [calmTail]

theorem calmTail_dir (rewrite : Str → Str) (writes : Str → FileData → Bool)
    (all rest : List Node) (name : Str) (l : Bool) (sub : List Node) :
    calmTail rewrite writes all (.dir name l sub :: rest) = calmTail rewrite writes all rest := by
  rw [calmTail]
  intro nm d h
  exact Node.noConfusion h

theorem calmTail_other (rewrite : Str → Str) (writes : Str → FileData → Bool)
    (all rest : List Node) (name : Str) :
    calmTail rewrite writes all (.other name :: rest) = calmTail rewrite writes all rest := by
  rw [calmTail]
  intro nm d h
  exact Node.noConfusion h

/-- What `calmFile` says of a file: it is writable if its content is rewritten,
and if its name is rewritten it can be moved, no directory of the listing has
the rewritten name and no regular file listed after it has it. -/
theorem calmFile_spec {rewrite : Str → Str} {writes : Str → FileData → Bool}
    {all rest : List Node} {name : Str} {d : FileData}
    (h : calmFile rewrite writes all rest name d = true) :
    (writes name d = true → d.writable = true) ∧
      (rewrite name = name ∨
        (d.movable = true ∧ NoDirNamed all (rewrite name) ∧
          ∀ n ∈ rest, n.isFile = true → n.name ≠ rewrite name)) := by
  unfold calmFile at h
  simp only [Bool.and_eq_true, Bool.or_eq_true, beq_iff_eq, Bool.not_eq_true',
    List.all_eq_true] at h
  obtain ⟨h1, h2⟩ := h
  constructor
  · intro hw
    rcases h1 with h1 | h1
    · rw [hw] at h1; exact Bool.noConfusion h1
    · exact h1
  · rcases h2 with h2 | ⟨⟨h2, h3⟩, h4⟩
    · exact Or.inl h2
    · refine Or.inr ⟨h2, ?_, ?_⟩
      · intro n hn hnm
        have := h3 n hn
        cases hd : n.isDir with
        | false => rfl
        | true => rw [hd, hnm] at this; simp at this
      · intro n hn hf hnm
        have := h4 n hn
        rw [hf, hnm] at this
        simp at this

theorem noDirNamed_of_not_mem {es : List Node} {m : Str} (h : m ∉ names es) :
    NoDirNamed es m :=
  fun _ hn hnm => absurd (hnm ▸ mem_names_of_mem hn) h

theorem not_isDir_of_find {cur : List Node} {m : Str} (h : NoDirNamed cur m) :
    ∀ n, find cur m = some n → n.isDir = false :=
  fun n hn => h n (find_some hn).2 (find_some hn).1

/-- One turn of the loop of `walk` in the apply run, from a listing `cur` that
agrees with the original listing `es` on the entry, against the same turn of
the dry run from `es`. -/
theorem walkEntry_parity {skip : Str → Bool}
    {pf : Bool → RelPath → Str → List Node → List Node × List Event} {rewrite : Str → Str}
    {writes : Str → FileData → Bool} (hspec : ProcessFileSpec pf rewrite writes)
    (wa wd : RelPath → Node → Outcome Node)
    (hwa : ∀ p child, child.wf = true →
      (wa p child).state.wf = true ∧ (wa p child).state.skeleton = child.skeleton ∧
        (wa p child).state.name = child.name)
    (hwd : ∀ p child, child.wf = true → (wd p child).state = child)
    (hpar : ∀ p child, child.wf = true → calmHere rewrite writes child.entries = true →
      calmList skip rewrite writes child.entries = true →
      (report (wa p child).trace).map untag = (report (wd p child).trace).map untag ∧
        (wa p child).status = (wd p child).status)
    (dir : RelPath) (es cur : List Node) (n0 : Node)
    (hnd : (names es).Nodup) (hwf : wfList es = true)
    (hcl : calmList skip rewrite writes es = true) (hn0 : n0 ∈ es)
    (hfile : ∀ name d, n0 = .file name d →
      (writes name d = true → d.writable = true) ∧
        (rewrite name = name ∨ (d.movable = true ∧ NoDirNamed es (rewrite name))))
    (hcnd : (names cur).Nodup) (hcwf : wfList cur = true)
    (hsk : skeletonList cur = skeletonList es)
    (hfind : n0.isFile = true ∨ n0.isDir = true → find cur n0.name = some n0) :
    (report (walkEntry skip (pf true) wa dir cur n0.dirent).trace).map untag =
        (report (walkEntry skip (pf false) wd dir es n0.dirent).trace).map untag ∧
      (walkEntry skip (pf true) wa dir cur n0.dirent).status =
        (walkEntry skip (pf false) wd dir es n0.dirent).status ∧
      (walkEntry skip (pf false) wd dir es n0.dirent).state = es ∧
      ∀ k, k ≠ n0.name → (∀ name d, n0 = .file name d → k ≠ rewrite name) →
        find (walkEntry skip (pf true) wa dir cur n0.dirent).state k = find cur k := by
  have hf0 : find es n0.name = some n0 := find_of_mem hnd hn0
  have hdry := @walkEntry_dry skip pf rewrite writes hspec wd hwd dir es n0.dirent hnd hwf
  refine ⟨?_, ?_, hdry, ?_⟩
  · cases n0 with
    | file name d =>
      simp only [Node.dirent, Node.name] at hf0 hfind ⊢
      have hfc := hfind (Or.inl rfl)
      obtain ⟨hw, hnew⟩ := hfile name d rfl
      unfold walkEntry
      simp only
      apply hspec.parity dir name cur es d hfc hf0 hw
      rcases hnew with hnew | ⟨hmov, hnew⟩
      · exact Or.inl hnew
      · exact Or.inr ⟨hmov, not_isDir_of_find (noDirNamed_of_skeleton_eq hsk hnew)⟩
    | dir name l sub =>
      simp only [Node.dirent, Node.name] at hf0 hfind ⊢
      have hchild_wf : (Node.dir name l sub).wf = true := (wfList_iff es).mp hwf _ hn0
      have hchild_calm := (calmList_iff skip rewrite writes es).mp hcl _ hn0
      rw [calm_dir] at hchild_calm
      have hfc : find cur name = some (Node.dir name l sub) := hfind (Or.inr rfl)
      by_cases hs : skip name = true
      · unfold walkEntry
        simp only [hs, if_true]
      · have hs1 : skip name = false := by simpa using hs
        rw [hs1, Bool.false_or, Bool.and_eq_true] at hchild_calm
        unfold walkEntry
        simp only [hs1, hfc, hf0, Bool.false_eq_true, if_false]
        exact (hpar (dir ++ [name]) _ hchild_wf hchild_calm.1 hchild_calm.2).1
    | other name => rfl
  · cases n0 with
    | file name d => rfl
    | dir name l sub =>
      simp only [Node.dirent, Node.name] at hf0 hfind ⊢
      have hchild_wf : (Node.dir name l sub).wf = true := (wfList_iff es).mp hwf _ hn0
      have hchild_calm := (calmList_iff skip rewrite writes es).mp hcl _ hn0
      rw [calm_dir] at hchild_calm
      have hfc : find cur name = some (Node.dir name l sub) := hfind (Or.inr rfl)
      by_cases hs : skip name = true
      · unfold walkEntry
        simp only [hs, if_true]
      · have hs1 : skip name = false := by simpa using hs
        rw [hs1, Bool.false_or, Bool.and_eq_true] at hchild_calm
        unfold walkEntry
        simp only [hs1, hfc, hf0, Bool.false_eq_true, if_false]
        exact (hpar (dir ++ [name]) _ hchild_wf hchild_calm.1 hchild_calm.2).2
    | other name => rfl
  · intro k hkn hkr
    cases n0 with
    | file name d =>
      simp only [Node.dirent, Node.name] at hf0 hfind hkn ⊢
      unfold walkEntry
      simp only
      have hno : NoDirNamed cur name :=
        noDirNamed_of_skeleton_eq hsk
          (noDirNamed_of_file_entry hnd (e := ⟨name, .file⟩)
            (List.mem_map.mpr ⟨_, hn0, rfl⟩) rfl)
      obtain ⟨_, _, _, t4, _⟩ := touched_frame (hspec.touched true dir name cur) hcnd hno
      exact t4 k hkn (hkr name d rfl)
    | dir name l sub =>
      simp only [Node.dirent, Node.name] at hf0 hfind hkn ⊢
      have hchild_wf : (Node.dir name l sub).wf = true := (wfList_iff es).mp hwf _ hn0
      have hfc : find cur name = some (Node.dir name l sub) := hfind (Or.inr rfl)
      by_cases hs : skip name = true
      · unfold walkEntry
        simp only [hs, if_true]
      · have hs1 : skip name = false := by simpa using hs
        unfold walkEntry
        simp only [hs1, hfc, Bool.false_eq_true, if_false]
        obtain ⟨w1, w2, w3⟩ := hwa (dir ++ [name]) _ hchild_wf
        exact (replace_keeps hcnd hcwf hfc w3 w2 w1).2.2.2 k hkn
    | other name => rfl

theorem walkLoop_parity {skip : Str → Bool}
    {pf : Bool → RelPath → Str → List Node → List Node × List Event} {rewrite : Str → Str}
    {writes : Str → FileData → Bool} (hspec : ProcessFileSpec pf rewrite writes)
    (wa wd : RelPath → Node → Outcome Node)
    (hwa : ∀ p child, child.wf = true →
      (wa p child).state.wf = true ∧ (wa p child).state.skeleton = child.skeleton ∧
        (wa p child).state.name = child.name)
    (hwd : ∀ p child, child.wf = true → (wd p child).state = child)
    (hpar : ∀ p child, child.wf = true → calmHere rewrite writes child.entries = true →
      calmList skip rewrite writes child.entries = true →
      (report (wa p child).trace).map untag = (report (wd p child).trace).map untag ∧
        (wa p child).status = (wd p child).status)
    (dir : RelPath) (es : List Node)
    (hnd : (names es).Nodup) (hwf : wfList es = true)
    (hcl : calmList skip rewrite writes es = true) :
    ∀ (ns : List Node) (cur : List Node),
      (∀ n ∈ ns, n ∈ es) → (names ns).Nodup → calmTail rewrite writes es ns = true →
      (names cur).Nodup → wfList cur = true → skeletonList cur = skeletonList es →
      (∀ n ∈ ns, n.isFile = true ∨ n.isDir = true → find cur n.name = some n) →
      (report (walkLoop skip (pf true) wa dir (ns.map Node.dirent) cur).trace).map untag =
          (report (walkLoop skip (pf false) wd dir (ns.map Node.dirent) es).trace).map untag ∧
        (walkLoop skip (pf true) wa dir (ns.map Node.dirent) cur).status =
          (walkLoop skip (pf false) wd dir (ns.map Node.dirent) es).status := by
  intro ns
  induction ns with
  | nil => intro cur _ _ _ _ _ _ _; exact ⟨rfl, rfl⟩
  | cons n0 rest ih =>
    intro cur hmem hnsd hcalm hcnd hcwf hsk hfind
    have hn0 : n0 ∈ es := hmem n0 (List.mem_cons_self _ _)
    rw [names, List.map_cons, List.nodup_cons] at hnsd
    have hfacts : (∀ name d, n0 = .file name d →
          (writes name d = true → d.writable = true) ∧
            (rewrite name = name ∨
              (d.movable = true ∧ NoDirNamed es (rewrite name) ∧
                ∀ n ∈ rest, n.isFile = true → n.name ≠ rewrite name))) ∧
        calmTail rewrite writes es rest = true := by
      cases n0 with
      | file name d =>
        rw [calmTail_file, Bool.and_eq_true] at hcalm
        refine ⟨?_, hcalm.2⟩
        intro nm dd h
        injection h with h1 h2
        subst h1; subst h2
        exact calmFile_spec hcalm.1
      | dir name l sub =>
        rw [calmTail_dir] at hcalm
        exact ⟨fun nm dd h => Node.noConfusion h, hcalm⟩
      | other name =>
        rw [calmTail_other] at hcalm
        exact ⟨fun nm dd h => Node.noConfusion h, hcalm⟩
    obtain ⟨hfile, hcalm2⟩ := hfacts
    obtain ⟨p1, p2, p3, p4⟩ := walkEntry_parity hspec wa wd hwa hwd hpar dir es cur n0
      hnd hwf hcl hn0
      (fun name d h => ⟨(hfile name d h).1, (hfile name d h).2.imp id (fun x => ⟨x.1, x.2.1⟩)⟩)
      hcnd hcwf hsk (hfind n0 (List.mem_cons_self _ _))
    have hent : n0.dirent ∈ es.map Node.dirent := List.mem_map_of_mem _ hn0
    obtain ⟨k1, k2, k3⟩ := @walkEntry_keeps skip pf rewrite writes hspec true wa hwa dir cur
      n0.dirent hcnd hcwf
      (fun hk => noDirNamed_of_skeleton_eq hsk (noDirNamed_of_file_entry hnd hent hk))
    have hrest : ∀ n ∈ rest, n.isFile = true ∨ n.isDir = true →
        find (walkEntry skip (pf true) wa dir cur n0.dirent).state n.name = some n := by
      intro n hn hkind
      have hne : n.name ≠ n0.name := fun h => hnsd.1 (h ▸ mem_names_of_mem hn)
      rw [p4 n.name hne]
      · exact hfind n (List.mem_cons_of_mem _ hn) hkind
      · intro name d h0 hk
        rcases (hfile name d h0).2 with hsame | ⟨_, hnod, hlater⟩
        · rw [hsame] at hk
          apply hne
          rw [hk, h0]
          rfl
        · rcases hkind with hkf | hkd
          · exact hlater n hn hkf hk
          · have := hnod n (hmem n (List.mem_cons_of_mem _ hn)) hk
            rw [hkd] at this
            exact Bool.noConfusion this
    obtain ⟨i1, i2⟩ := ih (walkEntry skip (pf true) wa dir cur n0.dirent).state
      (fun n hn => hmem n (List.mem_cons_of_mem _ hn)) hnsd.2 hcalm2 k1 k2 (k3.trans hsk) hrest
    rw [List.map_cons, walkLoop_cons, walkLoop_cons, p3]
    generalize walkEntry skip (pf true) wa dir cur n0.dirent = ra at p1 p2 i1 i2 ⊢
    generalize walkEntry skip (pf false) wd dir es n0.dirent = rd at p1 p2 ⊢
    obtain ⟨sa, ta, sta⟩ := ra
    obtain ⟨sd, td, std⟩ := rd
    simp only at p1 p2 i1 i2 ⊢
    subst p2
    cases sta with
    | returned =>
      simp only
      rw [report_append, report_append, List.map_append, List.map_append, p1, i1]
      exact ⟨rfl, i2⟩
    | threw => exact ⟨p1, rfl⟩
    | outOfFuel => exact ⟨p1, rfl⟩

/-- Dry-run/apply parity of `walk` on a well-formed tree in which every
visited directory is calm: both runs print the same report up to the mode tag
and end the same way. -/
theorem walkWith_parity {skip : Str → Bool}
    {pf : Bool → RelPath → Str → List Node → List Node × List Event} {rewrite : Str → Str}
    {writes : Str → FileData → Bool} (hspec : ProcessFileSpec pf rewrite writes) :
    ∀ (fuel : Nat) (dir : RelPath) (n : Node), n.wf = true →
      calmHere rewrite writes n.entries = true →
      calmList skip rewrite writes n.entries = true →
      (report (walkWith skip (pf true) fuel dir n).trace).map untag =
          (report (walkWith skip (pf false) fuel dir n).trace).map untag ∧
        (walkWith skip (pf true) fuel dir n).status =
          (walkWith skip (pf false) fuel dir n).status := by
  intro fuel
  induction fuel with
  | zero => intro dir n _ _ _; exact ⟨rfl, rfl⟩
  | succ fuel ih =>
    intro dir n hn hc1 hc2
    unfold walkWith
    cases hrd : readdirSync n with
    | none => exact ⟨rfl, rfl⟩
    | some entries =>
      obtain ⟨name, es, hne, hent⟩ := readdirSync_some hrd
      subst hne
      subst hent
      rw [wf_dir, Bool.and_eq_true, decide_eq_true_eq] at hn
      simp only [Node.entries] at hc1 hc2 ⊢
      obtain ⟨l1, l2⟩ := walkLoop_parity hspec (walkWith skip (pf true) fuel)
        (walkWith skip (pf false) fuel) (walkWith_keeps hspec true fuel)
        (walkWith_dry hspec fuel) ih dir es hn.1 hn.2 hc2 es es
        (fun _ he => he) hn.1 hc1 hn.1 hn.2 rfl (fun n hn' _ => find_of_mem hn.1 hn')
      refine ⟨?_, l2⟩
      show (report (Event.readdirSync dir :: _)).map untag =
        (report (Event.readdirSync dir :: _)).map untag
      exact l1

end FS

namespace FS

theorem depth_dir (name : Str) (l : Bool) (es : List Node) :
    (Node.dir name l es).depth = depthList es + 1 := by
  rw [Node.depth]

theorem depth_of_not_isDir {n : Node} (h : n.isDir = false) : n.depth = 0 := by
  cases n with
  | file name d => simp [Node.depth]
  | dir name l es => exact Bool.noConfusion h
  | other name => simp [Node.depth]

theorem depthList_cons (n : Node) (ns : List Node) :
    depthList (n :: ns) = max n.depth (depthList ns) := by
  rw [depthList]

theorem depthList_le_iff (es : List Node) (k : Nat) :
    depthList es ≤ k ↔ ∀ n ∈ es, n.depth ≤ k := by
  induction es with
  | nil => simp [depthList]
  | cons x xs ih =>
    rw [depthList_cons, Nat.max_le, ih]
    simp

theorem depth_le_depthList {es : List Node} {n : Node} (h : n ∈ es) :
    n.depth ≤ depthList es :=
  (depthList_le_iff es (depthList es)).mp (Nat.le_refl _) n h

theorem written_depth (n : Node) (data : Str) : (n.written data).depth = n.depth := by
  cases n with
  | file name d => simp [Node.written, Node.depth]
  | dir name l es => rfl
  | other name => rfl

theorem rename_depth (n : Node) (new : Str) : (n.rename new).depth = n.depth := by
  cases n with
  | file name d => simp [Node.rename, Node.depth]
  | dir name l es => simp only [Node.rename, depth_dir]
  | other name => simp [Node.rename, Node.depth]

/-- Writing and renaming a file do not deepen the tree. -/
theorem touched_depth {name new : Str} {cur c2 : List Node} (h : Touched name new cur c2) :
    depthList c2 ≤ depthList cur := by
  induction h with
  | refl cur => exact Nat.le_refl _
  | write hw _ ih =>
    refine Nat.le_trans ih ?_
    rw [writeFileSync_some hw, depthList_le_iff]
    intro n hn
    obtain ⟨n0, hn0, hn1⟩ := List.mem_map.mp hn
    rw [← hn1]
    split
    · rw [written_depth]; exact depth_le_depthList hn0
    · exact depth_le_depthList hn0
  | rename hr _ ih =>
    refine Nat.le_trans ih ?_
    rcases renameSync_some hr with hc | ⟨_, _, hc⟩
    · rw [hc]
    · rw [hc, depthList_le_iff]
      intro n hn
      obtain ⟨n0, hn0, hn1⟩ := List.mem_map.mp hn
      have hmem : n0 ∈ _ := (List.mem_filter.mp hn0).1
      rw [← hn1]
      split
      · rw [rename_depth]; exact depth_le_depthList hmem
      · exact depth_le_depthList hmem

theorem walkEntry_fuel {skip : Str → Bool}
    {pf : Bool → RelPath → Str → List Node → List Node × List Event} {rewrite : Str → Str}
    {writes : Str → FileData → Bool} (hspec : ProcessFileSpec pf rewrite writes) (b : Bool) (walkDir : RelPath → Node → Outcome Node)
    (fuel : Nat)
    (hwd : ∀ p child, child.depth < fuel →
      (walkDir p child).status ≠ .outOfFuel ∧ (walkDir p child).state.depth ≤ child.depth)
    (dir : RelPath) (cur : List Node) (entry : Dirent) (hd : depthList cur < fuel) :
    (walkEntry skip (pf b) walkDir dir cur entry).status ≠ .outOfFuel ∧
      depthList (walkEntry skip (pf b) walkDir dir cur entry).state ≤ depthList cur := by
  unfold walkEntry
  simp only
  split
  · split
    · exact ⟨fun h => Status.noConfusion h, Nat.le_refl _⟩
    · split
      · exact ⟨fun h => Status.noConfusion h, Nat.le_refl _⟩
      · next child hf =>
        have hc : child.depth ≤ depthList cur := depth_le_depthList (find_some hf).2
        obtain ⟨w1, w2⟩ := hwd (dir ++ [entry.name]) child (Nat.lt_of_le_of_lt hc hd)
        refine ⟨w1, ?_⟩
        rw [depthList_le_iff]
        intro n hn
        obtain ⟨n0, hn0, hn1⟩ := List.mem_map.mp hn
        rw [← hn1]
        split
        · exact Nat.le_trans w2 hc
        · exact depth_le_depthList hn0
  · exact ⟨fun h => Status.noConfusion h, touched_depth (hspec.touched b dir entry.name cur)⟩
  · exact ⟨fun h => Status.noConfusion h, Nat.le_refl _⟩

theorem walkLoop_fuel {skip : Str → Bool}
    {pf : Bool → RelPath → Str → List Node → List Node × List Event} {rewrite : Str → Str}
    {writes : Str → FileData → Bool} (hspec : ProcessFileSpec pf rewrite writes) (b : Bool) (walkDir : RelPath → Node → Outcome Node)
    (fuel : Nat)
    (hwd : ∀ p child, child.depth < fuel →
      (walkDir p child).status ≠ .outOfFuel ∧ (walkDir p child).state.depth ≤ child.depth)
    (dir : RelPath) :
    ∀ (entries : List Dirent) (cur : List Node), depthList cur < fuel →
      (walkLoop skip (pf b) walkDir dir entries cur).status ≠ .outOfFuel ∧
        depthList (walkLoop skip (pf b) walkDir dir entries cur).state ≤ depthList cur := by
  intro entries
  induction entries with
  | nil => intro cur _; exact ⟨fun h => Status.noConfusion h, Nat.le_refl _⟩
  | cons entry rest ih =>
    intro cur hd
    obtain ⟨e1, e2⟩ := @walkEntry_fuel skip pf rewrite writes hspec b walkDir fuel hwd dir cur entry hd
    rw [walkLoop_cons]
    split
    · obtain ⟨l1, l2⟩ := ih _ (Nat.lt_of_le_of_lt e2 hd)
      exact ⟨l1, Nat.le_trans l2 e2⟩
    · exact ⟨e1, e2⟩

/-- Termination of `walk`: with more fuel than the tree is deep, the model
does not run out of fuel (the walk returns, or `readdirSync` throws), and the
tree it leaves is no deeper. -/
theorem walkWith_fuel {skip : Str → Bool}
    {pf : Bool → RelPath → Str → List Node → List Node × List Event} {rewrite : Str → Str}
    {writes : Str → FileData → Bool} (hspec : ProcessFileSpec pf rewrite writes) (b : Bool) :
    ∀ (fuel : Nat) (dir : RelPath) (n : Node), n.depth < fuel →
      (walkWith skip (pf b) fuel dir n).status ≠ .outOfFuel ∧
        (walkWith skip (pf b) fuel dir n).state.depth ≤ n.depth := by
  intro fuel
  induction fuel with
  | zero => intro dir n hn; exact absurd hn (Nat.not_lt_zero _)
  | succ fuel ih =>
    intro dir n hn
    unfold walkWith
    split
    · exact ⟨fun h => Status.noConfusion h, Nat.le_refl _⟩
    · next entries hrd =>
      obtain ⟨name, es, hne, hent⟩ := readdirSync_some hrd
      subst hne
      rw [depth_dir] at hn
      obtain ⟨l1, l2⟩ := walkLoop_fuel hspec b (walkWith skip (pf b) fuel) fuel ih dir
        entries es (Nat.lt_of_succ_lt_succ hn)
      simp only [Node.entries, Node.withEntries]
      refine ⟨l1, ?_⟩
      rw [depth_dir, depth_dir]
      exact Nat.succ_le_succ l2

end FS

/-! ## Dry run and apply run, excluded directories, skipped files, rename targets -/

open FS

/-- C6, counterexample.  Four trees on which the report of the apply run
differs from that of the dry run by more than the mode tag.  A file `ublock`
next to a directory `ablock`: the dry run reports the rename, the apply run's
`renameSync` throws and it reports `[SKIP ] rename failed` (both scripts).  A
file `ublock` that cannot be moved, as in a directory without write
permission: the same (both scripts).  An unreadable `A Block.txt` listed before
`ABlock.txt`: the apply run of `sigma-rename.js` renames the first over the
second and then fails to read `ABlock.txt`, which the dry run reads.  A
read-only file that mentions `uBlock`: the dry run of `rename-to-ablock.js`
reports the content change, the apply run's `writeFileSync` throws and it
reports `[SKIP ] read error`. -/
theorem dry_apply_reports_differ :
    (report (RenameToAblock.walk false 2 [] Example.dirConflict).trace =
        [.logRename false ["ublock".toList] ["ablock".toList]] ∧
      report (RenameToAblock.walk true 2 [] Example.dirConflict).trace =
        [.warnRename ["ublock".toList]]) ∧
    (report (SigmaRename.walk false 2 [] Example.dirConflict).trace =
        [.logRename false ["ublock".toList] ["ablock".toList]] ∧
      report (SigmaRename.walk true 2 [] Example.dirConflict).trace =
        [.warnRename ["ublock".toList]]) ∧
    (report (RenameToAblock.walk false 2 [] Example.noRename).trace =
        [.logRename false ["ublock".toList] ["ablock".toList]] ∧
      report (RenameToAblock.walk true 2 [] Example.noRename).trace =
        [.warnRename ["ublock".toList]]) ∧
    (report (SigmaRename.walk false 2 [] Example.noRename).trace =
        [.logRename false ["ublock".toList] ["ablock".toList]] ∧
      report (SigmaRename.walk true 2 [] Example.noRename).trace =
        [.warnRename ["ublock".toList]]) ∧
    (report (SigmaRename.walk false 2 [] Example.renamedOver).trace =
        [.warnRead ["A Block.txt".toList],
          .logRename false ["A Block.txt".toList] ["ABlock.txt".toList]] ∧
      report (SigmaRename.walk true 2 [] Example.renamedOver).trace =
        [.warnRead ["A Block.txt".toList],
          .logRename true ["A Block.txt".toList] ["ABlock.txt".toList],
          .warnRead ["ABlock.txt".toList]]) ∧
    (report (RenameToAblock.walk false 2 [] Example.readOnly).trace =
        [.logContent false ["notes.txt".toList]] ∧
      report (RenameToAblock.walk true 2 [] Example.readOnly).trace =
        [.warnRead ["notes.txt".toList]]) ∧
    (report (RenameToAblock.walk true 2 [] Example.noRename).trace).map untag ≠
      (report (RenameToAblock.walk false 2 [] Example.noRename).trace).map untag ∧
    (report (SigmaRename.walk true 2 [] Example.noRename).trace).map untag ≠
      (report (SigmaRename.walk false 2 [] Example.noRename).trace).map untag := by
  decide

/-- C6, amended (dry-run/apply parity).  Take a directory tree in which the
entry names of every directory are pairwise distinct.  If, in every directory
that `walk` enters, every regular file whose content the script rewrites is
writable, every regular file whose name it rewrites can be moved, and the
rewritten name is neither the name of a directory of that directory nor the
name of a regular file listed after the file (`calm`), then the report lines
printed by `walk` with `APPLY = true` are those printed with `APPLY = false`,
in the same order, up to the mode tag, and both runs end the same way; with
more fuel than the tree is deep the model does not run out of fuel.  This
holds for `rename-to-ablock.js` and for `sigma-rename.js`, each with its own
tables and `SKIP_DIRS`. -/
theorem dry_apply_parity (fuel : Nat) (root : Node) (hwf : root.wf = true) :
    (RenameToAblock.calm root = true →
      (report (RenameToAblock.walk true fuel [] root).trace).map untag =
          (report (RenameToAblock.walk false fuel [] root).trace).map untag ∧
        (RenameToAblock.walk true fuel [] root).status =
          (RenameToAblock.walk false fuel [] root).status ∧
        (root.depth < fuel → (RenameToAblock.walk true fuel [] root).status ≠ .outOfFuel)) ∧
    (SigmaRename.calm root = true →
      (report (SigmaRename.walk true fuel [] root).trace).map untag =
          (report (SigmaRename.walk false fuel [] root).trace).map untag ∧
        (SigmaRename.walk true fuel [] root).status =
          (SigmaRename.walk false fuel [] root).status ∧
        (root.depth < fuel → (SigmaRename.walk true fuel [] root).status ≠ .outOfFuel)) := by
  constructor
  · intro hc
    rw [RenameToAblock.calm, Bool.and_eq_true] at hc
    obtain ⟨p1, p2⟩ := walkWith_parity RenameToAblock.processFile_spec fuel [] root hwf hc.1 hc.2
    exact ⟨p1, p2, fun hd => (walkWith_fuel RenameToAblock.processFile_spec true fuel [] root hd).1⟩
  · intro hc
    rw [SigmaRename.calm, Bool.and_eq_true] at hc
    obtain ⟨p1, p2⟩ :=
      walkWith_parity SigmaRename.sigma_processFile_spec fuel [] root hwf hc.1 hc.2
    exact ⟨p1, p2,
      fun hd => (walkWith_fuel SigmaRename.sigma_processFile_spec true fuel [] root hd).1⟩

/-- Witness for C6 amended: the tree `Example.project` is well formed, calm for
both scripts and less deep than the fuel 4; both runs return, and the reports
agree up to the mode tag; the dry run of `rename-to-ablock.js` prints four
lines.  The tree `Example.renamedBack`, in which `ublock.txt` is renamed over
`ablock.txt` listed before it, is calm for `rename-to-ablock.js`, and the tree
`Example.readOnly` with its read-only file is calm for `sigma-rename.js`, which
writes no file; the reports agree there as well. -/
theorem dry_apply_parity_witness :
    Example.project.wf = true ∧ RenameToAblock.calm Example.project = true ∧
    SigmaRename.calm Example.project = true ∧ Example.project.depth < 4 ∧
    (RenameToAblock.walk true 4 [] Example.project).status = .returned ∧
    (report (RenameToAblock.walk false 4 [] Example.project).trace).length = 4 ∧
    ((report (RenameToAblock.walk true 4 [] Example.project).trace).map untag =
        (report (RenameToAblock.walk false 4 [] Example.project).trace).map untag ∧
      (RenameToAblock.walk true 4 [] Example.project).status =
        (RenameToAblock.walk false 4 [] Example.project).status ∧
      (Example.project.depth < 4 →
        (RenameToAblock.walk true 4 [] Example.project).status ≠ .outOfFuel)) ∧
    ((report (SigmaRename.walk true 4 [] Example.project).trace).map untag =
        (report (SigmaRename.walk false 4 [] Example.project).trace).map untag ∧
      (SigmaRename.walk true 4 [] Example.project).status =
        (SigmaRename.walk false 4 [] Example.project).status ∧
      (Example.project.depth < 4 →
        (SigmaRename.walk true 4 [] Example.project).status ≠ .outOfFuel)) ∧
    (Example.renamedBack.wf = true ∧ RenameToAblock.calm Example.renamedBack = true ∧
      report (RenameToAblock.walk true 2 [] Example.renamedBack).trace =
        [.logRename true ["ublock.txt".toList] ["ablock.txt".toList]] ∧
      (report (RenameToAblock.walk true 2 [] Example.renamedBack).trace).map untag =
        (report (RenameToAblock.walk false 2 [] Example.renamedBack).trace).map untag) ∧
    (Example.readOnly.wf = true ∧ SigmaRename.calm Example.readOnly = true ∧
      (report (SigmaRename.walk true 2 [] Example.readOnly).trace).map untag =
        (report (SigmaRename.walk false 2 [] Example.readOnly).trace).map untag) :=
  ⟨by decide, by decide, by decide, by decide, by decide, by decide,
    (dry_apply_parity 4 Example.project (by decide)).1 (by decide),
    (dry_apply_parity 4 Example.project (by decide)).2 (by decide),
    ⟨by decide, by decide, by decide,
      ((dry_apply_parity 2 Example.renamedBack (by decide)).1 (by decide)).1⟩,
    ⟨by decide, by decide,
      ((dry_apply_parity 2 Example.readOnly (by decide)).2 (by decide)).1⟩⟩

namespace FS

/-- Every path that a walk from the root names in an `fs` call or in a report
line lies in a directory reached through directories that are not skipped,
and every directory it enumerates is such a directory. -/
theorem walkWith_clear {skip : Str → Bool}
    {pf : Bool → RelPath → Str → List Node → List Node × List Event} {rewrite : Str → Str}
    {writes : Str → FileData → Bool} (hspec : ProcessFileSpec pf rewrite writes) (b : Bool) (fuel : Nat) (root : Node) :
    (∀ e ∈ (walkWith skip (pf b) fuel [] root).trace, ∀ p ∈ e.paths,
        ∀ seg ∈ p.dropLast, skip seg = false) ∧
      (∀ p, Event.readdirSync p ∈ (walkWith skip (pf b) fuel [] root).trace →
        ∀ seg ∈ p, skip seg = false) := by
  constructor
  · intro e he p hp seg hseg
    rcases walkWith_origin skip (pf b) fuel [] root e he with ⟨rel, h1, h2⟩ | ⟨rel, nm, cur, h1, h2⟩
    · subst h1
      simp only [Event.paths, List.mem_singleton, List.nil_append] at hp
      subst hp
      exact h2 seg (List.mem_of_mem_dropLast hseg)
    · obtain ⟨x, hx⟩ := hspec.paths b _ nm cur e h1 p hp
      rw [hx, List.nil_append, List.dropLast_concat] at hseg
      exact h2 seg hseg
  · intro p he seg hseg
    rcases walkWith_origin skip (pf b) fuel [] root _ he with ⟨rel, h1, h2⟩ | ⟨rel, nm, cur, h1, h2⟩
    · injection h1 with h1
      rw [h1, List.nil_append] at hseg
      exact h2 seg hseg
    · exact absurd h1 (hspec.no_readdir b _ nm cur p)

end FS

/-- C7 (exclusion invariant).  In a walk from the root, in either mode and for
either script, every path named by an `fs` call (`statSync`, `readFileSync`,
`writeFileSync`, `renameSync`) or by a report line has no ancestor directory
whose name is in `SKIP_DIRS`, and no directory with such a name on its path is
ever enumerated: nothing below an excluded directory is read, written, renamed
or reported.  The ancestors of a path are its segments but the last; the last
segment of a file's path is the file's own base name. -/
theorem excluded_dirs_never_visited (fuel : Nat) (root : Node) (APPLY : Bool) :
    ((∀ e ∈ (RenameToAblock.walk APPLY fuel [] root).trace, ∀ p ∈ e.paths,
          ∀ seg ∈ p.dropLast, RenameToAblock.shouldSkipDir seg = false) ∧
        (∀ p, Event.readdirSync p ∈ (RenameToAblock.walk APPLY fuel [] root).trace →
          ∀ seg ∈ p, RenameToAblock.shouldSkipDir seg = false)) ∧
      ((∀ e ∈ (SigmaRename.walk APPLY fuel [] root).trace, ∀ p ∈ e.paths,
          ∀ seg ∈ p.dropLast, SigmaRename.shouldSkipDir seg = false) ∧
        (∀ p, Event.readdirSync p ∈ (SigmaRename.walk APPLY fuel [] root).trace →
          ∀ seg ∈ p, SigmaRename.shouldSkipDir seg = false)) :=
  ⟨walkWith_clear RenameToAblock.processFile_spec APPLY fuel root,
    walkWith_clear SigmaRename.sigma_processFile_spec APPLY fuel root⟩

/-- Witness for C7: in `Example.project`, which holds `.git/ublock`, the apply
run of `rename-to-ablock.js` reads `src/ublock/sigma-notes.md`, whose
ancestors `src` and `ublock` are not excluded, and no event of the run names a
path that starts with `.git`. -/
theorem excluded_dirs_never_visited_witness :
    Event.readFileSync ["src".toList, "ublock".toList, "sigma-notes.md".toList] ∈
        (RenameToAblock.walk true 4 [] Example.project).trace ∧
      (∀ seg ∈ ["src".toList, "ublock".toList], RenameToAblock.shouldSkipDir seg = false) ∧
      (RenameToAblock.walk true 4 [] Example.project).trace.all
        (fun e => e.paths.all (fun p => p.head? != some ".git".toList)) = true :=
  ⟨by decide,
    fun seg hseg =>
      (excluded_dirs_never_visited 4 Example.project true).1.1 _
        (by decide :
          Event.readFileSync ["src".toList, "ublock".toList, "sigma-notes.md".toList] ∈
            (RenameToAblock.walk true 4 [] Example.project).trace)
        ["src".toList, "ublock".toList, "sigma-notes.md".toList]
        (List.mem_singleton.mpr rfl) seg hseg,
    by decide⟩

/-- C8 (size/extension skip, `rename-to-ablock.js`).  The ten-byte file
`src/ublock-icon.png`: `applyFilenameReplacements` would rename it to
`ablock-icon.png` and the rename step by itself reports that rename, but
`processFile` returns right after `shouldSkipFile`: in both modes its only
event is the `statSync`, the listing is unchanged, and no rename entry is
emitted.  `processFile` of `sigma-rename.js` on the same file does report the
rename. -/
theorem binary_file_not_renamed :
    RenameToAblock.shouldSkipFile Example.icon "ublock-icon.png".toList = true ∧
    RenameToAblock.applyFilenameReplacements "ublock-icon.png".toList =
      "ablock-icon.png".toList ∧
    (RenameToAblock.processRename false ["src".toList] "ublock-icon.png".toList Example.icon).2 =
      [.logRename false ["src".toList, "ublock-icon.png".toList]
        ["src".toList, "ablock-icon.png".toList]] ∧
    RenameToAblock.processFile false ["src".toList] "ublock-icon.png".toList Example.icon =
      (Example.icon, [.statSync ["src".toList, "ublock-icon.png".toList]]) ∧
    RenameToAblock.processFile true ["src".toList] "ublock-icon.png".toList Example.icon =
      (Example.icon, [.statSync ["src".toList, "ublock-icon.png".toList]]) ∧
    report (SigmaRename.processFile false ["src".toList] "ublock-icon.png".toList
        Example.icon).2 =
      [.logRename false ["src".toList, "ublock-icon.png".toList]
        ["src".toList, "ablock-icon.png".toList]] :=
  ⟨by decide, by decide, by decide, rfl, rfl, by decide⟩

/-- C9 (large and binary files, `sigma-rename.js`).  `isTextFile` returns
`true` for the ten-byte `icon.png` (an unknown extension and a size below 1 MB)
and `processFile` reads it; and it returns `true` without a `statSync` for
`big.js` whatever its size, so a file of 2 MB, or of any size above 1 MB, with
an extension of `TEXT_FILE_EXTS` is read as well. -/
theorem isTextFile_accepts_binary_and_large :
    SigmaRename.isTextFile [] "icon.png".toList [Example.textFile "icon.png" "0123456789"] =
      (true, [.statSync ["icon.png".toList]]) ∧
    (SigmaRename.processFile false [] "icon.png".toList
        [Example.textFile "icon.png" "0123456789"]).2 =
      [.statSync ["icon.png".toList], .readFileSync ["icon.png".toList]] ∧
    (∀ (size : Nat) (content : Option Str) (writable movable : Bool),
      SigmaRename.isTextFile [] "big.js".toList
          [.file "big.js".toList ⟨some size, content, writable, movable⟩] = (true, [])) ∧
    (∀ (content : Str) (APPLY movable : Bool),
      (SigmaRename.processFile APPLY [] "big.js".toList
          [.file "big.js".toList ⟨some (2 * 1024 * 1024), some content, true, movable⟩]).2.head? =
        some (.readFileSync ["big.js".toList])) := by
  refine ⟨by decide, by decide, fun size content writable movable => rfl, ?_⟩
  intro content APPLY movable
  have ht : ∀ fs, SigmaRename.isTextFile [] "big.js".toList fs = (true, []) := fun fs => rfl
  unfold SigmaRename.processFile
  simp only [ht, if_true, List.nil_append]
  have hr : FS.readFileSync
      [Node.file "big.js".toList ⟨some (2 * 1024 * 1024), some content, true, movable⟩]
      "big.js".toList = some content := rfl
  unfold SigmaRename.processContent
  rw [hr]
  simp only
  split
  · split
    · split <;> rfl
    · rfl
  · rfl

/-- C10 (rename scoping).  In either script and either mode, every
`renameSync` call and every rename report line of `processFile(dir/base)` goes
from `dir/base` to `dir/rewriteName(base)`: the parent directory is carried
over unchanged.  The same holds for every rename of a whole walk.  A walk of a
tree with pairwise distinct entry names in every directory leaves the tree's
directories as they were: it renames no directory.  For example the rename
step of either script on `src/ublock/ublock-icon.png` targets
`src/ublock/ablock-icon.png`. -/
theorem rename_only_last_segment (fuel : Nat) (root : Node) (APPLY : Bool) :
    (∀ dir base fs, ∀ e ∈ (RenameToAblock.processFile APPLY dir base fs).2, ∀ old new,
        (e = .renameSync old new ∨ ∃ a, e = .logRename a old new) →
        old = dir ++ [base] ∧ new = dir ++ [RenameToAblock.applyFilenameReplacements base]) ∧
    (∀ dir base fs, ∀ e ∈ (SigmaRename.processFile APPLY dir base fs).2, ∀ old new,
        (e = .renameSync old new ∨ ∃ a, e = .logRename a old new) →
        old = dir ++ [base] ∧ new = dir ++ [SigmaRename.applyNameReplacements base]) ∧
    (∀ e ∈ (RenameToAblock.walk APPLY fuel [] root).trace, ∀ old new,
        (e = .renameSync old new ∨ ∃ a, e = .logRename a old new) →
        ∃ parent base, old = parent ++ [base] ∧
          new = parent ++ [RenameToAblock.applyFilenameReplacements base]) ∧
    (∀ e ∈ (SigmaRename.walk APPLY fuel [] root).trace, ∀ old new,
        (e = .renameSync old new ∨ ∃ a, e = .logRename a old new) →
        ∃ parent base, old = parent ++ [base] ∧
          new = parent ++ [SigmaRename.applyNameReplacements base]) ∧
    (root.wf = true →
      (RenameToAblock.walk APPLY fuel [] root).state.skeleton = root.skeleton ∧
        (SigmaRename.walk APPLY fuel [] root).state.skeleton = root.skeleton) ∧
    (RenameToAblock.processRename APPLY ["src".toList, "ublock".toList]
        "ublock-icon.png".toList Example.icon).2.getLast? =
      some (.logRename APPLY ["src".toList, "ublock".toList, "ublock-icon.png".toList]
        ["src".toList, "ublock".toList, "ablock-icon.png".toList]) ∧
    (SigmaRename.processFile APPLY ["src".toList, "ublock".toList]
        "ublock-icon.png".toList Example.icon).2.getLast? =
      some (.logRename APPLY ["src".toList, "ublock".toList, "ublock-icon.png".toList]
        ["src".toList, "ublock".toList, "ablock-icon.png".toList]) := by
  refine ⟨?_, ?_, ?_, ?_, ?_, ?_, ?_⟩
  · exact fun dir base fs => RenameToAblock.processFile_spec.renames APPLY dir base fs
  · exact fun dir base fs => SigmaRename.sigma_processFile_spec.renames APPLY dir base fs
  · intro e he old new hren
    rcases walkWith_origin _ _ fuel [] root e he with ⟨rel, h1, _⟩ | ⟨rel, nm, cur, h1, _⟩
    · subst h1
      rcases hren with h | ⟨a, h⟩ <;> exact Event.noConfusion h
    · obtain ⟨h2, h3⟩ := RenameToAblock.processFile_spec.renames APPLY _ nm cur e h1 old new hren
      exact ⟨_, nm, h2, h3⟩
  · intro e he old new hren
    rcases walkWith_origin _ _ fuel [] root e he with ⟨rel, h1, _⟩ | ⟨rel, nm, cur, h1, _⟩
    · subst h1
      rcases hren with h | ⟨a, h⟩ <;> exact Event.noConfusion h
    · obtain ⟨h2, h3⟩ :=
        SigmaRename.sigma_processFile_spec.renames APPLY _ nm cur e h1 old new hren
      exact ⟨_, nm, h2, h3⟩
  · intro hwf
    exact ⟨(walkWith_keeps RenameToAblock.processFile_spec APPLY fuel [] root hwf).2.1,
      (walkWith_keeps SigmaRename.sigma_processFile_spec APPLY fuel [] root hwf).2.1⟩
  · cases APPLY <;> decide
  · cases APPLY <;> decide

/-- Witness for C10: in the apply run of `sigma-rename.js` on `Example.project`
the file `src/ublock/ublock-icon.png` is renamed to `src/ublock/ablock-icon.png`
(the directory `ublock` keeps its name), the rename has the stated form, and
the directories of the tree after the run are those before it. -/
theorem rename_only_last_segment_witness :
    Example.project.wf = true ∧
    Event.renameSync ["src".toList, "ublock".toList, "ublock-icon.png".toList]
        ["src".toList, "ublock".toList, "ablock-icon.png".toList] ∈
      (SigmaRename.walk true 4 [] Example.project).trace ∧
    (∃ parent base,
      ["src".toList, "ublock".toList, "ublock-icon.png".toList] = parent ++ [base] ∧
      ["src".toList, "ublock".toList, "ablock-icon.png".toList] =
        parent ++ [SigmaRename.applyNameReplacements base]) ∧
    ((RenameToAblock.walk true 4 [] Example.project).state.skeleton =
        Example.project.skeleton ∧
      (SigmaRename.walk true 4 [] Example.project).state.skeleton =
        Example.project.skeleton) :=
  ⟨by decide, by decide,
    (rename_only_last_segment 4 Example.project true).2.2.2.1 _ (by decide) _ _ (Or.inl rfl),
    (rename_only_last_segment 4 Example.project true).2.2.2.2.1 (by decide)⟩

/-! ## The bare scheme marker `://` (C11) -/

/-- Claim C11 (the code departs from it): `shouldSkipLine` of
`rename-to-ablock.js` tests `http://` and `https://` but not the bare marker
`://` that the script's header comment names and that `sigma-rename.js` tests.
The line `ftp://mirror.example/uBlock` contains `://`, is not classified
protected, and `processFile`'s loop turn rewrites it to
`ftp://mirror.example/A Block` and sets `hasChanges`, so that in apply mode a
file holding this line is written back rewritten; the sibling
`lineLooksLikeUrlOrImport` protects the same line. -/
theorem generic_scheme_not_protected :
    "://".toList <:+: "ftp://mirror.example/uBlock".toList ∧
    RenameToAblock.shouldSkipLine "ftp://mirror.example/uBlock".toList = false ∧
    RenameToAblock.processLine "ftp://mirror.example/uBlock".toList =
      ("ftp://mirror.example/A Block".toList, true) ∧
    (RenameToAblock.processFile true [] "links.txt".toList
        [Example.textFile "links.txt" "ftp://mirror.example/uBlock"]).2 =
      [.statSync ["links.txt".toList], .readFileSync ["links.txt".toList],
        .writeFileSync ["links.txt".toList] "ftp://mirror.example/A Block".toList,
        .logContent true ["links.txt".toList]] ∧
    SigmaRename.lineLooksLikeUrlOrImport "ftp://mirror.example/uBlock".toList = true := by
  refine ⟨?_, by decide, by decide, by decide, by decide⟩
  exact (JS.includes_iff _ _).mp (by decide)

/-! ## Rules that replace a text by itself (C16) -/

namespace JS

/-- Splitting at a separator and joining with the same separator gives the
text back. -/
theorem splitJoin_same (f : Str) (hf : f ≠ []) : ∀ s : Str, splitJoin s f f = s := by
  refine scan_induction f hf (fun s => splitJoin s f f = s) ?_ ?_ ?_
  · exact splitJoin_nil f f hf
  · intro r ih
    show splitJoin (f ++ r) f f = f ++ r
    rw [splitJoin_hit f f hf, ih]
  · intro c r hp ih
    show splitJoin (c :: r) f f = c :: r
    rw [splitJoin_miss f f hf c r hp, ih]

end JS

namespace SigmaRename
open FS

theorem applyGuardedWith_same : ∀ (rules : List Rule) (s : Str),
    (∀ r ∈ rules, r.from_ = r.to_ ∧ r.from_ ≠ []) → applyGuardedWith rules s = s := by
  intro rules
  induction rules with
  | nil => intro s _; rfl
  | cons r rest ih =>
    intro s h
    have hr := h r (List.mem_cons_self _ _)
    have hrest : ∀ r ∈ rest, r.from_ = r.to_ ∧ r.from_ ≠ [] :=
      fun x hx => h x (List.mem_cons_of_mem _ hx)
    have h1 : JS.join (JS.split s r.from_) r.to_ = s := by
      rw [← hr.1]; exact JS.splitJoin_same r.from_ hr.2 s
    simp only [applyGuardedWith, h1, ite_self]
    exact ih s hrest

theorem mapLine_same (line : Str) : mapLine line = (line, false) := by
  unfold mapLine
  split
  · rfl
  · have h : applyGuardedWith contentReplacements line = line :=
      applyGuardedWith_same contentReplacements line (by decide)
    simp only [h, bne_self_eq_false]

theorem applyContentReplacements_eq (content : Str) :
    applyContentReplacements content = (JS.join (JS.splitLines content) ['\n'], false) := by
  unfold applyContentReplacements
  have h : mapLine = fun line => (line, false) := funext mapLine_same
  simp only [h, List.map_map]
  have h1 : (Prod.fst ∘ fun (line : Str) => (line, false)) = id := rfl
  rw [h1, List.map_id]
  congr 1
  simp

theorem processContent_eq (b : Bool) (p : RelPath) (name : Str) (fs : List Node) :
    processContent b p name fs =
      match FS.readFileSync fs name with
      | none => (fs, [.readFileSync p, .warnRead p])
      | some _ => (fs, [.readFileSync p]) := by
  unfold processContent
  cases h : FS.readFileSync fs name with
  | none => rfl
  | some orig => simp only [applyContentReplacements_eq, Bool.false_eq_true, if_false]

theorem sigma_processContent_quiet (b : Bool) (p : RelPath) (name : Str) (fs : List Node) :
    (processContent b p name fs).1 = fs ∧
      ∀ e ∈ (processContent b p name fs).2, e.isContent = false := by
  rw [processContent_eq]
  split
  · refine ⟨rfl, ?_⟩
    intro e he
    simp only [List.mem_cons, List.mem_singleton, List.not_mem_nil, or_false] at he
    rcases he with he | he <;> rw [he] <;> rfl
  · refine ⟨rfl, ?_⟩
    intro e he
    simp only [List.mem_singleton] at he
    rw [he]; rfl

theorem sigma_processRename_quiet (b : Bool) (dir : RelPath) (name : Str) (fs : List Node) :
    ∀ e ∈ (processRename b dir name fs).2, e.isContent = false := by
  intro e he
  rcases sigma_processRename_events b dir name fs e he with h | ⟨a, h⟩ | h <;> rw [h] <;> rfl

theorem sigma_processFile_quiet (b : Bool) (dir : RelPath) (name : Str) (fs : List Node) :
    ∀ e ∈ (processFile b dir name fs).2, e.isContent = false := by
  intro e he
  unfold processFile at he
  simp only [List.mem_append] at he
  rcases he with (he | he) | he
  · rw [isTextFile_events dir name fs e he]; rfl
  · split at he
    · exact (sigma_processContent_quiet b _ name fs).2 e he
    · exact absurd he (List.not_mem_nil _)
  · exact sigma_processRename_quiet b dir name _ e he

theorem sigma_processFile_effect (b : Bool) (dir : RelPath) (name : Str) (fs : List Node) :
    (processFile b dir name fs).1 = fs ∨
      renameSync fs name (applyNameReplacements name) = some (processFile b dir name fs).1 := by
  have h1 : (if (isTextFile dir name fs).1 then processContent b (dir ++ [name]) name fs
      else (fs, [])).1 = fs := by
    split
    · exact (sigma_processContent_quiet b _ name fs).1
    · rfl
  have h2 := sigma_processRename_state b dir name fs
  unfold processFile
  simp only [h1]
  exact h2

end SigmaRename

/-! ## Line endings of `sigma-rename.js` (C15) -/

namespace JS

theorem splitLinesGo_cons_cons (cur : Str) (c d : Char) (rest : Str) :
    splitLinesGo cur (c :: d :: rest) =
      if c = '\n' then cur.reverse :: splitLinesGo [] (d :: rest)
      else if c = '\r' ∧ d = '\n' then cur.reverse :: splitLinesGo [] rest
      else splitLinesGo (c :: cur) (d :: rest) := by
  rw [splitLinesGo]

theorem splitLinesGo_ne_nil : ∀ (s cur : Str), splitLinesGo cur s ≠ [] := by
  intro s
  induction s with
  | nil => intro cur; simp [splitLinesGo]
  | cons c r ih =>
    intro cur
    cases r with
    | nil => simp only [splitLinesGo]; split <;> simp
    | cons d rest =>
      rw [splitLinesGo_cons_cons]
      split
      · simp
      · split
        · simp
        · exact ih _

/-- Joined output of the line scan started with a partial piece. -/
theorem join_splitLinesGo_cur (t : Str) : ∀ (s cur : Str),
    join (splitLinesGo cur s) t = cur.reverse ++ join (splitLinesGo [] s) t := by
  intro s
  induction s with
  | nil => intro cur; simp [splitLinesGo, join]
  | cons c r ih =>
    intro cur
    cases r with
    | nil =>
      simp only [splitLinesGo]
      split <;> simp [join]
    | cons d rest =>
      rw [splitLinesGo_cons_cons, splitLinesGo_cons_cons]
      split
      · rw [join_cons_of_ne_nil _ _ _ (splitLinesGo_ne_nil _ _),
          join_cons_of_ne_nil _ _ _ (splitLinesGo_ne_nil _ _)]
        simp
      · split
        · rw [join_cons_of_ne_nil _ _ _ (splitLinesGo_ne_nil _ _),
            join_cons_of_ne_nil _ _ _ (splitLinesGo_ne_nil _ _)]
          simp
        · rw [ih (c :: cur), ih [c]]
          simp

theorem joinLines_nil : join (splitLines []) ['\n'] = [] := rfl

theorem joinLines_hit (r : Str) :
    join (splitLines ('\r' :: '\n' :: r)) ['\n'] = '\n' :: join (splitLines r) ['\n'] := by
  unfold splitLines
  rw [splitLinesGo_cons_cons, if_neg (by decide), if_pos ⟨rfl, rfl⟩,
    join_cons_of_ne_nil _ _ _ (splitLinesGo_ne_nil _ _)]
  rfl

theorem joinLines_miss (c : Char) (r : Str) (h : ¬ ['\r', '\n'] <+: c :: r) :
    join (splitLines (c :: r)) ['\n'] = c :: join (splitLines r) ['\n'] := by
  unfold splitLines
  cases r with
  | nil =>
    simp only [splitLinesGo]
    split
    · next hc => rw [hc]; rfl
    · rfl
  | cons d rest =>
    rw [splitLinesGo_cons_cons]
    split
    · next hc =>
      rw [join_cons_of_ne_nil _ _ _ (splitLinesGo_ne_nil _ _), hc]
      rfl
    · split
      · next hcd =>
        exfalso
        apply h
        rw [hcd.1, hcd.2]
        exact ⟨rest, rfl⟩
      · rw [join_splitLinesGo_cur]
        rfl

/-- Splitting at `/\r?\n/` and joining with a line feed replaces every carriage
return plus line feed met by the scan by a line feed, and nothing else. -/
theorem joinLines_eq (s : Str) :
    join (splitLines s) ['\n'] = splitJoin s ['\r', '\n'] ['\n'] := by
  have hf : (['\r', '\n'] : Str) ≠ [] := by simp
  refine scan_induction ['\r', '\n'] hf
    (fun s => join (splitLines s) ['\n'] = splitJoin s ['\r', '\n'] ['\n']) ?_ ?_ ?_ s
  · show join (splitLines []) ['\n'] = splitJoin [] ['\r', '\n'] ['\n']
    rw [splitJoin_nil _ _ hf]; rfl
  · intro r ih
    show join (splitLines ('\r' :: '\n' :: r)) ['\n'] = splitJoin (['\r', '\n'] ++ r) _ _
    rw [joinLines_hit, splitJoin_hit _ _ hf, ih]
    rfl
  · intro c r hp ih
    show join (splitLines (c :: r)) ['\n'] = splitJoin (c :: r) _ _
    rw [joinLines_miss c r hp, splitJoin_miss _ _ hf c r hp, ih]

/-- The output of the line scan starts with a line feed only where the input
starts with a line ending. -/
theorem joinLines_head (s x : Str) (h : join (splitLines s) ['\n'] = '\n' :: x) :
    (∃ r, s = '\n' :: r) ∨ ['\r', '\n'] <+: s := by
  cases s with
  | nil => rw [joinLines_nil] at h; exact absurd h (by simp)
  | cons c r =>
    by_cases hp : ['\r', '\n'] <+: c :: r
    · exact Or.inr hp
    · rw [joinLines_miss c r hp] at h
      left
      exact ⟨r, by rw [(List.cons.inj h).1]⟩

/-- A text without the sequence carriage return, carriage return, line feed
leaves the line scan without any carriage return before a line feed. -/
theorem joinLines_no_crlf : ∀ s : Str, ¬ ['\r', '\r', '\n'] <:+: s →
    ¬ ['\r', '\n'] <:+: join (splitLines s) ['\n'] := by
  have hf : (['\r', '\n'] : Str) ≠ [] := by simp
  refine scan_induction ['\r', '\n'] hf
    (fun s => ¬ ['\r', '\r', '\n'] <:+: s → ¬ ['\r', '\n'] <:+: join (splitLines s) ['\n'])
    ?_ ?_ ?_
  · intro _ h
    rw [joinLines_nil] at h
    exact absurd (List.eq_nil_of_infix_nil h) (by simp)
  · intro r ih hs h
    have hr : ¬ ['\r', '\r', '\n'] <:+: r := fun hx =>
      hs (List.IsInfix.trans hx (List.suffix_append _ r).isInfix)
    change ['\r', '\n'] <:+: join (splitLines ('\r' :: '\n' :: r)) ['\n'] at h
    rw [joinLines_hit] at h
    rcases List.infix_cons_iff.mp h with h1 | h1
    · obtain ⟨z, hz⟩ := h1
      exact absurd (List.cons.inj hz).1 (by decide)
    · exact ih hr h1
  · intro c r hp ih hs h
    have hr : ¬ ['\r', '\r', '\n'] <:+: r := fun hx => hs (List.infix_cons hx)
    rw [joinLines_miss c r hp] at h
    rcases List.infix_cons_iff.mp h with h1 | h1
    · obtain ⟨z, hz⟩ := h1
      have hc : c = '\r' := (List.cons.inj hz).1.symm
      have hz2 : join (splitLines r) ['\n'] = '\n' :: z := (List.cons.inj hz).2.symm
      rcases joinLines_head r z hz2 with ⟨r', hr'⟩ | hpre
      · apply hp
        rw [hc, hr']
        exact ⟨r', rfl⟩
      · obtain ⟨r', hr'⟩ := hpre
        apply hs
        rw [hc, ← hr']
        exact ⟨[], r', rfl⟩
    · exact ih hr h1

end JS

/-! ## Rules that never fire (C18) -/

namespace Scan
open JS

theorem absent_step {abs : List Str} {s : Str} (r : Rule) (hf : r.from_ ≠ [])
    (ha : Absent abs s) :
    Absent (if keeps abs r.from_ r.to_ r.from_ then
        r.from_ :: abs.filter (keeps abs r.from_ r.to_)
      else abs.filter (keeps abs r.from_ r.to_)) (splitJoin s r.from_ r.to_) := by
  have hkept : Absent (abs.filter (keeps abs r.from_ r.to_)) (splitJoin s r.from_ r.to_) := by
    intro a hmem
    rw [List.mem_filter] at hmem
    exact keeps_sound hf ha (ha a hmem.1) hmem.2
  split
  · next hk =>
    intro a hmem
    rcases List.mem_cons.mp hmem with h1 | h1
    · subst h1; exact kills_sound hf ha hk
    · exact hkept a h1
  · exact hkept

/-- Dropping the rules whose pattern is certified absent at their turn does not
change what the table computes. -/
theorem prune_sound : ∀ (rules : List Rule) (abs : List Str) (s : Str),
    (∀ r ∈ rules, r.from_ ≠ []) → Absent abs s →
    RenameToAblock.applyReplacementsWith rules s =
      RenameToAblock.applyReplacementsWith (prune rules abs) s := by
  intro rules
  induction rules with
  | nil => intro abs s _ _; rfl
  | cons r rest ih =>
    intro abs s hne ha
    have hf : r.from_ ≠ [] := hne r (List.mem_cons_self _ _)
    have hrest : ∀ r ∈ rest, r.from_ ≠ [] := fun r' hr' => hne r' (List.mem_cons_of_mem _ hr')
    by_cases hc : covered abs r.from_ = true
    · have h1 : join (split s r.from_) r.to_ = s :=
        splitJoin_of_absent r.from_ r.to_ hf s (not_infix_of_covered ha hc)
      simp only [prune, hc, if_true, RenameToAblock.applyReplacementsWith, h1]
      exact ih abs s hrest ha
    · simp only [prune, hc, if_false, RenameToAblock.applyReplacementsWith]
      exact ih _ _ hrest (absent_step r hf ha)

/-- A pattern certified absent after the first `k` rules does not occur in what
they compute, so a rule with this pattern at position `k` does not fire. -/
theorem absent_at_turn (rules : List Rule) (k : Nat) (w : Str) (s : Str)
    (hne : ∀ r ∈ rules, r.from_ ≠ [])
    (hc : covered (absentAfter (rules.take k) []) w = true) :
    ¬ w <:+: RenameToAblock.applyReplacementsWith (rules.take k) s := by
  apply not_infix_of_covered _ hc
  apply absentAfter_sound
  · intro r hr; exact hne r (List.mem_of_mem_take hr)
  · intro a ha; exact absurd ha (List.not_mem_nil _)

end Scan

/-- Claim C18: in `rename-to-ablock.js` the second and third `Sigma Block`
rules and the three `my-ublock-..._` rules never fire.  For every line,
`applyContentReplacements` returns what the fold over the reduced table of nine
rules returns; and at the turn of each of the five rules (positions 1, 2, 11,
12 and 13 of the table, counted from 0) its pattern does not occur in the text
the preceding rules have produced. -/
theorem dead_content_rules (line : Str) :
    RenameToAblock.applyContentReplacements line =
      RenameToAblock.applyReplacementsWith RenameToAblock.reducedContentReplacements line ∧
    ∀ k ∈ [1, 2, 11, 12, 13], ∀ r, RenameToAblock.contentReplacements.get? k = some r →
      ¬ r.from_ <:+:
        RenameToAblock.applyReplacementsWith (RenameToAblock.contentReplacements.take k) line := by
  have hne : ∀ r ∈ RenameToAblock.contentReplacements, r.from_ ≠ [] := by decide
  constructor
  · have h := Scan.prune_sound RenameToAblock.contentReplacements [] line hne
      (fun a ha => absurd ha (List.not_mem_nil _))
    have hp : Scan.prune RenameToAblock.contentReplacements [] =
        RenameToAblock.reducedContentReplacements := by decide
    rw [hp] at h
    exact h
  · intro k hk r hr
    simp only [List.mem_cons, List.mem_singleton, List.not_mem_nil, or_false] at hk
    rcases hk with rfl | rfl | rfl | rfl | rfl
    all_goals
      have hr2 := Option.some.inj hr
      subst hr2
      exact Scan.absent_at_turn _ _ _ line hne (by decide)

/-! ## `hasChanges` and the text of the file (C17) -/

namespace JS

theorem splitGo_pieces (c0 : Char) : ∀ (s cur : Str), c0 ∉ cur →
    ∀ x ∈ splitGo [c0] 0 cur s, c0 ∉ x := by
  intro s
  induction s with
  | nil =>
    intro cur hcur x hx
    simp only [splitGo, List.mem_singleton] at hx
    rw [hx]; simpa using hcur
  | cons c rest ih =>
    intro cur hcur x hx
    rw [splitGo_zero_cons] at hx
    split at hx
    · rcases List.mem_cons.mp hx with h | h
      · rw [h]; simpa using hcur
      · exact ih [] (List.not_mem_nil _) x h
    · next hp =>
      have hc : c0 ≠ c := by
        intro h
        apply hp
        rw [List.isPrefixOf_iff_prefix, h]
        exact ⟨rest, rfl⟩
      apply ih (c :: cur) _ x hx
      intro hm
      rcases List.mem_cons.mp hm with h | h
      · exact hc h
      · exact hcur h

/-- No piece of `s.split(c)` contains the separator character `c`. -/
theorem split_pieces (c0 : Char) (s : Str) : ∀ x ∈ split s [c0], c0 ∉ x := by
  rw [split_of_ne_nil s [c0] (by simp)]
  exact splitGo_pieces c0 s [] (List.not_mem_nil _)

theorem append_sep_inj (c0 : Char) : ∀ (a b x y : Str), c0 ∉ a → c0 ∉ b →
    a ++ c0 :: x = b ++ c0 :: y → a = b ∧ x = y := by
  intro a
  induction a with
  | nil =>
    intro b x y _ hb h
    cases b with
    | nil => exact ⟨rfl, (List.cons.inj h).2⟩
    | cons b0 b' =>
      exfalso
      apply hb
      rw [(List.cons.inj h).1]
      exact List.mem_cons_self _ _
  | cons a0 a' ih =>
    intro b x y ha hb h
    cases b with
    | nil =>
      exfalso
      apply ha
      rw [← (List.cons.inj h).1]
      exact List.mem_cons_self _ _
    | cons b0 b' =>
      have h1 := List.cons.inj h
      have h2 := ih b' x y (fun hm => ha (List.mem_cons_of_mem _ hm))
        (fun hm => hb (List.mem_cons_of_mem _ hm)) h1.2
      exact ⟨by rw [h1.1, h2.1], h2.2⟩

/-- Pieces without the separator character are determined by their join. -/
theorem join_inj (c0 : Char) : ∀ (l1 l2 : List Str), l1.length = l2.length →
    (∀ x ∈ l1, c0 ∉ x) → (∀ x ∈ l2, c0 ∉ x) → join l1 [c0] = join l2 [c0] → l1 = l2 := by
  intro l1
  induction l1 with
  | nil =>
    intro l2 hlen _ _ _
    cases l2 with
    | nil => rfl
    | cons b l2 => simp at hlen
  | cons a l1 ih =>
    intro l2 hlen h1 h2 h
    cases l2 with
    | nil => simp at hlen
    | cons b l2 =>
      have hlen2 : l1.length = l2.length := by simpa using hlen
      cases l1 with
      | nil =>
        have : l2 = [] := List.length_eq_zero.mp hlen2.symm
        subst this
        simp only [join] at h
        rw [h]
      | cons a2 l1 =>
        cases l2 with
        | nil => simp at hlen2
        | cons b2 l2 =>
          rw [join_cons_of_ne_nil a _ _ (by simp), join_cons_of_ne_nil b _ _ (by simp)] at h
          simp only [List.append_assoc, List.singleton_append] at h
          have h3 := append_sep_inj c0 a b _ _ (h1 a (List.mem_cons_self _ _))
            (h2 b (List.mem_cons_self _ _)) h
          have h4 := ih (b2 :: l2) hlen2 (fun x hx => h1 x (List.mem_cons_of_mem _ hx))
            (fun x hx => h2 x (List.mem_cons_of_mem _ hx)) h3.2
          rw [h3.1, h4]

end JS

namespace RenameToAblock
open FS

theorem processLines_eq : ∀ (lines acc : List Str) (h : Bool),
    processLines lines (acc, h) =
      (acc ++ lines.map (fun l => (processLine l).1),
        h || lines.any (fun l => (processLine l).2)) := by
  intro lines
  induction lines with
  | nil => intro acc h; simp [processLines]
  | cons l rest ih =>
    intro acc h
    simp only [processLines, ih, List.map_cons, List.any_cons, List.append_assoc,
      List.singleton_append, Bool.or_assoc]

theorem processLine_changed (l : Str) : (processLine l).2 = true ↔ (processLine l).1 ≠ l := by
  unfold processLine
  split
  · simp
  · simp

/-- No rule of the table brings a line feed into a line that has none. -/
theorem processLine_no_newline (l : Str) (h : '\n' ∉ l) : '\n' ∉ (processLine l).1 := by
  unfold processLine
  split
  · exact h
  · simp only
    have ha : Scan.Absent [['\n']] l := by
      intro a ha
      rw [List.mem_singleton.mp ha]
      intro hinf
      exact h (hinf.subset (List.mem_singleton_self _))
    have hout := Scan.absentAfter_sound contentReplacements [['\n']] l (by decide) ha
    have hmem : ['\n'] ∈ Scan.absentAfter contentReplacements [['\n']] := by decide
    intro hm
    apply hout _ hmem
    rw [applyContentReplacements] at hm
    obtain ⟨u, v, huv⟩ := List.append_of_mem hm
    exact ⟨u, v, by rw [huv]; simp⟩

/-- The flag `hasChanges` after the loop tells whether the joined output
differs from the content that was split. -/
theorem hasChanges_iff (content : Str) :
    (processLines (JS.split content ['\n']) ([], false)).2 = true ↔
      JS.join (processLines (JS.split content ['\n']) ([], false)).1 ['\n'] ≠ content := by
  rw [processLines_eq]
  simp only [List.nil_append, Bool.false_or]
  have hround : JS.join (JS.split content ['\n']) ['\n'] = content :=
    JS.splitJoin_same ['\n'] (by simp) content
  constructor
  · intro h hj
    rw [List.any_eq_true] at h
    obtain ⟨l, hl, hc⟩ := h
    have hne := (processLine_changed l).mp hc
    have hj2 : JS.join ((JS.split content ['\n']).map (fun l => (processLine l).1)) ['\n'] =
        JS.join (JS.split content ['\n']) ['\n'] := by rw [hj, hround]
    have heq := JS.join_inj '\n' _ _ (by simp)
      (by
        intro x hx
        obtain ⟨l0, hl0, rfl⟩ := List.mem_map.mp hx
        exact processLine_no_newline l0 (JS.split_pieces '\n' content l0 hl0))
      (JS.split_pieces '\n' content) hj2
    apply hne
    have := List.map_inj_left.mp (heq.trans (List.map_id _).symm) l hl
    simpa using this
  · intro h
    by_contra hany
    apply h
    have hall : ∀ l ∈ JS.split content ['\n'], (processLine l).1 = l := by
      intro l hl
      by_contra hne
      apply hany
      rw [List.any_eq_true]
      exact ⟨l, hl, (processLine_changed l).mpr hne⟩
    have : (JS.split content ['\n']).map (fun l => (processLine l).1) =
        JS.split content ['\n'] := by
      conv_rhs => rw [← List.map_id (JS.split content ['\n'])]
      exact List.map_congr_left hall
    rw [this, hround]

end RenameToAblock

/-! ## Claims about one `processFile` call (C12, C15, C16, C17) -/

namespace RenameToAblock
open FS

theorem processFile_order (b : Bool) (dir : RelPath) (name : Str) (fs : List Node) :
    ∃ pre post, (processFile b dir name fs).2 = pre ++ post ∧
      (∀ e ∈ pre, e.isRename = false) ∧ (∀ e ∈ post, e.isContent = false) := by
  unfold processFile
  simp only
  split
  · refine ⟨[.statSync (dir ++ [name])], [], rfl, ?_, ?_⟩
    · intro e he; rw [List.mem_singleton.mp he]; rfl
    · intro e he; exact absurd he (List.not_mem_nil _)
  · refine ⟨.statSync (dir ++ [name]) :: (processContent b (dir ++ [name]) name fs).2,
      (processRename b dir name (processContent b (dir ++ [name]) name fs).1).2, rfl, ?_, ?_⟩
    · intro e he
      rcases List.mem_cons.mp he with h | h
      · rw [h]; rfl
      · rcases processContent_events b _ name fs e h with h | ⟨d, h⟩ | ⟨a, h⟩ | h <;>
          rw [h] <;> rfl
    · intro e he
      rcases processRename_events b dir name _ e he with h | ⟨a, h⟩ | h <;> rw [h] <;> rfl

theorem processFile_write_path (b : Bool) (dir : RelPath) (name : Str) (fs : List Node)
    (p : RelPath) (data : Str) (h : Event.writeFileSync p data ∈ (processFile b dir name fs).2) :
    p = dir ++ [name] := by
  rcases processFile_events b dir name fs _ h with h | (h | ⟨d, h⟩ | ⟨a, h⟩ | h) |
    (h | ⟨a, h⟩ | h)
  all_goals first
    | exact (Event.writeFileSync.inj h).1
    | exact Event.noConfusion h

end RenameToAblock

namespace SigmaRename
open FS

theorem sigma_processFile_order (b : Bool) (dir : RelPath) (name : Str) (fs : List Node) :
    ∃ pre post, (processFile b dir name fs).2 = pre ++ post ∧
      (∀ e ∈ pre, e.isRename = false) ∧ (∀ e ∈ post, e.isContent = false) := by
  refine ⟨(isTextFile dir name fs).2 ++
      (if (isTextFile dir name fs).1 then processContent b (dir ++ [name]) name fs
        else (fs, [])).2,
    (processRename b dir name
      (if (isTextFile dir name fs).1 then processContent b (dir ++ [name]) name fs
        else (fs, [])).1).2, rfl, ?_, ?_⟩
  · intro e he
    rcases List.mem_append.mp he with h | h
    · rw [isTextFile_events dir name fs e h]; rfl
    · split at h
      · rcases sigma_processContent_events b _ name fs e h with h | ⟨d, h⟩ | ⟨a, h⟩ | h <;>
          rw [h] <;> rfl
      · exact absurd h (List.not_mem_nil _)
  · intro e he
    exact sigma_processRename_quiet b dir name _ e he

theorem sigma_processFile_write_path (b : Bool) (dir : RelPath) (name : Str) (fs : List Node)
    (p : RelPath) (data : Str) (h : Event.writeFileSync p data ∈ (processFile b dir name fs).2) :
    p = dir ++ [name] := by
  have := sigma_processFile_quiet b dir name fs _ h
  exact Bool.noConfusion this

end SigmaRename

/-- Claim C12: in both scripts the events of one `processFile` call split into
a first part without any rename event (`renameSync` call, `[RENAME]` or
`[DRY]  rename:` line) and a second part without any content event
(`writeFileSync` call, `[WRITE] content:` or `[DRY]   content:` line), and the
report lines keep this order; so whenever a content entry and a rename entry
are both emitted the content entry comes first, and the content write is
issued before the rename.  Every `writeFileSync` is issued on the file's
original path `dir/name`. -/
theorem content_before_rename (APPLY : Bool) (dir : FS.RelPath) (name : Str) (fs : List FS.Node) :
    (∃ pre post, (RenameToAblock.processFile APPLY dir name fs).2 = pre ++ post ∧
      FS.report (RenameToAblock.processFile APPLY dir name fs).2 =
        FS.report pre ++ FS.report post ∧
      (∀ e ∈ pre, e.isRename = false) ∧ (∀ e ∈ post, e.isContent = false)) ∧
    (∀ p data, FS.Event.writeFileSync p data ∈ (RenameToAblock.processFile APPLY dir name fs).2 →
      p = dir ++ [name]) ∧
    (∃ pre post, (SigmaRename.processFile APPLY dir name fs).2 = pre ++ post ∧
      FS.report (SigmaRename.processFile APPLY dir name fs).2 =
        FS.report pre ++ FS.report post ∧
      (∀ e ∈ pre, e.isRename = false) ∧ (∀ e ∈ post, e.isContent = false)) ∧
    (∀ p data, FS.Event.writeFileSync p data ∈ (SigmaRename.processFile APPLY dir name fs).2 →
      p = dir ++ [name]) := by
  refine ⟨?_, RenameToAblock.processFile_write_path APPLY dir name fs, ?_,
    SigmaRename.sigma_processFile_write_path APPLY dir name fs⟩
  · obtain ⟨pre, post, h1, h2, h3⟩ := RenameToAblock.processFile_order APPLY dir name fs
    exact ⟨pre, post, h1, by rw [h1, FS.report_append], h2, h3⟩
  · obtain ⟨pre, post, h1, h2, h3⟩ := SigmaRename.sigma_processFile_order APPLY dir name fs
    exact ⟨pre, post, h1, by rw [h1, FS.report_append], h2, h3⟩

/-- Witness for C12: the apply run of `rename-to-ablock.js` on the file
`ublock.txt` holding `uBlock` writes `A Block` to `ublock.txt`, reports the
content change, and only then renames the file to `ablock.txt`; the write
targets `ublock.txt`. -/
theorem content_before_rename_witness :
    (RenameToAblock.processFile true [] "ublock.txt".toList
        [Example.textFile "ublock.txt" "uBlock"]).2 =
      [.statSync ["ublock.txt".toList], .readFileSync ["ublock.txt".toList],
        .writeFileSync ["ublock.txt".toList] "A Block".toList,
        .logContent true ["ublock.txt".toList],
        .renameSync ["ublock.txt".toList] ["ablock.txt".toList],
        .logRename true ["ublock.txt".toList] ["ablock.txt".toList]] ∧
    (∀ p data, FS.Event.writeFileSync p data ∈
        (RenameToAblock.processFile true [] "ublock.txt".toList
          [Example.textFile "ublock.txt" "uBlock"]).2 →
      p = [] ++ ["ublock.txt".toList]) :=
  ⟨by decide,
    (content_before_rename true [] "ublock.txt".toList
      [Example.textFile "ublock.txt" "uBlock"]).2.1⟩

/-- Counterexample for C15: on the text `a\r\r\nb` the scan of `/\r?\n/` cuts
before the second carriage return, the first one stays at the end of its line,
and `applyContentReplacements` of `sigma-rename.js` returns `a\r\nb`, which
contains a carriage return followed by a line feed. -/
theorem crlf_in_normalised_output :
    (SigmaRename.applyContentReplacements "a\r\r\nb".toList).1 = "a\r\nb".toList ∧
    "\r\n".toList <:+: (SigmaRename.applyContentReplacements "a\r\r\nb".toList).1 := by
  refine ⟨by decide, ?_⟩
  exact (JS.includes_iff _ _).mp (by decide)

/-- Claim C15, amended: for every text, `applyContentReplacements` of
`sigma-rename.js` splits at line feeds and at carriage return plus line feed
and rejoins with a bare line feed: the content it returns is the input with
every carriage return plus line feed met by a scan from the left replaced by a
line feed.  When the input does not contain a carriage return right before a
carriage return plus line feed, the returned content contains no carriage
return followed by a line feed. -/
theorem line_endings_normalised (content : Str) :
    (SigmaRename.applyContentReplacements content).1 =
      JS.join (JS.split content "\r\n".toList) "\n".toList ∧
    (¬ "\r\r\n".toList <:+: content →
      ¬ "\r\n".toList <:+: (SigmaRename.applyContentReplacements content).1) := by
  rw [SigmaRename.applyContentReplacements_eq]
  exact ⟨JS.joinLines_eq content, JS.joinLines_no_crlf content⟩

/-- Witness for C15: `one\r\ntwo\nthree` has no doubled carriage return; the
returned content is `one\ntwo\nthree`, without any carriage return before a
line feed. -/
theorem line_endings_normalised_witness :
    ¬ "\r\r\n".toList <:+: "one\r\ntwo\nthree".toList ∧
    (SigmaRename.applyContentReplacements "one\r\ntwo\nthree".toList).1 =
      "one\ntwo\nthree".toList ∧
    ¬ "\r\n".toList <:+: (SigmaRename.applyContentReplacements "one\r\ntwo\nthree".toList).1 :=
  ⟨fun h => absurd ((JS.includes_iff _ _).mpr h) (by decide), by decide,
    (line_endings_normalised "one\r\ntwo\nthree".toList).2
      (fun h => absurd ((JS.includes_iff _ _).mpr h) (by decide))⟩

/-- Claim C16: in `sigma-rename.js` every content rule has `from` equal to
`to`, and for every text `applyContentReplacements` returns `changed = false`.
Hence, in either mode, no event of a `processFile` call and no event of a whole
`walk` is a `writeFileSync` call or a content line, and the listing a
`processFile` call leaves is the one it found or the result of renaming the
file to its rewritten name. -/
theorem sigma_content_never_changes (APPLY : Bool) :
    (∀ r ∈ SigmaRename.contentReplacements, r.from_ = r.to_) ∧
    (∀ content, (SigmaRename.applyContentReplacements content).2 = false) ∧
    (∀ dir name fs,
      (∀ e ∈ (SigmaRename.processFile APPLY dir name fs).2, e.isContent = false) ∧
      ((SigmaRename.processFile APPLY dir name fs).1 = fs ∨
        FS.renameSync fs name (SigmaRename.applyNameReplacements name) =
          some (SigmaRename.processFile APPLY dir name fs).1)) ∧
    (∀ fuel root, ∀ e ∈ (SigmaRename.walk APPLY fuel [] root).trace, e.isContent = false) := by
  refine ⟨by decide, ?_, ?_, ?_⟩
  · intro content
    rw [SigmaRename.applyContentReplacements_eq]
  · intro dir name fs
    exact ⟨SigmaRename.sigma_processFile_quiet APPLY dir name fs,
      SigmaRename.sigma_processFile_effect APPLY dir name fs⟩
  · intro fuel root e he
    rcases FS.walkWith_origin _ _ fuel [] root e he with ⟨rel, h1, _⟩ | ⟨rel, nm, cur, h1, _⟩
    · rw [h1]; rfl
    · exact SigmaRename.sigma_processFile_quiet APPLY _ nm cur e h1

namespace RenameToAblock
open FS

theorem processLines_fixed (content : Str)
    (h : ∀ l ∈ JS.split content ['\n'],
      shouldSkipLine l = true ∨ ∀ r ∈ contentReplacements, ¬ r.from_ <:+: l) :
    (processLines (JS.split content ['\n']) ([], false)).2 = false := by
  have hnil : ∀ r ∈ contentReplacements, r.from_ ≠ [] := by decide
  rw [processLines_eq]
  simp only [Bool.false_or]
  rw [← Bool.not_eq_true, List.any_eq_true]
  rintro ⟨l, hl, hc⟩
  have hne := (processLine_changed l).mp hc
  apply hne
  unfold processLine
  rcases h l hl with hs | hr
  · rw [if_pos hs]
  · split
    · rfl
    · have hfix : applyContentReplacements l = l :=
        Scan.applyReplacementsWith_fixed contentReplacements l
          (fun r hmem => ⟨hnil r hmem, hr r hmem⟩)
      simp only [hfix]

end RenameToAblock

/-- Claim C17: in `processFile` of `rename-to-ablock.js`, for every content
read from a file, `hasChanges` is true exactly when the joined `updatedLines`
differ from that content.  When they are equal the call only reads the file
and leaves the listing as it is; when they differ the dry run prints the
content line and the apply run issues `writeFileSync` with the joined lines,
followed by the content line or, when the write throws, by the `[SKIP ]` line.
A content in which every line is protected or contains no pattern of the table
is of the first kind, whatever carriage returns it holds. -/
theorem hasChanges_iff_text_changes (content : Str) (p : FS.RelPath) (name : Str)
    (fs : List FS.Node) (hread : FS.readFileSync fs name = some content) :
    ((RenameToAblock.processLines (JS.split content ['\n']) ([], false)).2 = true ↔
      JS.join (RenameToAblock.processLines (JS.split content ['\n']) ([], false)).1 ['\n'] ≠
        content) ∧
    (JS.join (RenameToAblock.processLines (JS.split content ['\n']) ([], false)).1 ['\n'] =
        content →
      ∀ APPLY, RenameToAblock.processContent APPLY p name fs = (fs, [.readFileSync p])) ∧
    (JS.join (RenameToAblock.processLines (JS.split content ['\n']) ([], false)).1 ['\n'] ≠
        content →
      RenameToAblock.processContent false p name fs =
        (fs, [.readFileSync p, .logContent false p]) ∧
      ((RenameToAblock.processContent true p name fs).2 =
          [.readFileSync p,
            .writeFileSync p (JS.join
              (RenameToAblock.processLines (JS.split content ['\n']) ([], false)).1 ['\n']),
            .logContent true p] ∨
        (RenameToAblock.processContent true p name fs).2 =
          [.readFileSync p,
            .writeFileSync p (JS.join
              (RenameToAblock.processLines (JS.split content ['\n']) ([], false)).1 ['\n']),
            .warnRead p])) ∧
    ((∀ l ∈ JS.split content ['\n'], RenameToAblock.shouldSkipLine l = true ∨
        ∀ r ∈ RenameToAblock.contentReplacements, ¬ r.from_ <:+: l) →
      JS.join (RenameToAblock.processLines (JS.split content ['\n']) ([], false)).1 ['\n'] =
        content) := by
  have hiff := RenameToAblock.hasChanges_iff content
  refine ⟨hiff, ?_, ?_, ?_⟩
  · intro heq APPLY
    have hf : (RenameToAblock.processLines (JS.split content ['\n']) ([], false)).2 = false := by
      rw [← Bool.not_eq_true]
      intro ht
      exact hiff.mp ht heq
    unfold RenameToAblock.processContent
    rw [hread]
    simp only [hf, Bool.false_eq_true, if_false]
  · intro hne
    have ht := hiff.mpr hne
    constructor
    · unfold RenameToAblock.processContent
      rw [hread]
      simp only [ht, if_true, Bool.false_eq_true, if_false]
    · unfold RenameToAblock.processContent
      rw [hread]
      simp only [ht, if_true]
      split
      · exact Or.inr rfl
      · exact Or.inl rfl
  · intro h
    by_contra hne
    have ht := hiff.mpr hne
    rw [RenameToAblock.processLines_fixed content h] at ht
    exact Bool.noConfusion ht

/-- Witness for C17: the file `notes.txt` holds `plain\r\nhttps://x/uBlock`, a
line without any pattern and a protected line; the joined lines equal the
content, carriage return included, and both modes only read the file. -/
theorem hasChanges_iff_text_changes_witness :
    FS.readFileSync [Example.textFile "notes.txt" "plain\r\nhttps://x/uBlock"] "notes.txt".toList =
      some "plain\r\nhttps://x/uBlock".toList ∧
    JS.join (RenameToAblock.processLines
        (JS.split "plain\r\nhttps://x/uBlock".toList ['\n']) ([], false)).1 ['\n'] =
      "plain\r\nhttps://x/uBlock".toList ∧
    ∀ APPLY, RenameToAblock.processContent APPLY ["notes.txt".toList] "notes.txt".toList
        [Example.textFile "notes.txt" "plain\r\nhttps://x/uBlock"] =
      ([Example.textFile "notes.txt" "plain\r\nhttps://x/uBlock"],
        [.readFileSync ["notes.txt".toList]]) :=
  ⟨by decide, by decide,
    (hasChanges_iff_text_changes "plain\r\nhttps://x/uBlock".toList ["notes.txt".toList]
      "notes.txt".toList [Example.textFile "notes.txt" "plain\r\nhttps://x/uBlock"]
      (by decide)).2.1 (by decide)⟩

/-! ## The files a walk visits (C14) -/

namespace FS

theorem visits_file (skip : Str → Bool) (dir : RelPath) (name : Str) (d : FileData) :
    (Node.file name d).visits skip dir = [(dir, name)] := by
  rw [Node.visits]

theorem visits_dir (skip : Str → Bool) (dir : RelPath) (name : Str) (l : Bool)
    (es : List Node) :
    (Node.dir name l es).visits skip dir =
      if skip name then [] else visitsList skip (dir ++ [name]) es := by
  rw [Node.visits]

theorem visits_other (skip : Str → Bool) (dir : RelPath) (name : Str) :
    (Node.other name).visits skip dir = [] := by
  rw [Node.visits]

theorem visitsList_cons (skip : Str → Bool) (dir : RelPath) (n : Node) (ns : List Node) :
    visitsList skip dir (n :: ns) = n.visits skip dir ++ visitsList skip dir ns := by
  rw [visitsList]

theorem enterable_dir (skip : Str → Bool) (name : Str) (l : Bool) (es : List Node) :
    (Node.dir name l es).enterable skip = (skip name || (l && enterableList skip es)) := by
  rw [Node.enterable]

theorem enterableList_cons (skip : Str → Bool) (n : Node) (ns : List Node) :
    enterableList skip (n :: ns) = (n.enterable skip && enterableList skip ns) := by
  rw [enterableList]

theorem callsOf_append {pf : RelPath → Str → List Node → List Node × List Event}
    {ps qs : List (RelPath × Str)} {t u : List Event}
    (h1 : CallsOf pf ps t) (h2 : CallsOf pf qs u) : CallsOf pf (ps ++ qs) (t ++ u) := by
  induction h1 with
  | nil => exact h2
  | cons dir name cur _ ih =>
    rw [List.cons_append, List.append_assoc]
    exact CallsOf.cons dir name cur ih

theorem filter_readdir_of_spec
    {pf : Bool → RelPath → Str → List Node → List Node × List Event} {rewrite : Str → Str}
    {writes : Str → FileData → Bool} (hspec : ProcessFileSpec pf rewrite writes) (b : Bool) (dir : RelPath) (name : Str)
    (cur : List Node) :
    (pf b dir name cur).2.filter (fun e => !e.isReaddir) = (pf b dir name cur).2 := by
  rw [List.filter_eq_self]
  intro e he
  cases e with
  | readdirSync p => exact absurd he (hspec.no_readdir b dir name cur p)
  | _ => rfl

/-- Replacing the entry called `m` by one of the same name leaves every other
entry as it is. -/
theorem find_replace_other (cur : List Node) (m k : Str) (c : Node) (hc : c.name = m)
    (hk : k ≠ m) :
    find (cur.map (fun n => if n.name == m then c else n)) k = find cur k := by
  have hpres : ∀ n : Node, (if n.name == m then c else n).name = n.name := by
    intro n
    split
    · next h => rw [hc]; exact (by simpa using h : n.name = m).symm
    · rfl
  rw [find_map_same_name _ hpres]
  cases hfk : find cur k with
  | none => rfl
  | some n =>
    have hnk : n.name = k := (find_some hfk).1
    have : (n.name == m) = false := by rw [hnk]; simpa using hk
    simp only [Option.map, this, Bool.false_eq_true, if_false]

/-- What a successful rename to another name leaves alone. -/
theorem find_after_rename (es : List Node) (old new m : Str) (h1 : m ≠ old) (h2 : m ≠ new) :
    find ((es.filter (fun n => n.name != new)).map
      (fun n => if n.name == old then n.rename new else n)) m = find es m := by
  rw [find_map_rename_other _ old new m h1 h2, find_filter_ne es m new h2]

/-- Writing and renaming the file `name` leave every directory entry of another
name as it is. -/
theorem touched_dirs {name new : Str} {cur c2 : List Node} (h : Touched name new cur c2) :
    ∀ (m : Str) (n : Node), m ≠ name → find cur m = some n → n.isDir = true →
      find c2 m = some n := by
  induction h with
  | refl cur => intro m n _ hf _; exact hf
  | write hw _ ih =>
    intro m n hm hf hd
    apply ih m n hm _ hd
    rw [(write_step hw).2.2.2.1 m hm]
    exact hf
  | rename hr _ ih =>
    intro m n hm hf hd
    apply ih m n hm _ hd
    rcases renameSync_some hr with hc | ⟨_, hnew, hc⟩
    · rw [hc]; exact hf
    · rw [hc]
      have hmn : m ≠ new := by
        intro he
        rw [he] at hf
        have := hnew n hf
        rw [hd] at this
        exact Bool.noConfusion this
      rw [find_after_rename _ _ _ m hm hmn]
      exact hf

theorem isDir_iff_dirent (n : Node) : n.isDir = true ↔ n.dirent.kind = .directory := by
  cases n <;> simp [Node.isDir, Node.dirent]

theorem walkLoop_visits {skip : Str → Bool}
    {pf : Bool → RelPath → Str → List Node → List Node × List Event} {rewrite : Str → Str}
    {writes : Str → FileData → Bool} (hspec : ProcessFileSpec pf rewrite writes) (b : Bool) (walkDir : RelPath → Node → Outcome Node)
    (fuel : Nat)
    (hwd : ∀ p name es, depthList es < fuel → (Node.dir name true es).wf = true →
      enterableList skip es = true →
      (walkDir p (.dir name true es)).status = .returned ∧
        (walkDir p (.dir name true es)).state.name = name ∧
        CallsOf (pf b) (visitsList skip p es)
          ((walkDir p (.dir name true es)).trace.filter (fun e => !e.isReaddir)))
    (dir : RelPath) :
    ∀ (ns : List Node) (cur : List Node), (names ns).Nodup → wfList ns = true →
      enterableList skip ns = true → depthList ns < fuel + 1 →
      (∀ n ∈ ns, n.isDir = true → find cur n.name = some n) →
      (walkLoop skip (pf b) walkDir dir (ns.map Node.dirent) cur).status = .returned ∧
        CallsOf (pf b) (visitsList skip dir ns)
          ((walkLoop skip (pf b) walkDir dir (ns.map Node.dirent) cur).trace.filter
            (fun e => !e.isReaddir)) := by
  intro ns
  induction ns with
  | nil => intro cur _ _ _ _ _; exact ⟨rfl, CallsOf.nil⟩
  | cons n ns ih =>
    intro cur hnd hwf hent hdep hinv
    have hnd2 : (names ns).Nodup := (List.nodup_cons.mp hnd).2
    have hnot : ∀ n' ∈ ns, n'.name ≠ n.name := by
      intro n' hn' he
      exact (List.nodup_cons.mp hnd).1 (he ▸ mem_names_of_mem hn')
    have hwf2 : wfList ns = true := by
      rw [wfList_iff] at hwf ⊢
      exact fun x hx => hwf x (List.mem_cons_of_mem _ hx)
    have hwfn : n.wf = true := (wfList_iff _).mp hwf n (List.mem_cons_self _ _)
    rw [enterableList_cons, Bool.and_eq_true] at hent
    rw [depthList_cons] at hdep
    have hdep2 : depthList ns < fuel + 1 := Nat.lt_of_le_of_lt (Nat.le_max_right _ _) hdep
    have hdepn : n.depth < fuel + 1 := Nat.lt_of_le_of_lt (Nat.le_max_left _ _) hdep
    rw [List.map_cons, walkLoop_cons, visitsList_cons]
    cases n with
    | file name d =>
      have hst : (walkEntry skip (pf b) walkDir dir cur (Node.file name d).dirent).status =
          .returned := rfl
      rw [hst]
      simp only
      have htr : (walkEntry skip (pf b) walkDir dir cur (Node.file name d).dirent).trace =
          (pf b dir name cur).2 := rfl
      have hstate : (walkEntry skip (pf b) walkDir dir cur (Node.file name d).dirent).state =
          (pf b dir name cur).1 := rfl
      have hinv2 : ∀ n' ∈ ns, n'.isDir = true →
          find (pf b dir name cur).1 n'.name = some n' := by
        intro n' hn' hd'
        exact touched_dirs (hspec.touched b dir name cur) n'.name n' (hnot n' hn')
          (hinv n' (List.mem_cons_of_mem _ hn') hd') hd'
      obtain ⟨i1, i2⟩ := ih (pf b dir name cur).1 hnd2 hwf2 hent.2 hdep2 hinv2
      rw [hstate, htr, List.filter_append, filter_readdir_of_spec hspec, visits_file]
      exact ⟨i1, CallsOf.cons dir name cur i2⟩
    | other name =>
      have hst : (walkEntry skip (pf b) walkDir dir cur (Node.other name).dirent) =
          ⟨cur, [], .returned⟩ := rfl
      rw [hst]
      simp only
      obtain ⟨i1, i2⟩ := ih cur hnd2 hwf2 hent.2 hdep2
        (fun n' hn' hd' => hinv n' (List.mem_cons_of_mem _ hn') hd')
      rw [visits_other]
      exact ⟨i1, i2⟩
    | dir name l es =>
      rw [visits_dir]
      by_cases hs : skip name = true
      · have hst : (walkEntry skip (pf b) walkDir dir cur (Node.dir name l es).dirent) =
            ⟨cur, [], .returned⟩ := by
          simp only [walkEntry, Node.dirent, hs, if_true]
        rw [hst, if_pos hs]
        simp only
        obtain ⟨i1, i2⟩ := ih cur hnd2 hwf2 hent.2 hdep2
          (fun n' hn' hd' => hinv n' (List.mem_cons_of_mem _ hn') hd')
        exact ⟨i1, i2⟩
      · have hl : l = true ∧ enterableList skip es = true := by
          have h := hent.1
          rw [enterable_dir] at h
          simpa [hs] using h
        obtain ⟨hl1, hl2⟩ := hl
        subst hl1
        have hf : find cur name = some (.dir name true es) :=
          hinv _ (List.mem_cons_self _ _) rfl
        rw [depth_dir] at hdepn
        obtain ⟨w1, w2, w3⟩ := hwd (dir ++ [name]) name es (Nat.lt_of_succ_lt_succ hdepn)
          hwfn hl2
        have hst : (walkEntry skip (pf b) walkDir dir cur (Node.dir name true es).dirent) =
            ⟨cur.map (fun x => if x.name == name then
                (walkDir (dir ++ [name]) (.dir name true es)).state else x),
              (walkDir (dir ++ [name]) (.dir name true es)).trace,
              (walkDir (dir ++ [name]) (.dir name true es)).status⟩ := by
          simp only [walkEntry, Node.dirent, hs, if_false, hf, Bool.false_eq_true]
        rw [hst, if_neg hs]
        simp only [w1]
        have hinv2 : ∀ n' ∈ ns, n'.isDir = true →
            find (cur.map (fun x => if x.name == name then
              (walkDir (dir ++ [name]) (.dir name true es)).state else x)) n'.name =
              some n' := by
          intro n' hn' hd'
          rw [find_replace_other cur name n'.name _ w2 (hnot n' hn')]
          exact hinv n' (List.mem_cons_of_mem _ hn') hd'
        obtain ⟨i1, i2⟩ := ih _ hnd2 hwf2 hent.2 hdep2 hinv2
        rw [List.filter_append]
        exact ⟨i1, callsOf_append w3 i2⟩

/-- On a tree with distinct names in every directory, in which every directory
that `walk` enters can be enumerated, a walk with more fuel than the tree is
deep returns, and its events other than `readdirSync` are those of one
`processFile` call per file to visit, in the order of enumeration. -/
theorem walkWith_visits {skip : Str → Bool}
    {pf : Bool → RelPath → Str → List Node → List Node × List Event} {rewrite : Str → Str}
    {writes : Str → FileData → Bool} (hspec : ProcessFileSpec pf rewrite writes) (b : Bool) :
    ∀ (fuel : Nat) (dir : RelPath) (name : Str) (es : List Node), depthList es < fuel →
      (Node.dir name true es).wf = true → enterableList skip es = true →
      (walkWith skip (pf b) fuel dir (.dir name true es)).status = .returned ∧
        (walkWith skip (pf b) fuel dir (.dir name true es)).state.name = name ∧
        CallsOf (pf b) (visitsList skip dir es)
          ((walkWith skip (pf b) fuel dir (.dir name true es)).trace.filter
            (fun e => !e.isReaddir)) := by
  intro fuel
  induction fuel with
  | zero => intro dir name es hd; exact absurd hd (Nat.not_lt_zero _)
  | succ fuel ih =>
    intro dir name es hd hwf hent
    rw [wf_dir, Bool.and_eq_true, decide_eq_true_eq] at hwf
    obtain ⟨l1, l2⟩ := walkLoop_visits hspec b (walkWith skip (pf b) fuel) fuel ih dir es es
      hwf.1 hwf.2 hent hd (fun n hn _ => find_of_mem hwf.1 hn)
    have hw : walkWith skip (pf b) (fuel + 1) dir (.dir name true es) =
        ⟨(Node.dir name true es).withEntries
            (walkLoop skip (pf b) (walkWith skip (pf b) fuel) dir (es.map Node.dirent) es).state,
          .readdirSync dir ::
            (walkLoop skip (pf b) (walkWith skip (pf b) fuel) dir (es.map Node.dirent) es).trace,
          (walkLoop skip (pf b) (walkWith skip (pf b) fuel) dir (es.map Node.dirent)
            es).status⟩ := rfl
    rw [hw]
    refine ⟨l1, rfl, ?_⟩
    simp only
    rw [List.filter_cons]
    exact l2

end FS

namespace FS

/-- Where a visit of a listing comes from: a file of the listing, or a file
below one of its directories. -/
theorem mem_visitsList (skip : Str → Bool) : ∀ (k : Nat) (es : List Node) (dir : RelPath),
    depthList es ≤ k → ∀ x ∈ visitsList skip dir es,
      (x.1 = dir ∧ ∃ d, Node.file x.2 d ∈ es) ∨
        (∃ nm l sub, Node.dir nm l sub ∈ es ∧ (dir ++ [nm]) <+: x.1) := by
  intro k
  induction k with
  | zero =>
    intro es
    induction es with
    | nil => intro dir _ x hx; rw [visitsList] at hx; exact absurd hx (List.not_mem_nil _)
    | cons n ns ih =>
      intro dir hd x hx
      rw [depthList_cons] at hd
      have hdn : n.depth ≤ 0 := Nat.le_trans (Nat.le_max_left _ _) hd
      have hds : depthList ns ≤ 0 := Nat.le_trans (Nat.le_max_right _ _) hd
      rw [visitsList_cons, List.mem_append] at hx
      rcases hx with hx | hx
      · cases n with
        | file name d =>
          rw [visits_file, List.mem_singleton] at hx
          rw [hx]
          exact Or.inl ⟨rfl, d, List.mem_cons_self _ _⟩
        | dir name l sub => rw [depth_dir] at hdn; exact absurd hdn (Nat.not_succ_le_zero _)
        | other name => rw [visits_other] at hx; exact absurd hx (List.not_mem_nil _)
      · rcases ih dir hds x hx with ⟨h1, d, h2⟩ | ⟨nm, l, sub, h1, h2⟩
        · exact Or.inl ⟨h1, d, List.mem_cons_of_mem _ h2⟩
        · exact Or.inr ⟨nm, l, sub, List.mem_cons_of_mem _ h1, h2⟩
  | succ k ihk =>
    intro es
    induction es with
    | nil => intro dir _ x hx; rw [visitsList] at hx; exact absurd hx (List.not_mem_nil _)
    | cons n ns ih =>
      intro dir hd x hx
      rw [depthList_cons] at hd
      have hdn : n.depth ≤ k + 1 := Nat.le_trans (Nat.le_max_left _ _) hd
      have hds : depthList ns ≤ k + 1 := Nat.le_trans (Nat.le_max_right _ _) hd
      rw [visitsList_cons, List.mem_append] at hx
      rcases hx with hx | hx
      · cases n with
        | file name d =>
          rw [visits_file, List.mem_singleton] at hx
          rw [hx]
          exact Or.inl ⟨rfl, d, List.mem_cons_self _ _⟩
        | dir name l sub =>
          rw [visits_dir] at hx
          split at hx
          · exact absurd hx (List.not_mem_nil _)
          · rw [depth_dir] at hdn
            refine Or.inr ⟨name, l, sub, List.mem_cons_self _ _, ?_⟩
            rcases ihk sub (dir ++ [name]) (Nat.le_of_succ_le_succ hdn) x hx with
              ⟨h1, _⟩ | ⟨nm, _, _, _, h2⟩
            · rw [h1]
            · exact List.IsPrefix.trans (List.prefix_append _ _) h2
        | other name => rw [visits_other] at hx; exact absurd hx (List.not_mem_nil _)
      · rcases ih dir hds x hx with ⟨h1, d, h2⟩ | ⟨nm, l, sub, h1, h2⟩
        · exact Or.inl ⟨h1, d, List.mem_cons_of_mem _ h2⟩
        · exact Or.inr ⟨nm, l, sub, List.mem_cons_of_mem _ h1, h2⟩

theorem prefix_snoc_ne (dir : RelPath) (nm : Str) : ¬ (dir ++ [nm]) <+: dir := by
  intro h
  have := h.length_le
  simp at this

theorem prefix_snoc_inj {dir p : RelPath} {a b : Str} (h1 : (dir ++ [a]) <+: p)
    (h2 : (dir ++ [b]) <+: p) : a = b := by
  have h := List.prefix_of_prefix_length_le h1 h2 (by simp)
  have heq := h.eq_of_length (by simp)
  have := List.append_cancel_left heq
  exact List.singleton_inj.mp this

/-- On a tree with distinct names in every directory no file is listed twice
among the visits. -/
theorem visitsList_nodup (skip : Str → Bool) : ∀ (k : Nat) (es : List Node) (dir : RelPath),
    depthList es ≤ k → (names es).Nodup → wfList es = true →
      (visitsList skip dir es).Nodup := by
  intro k
  induction k with
  | zero =>
    intro es
    induction es with
    | nil => intro dir _ _ _; rw [visitsList]; exact List.nodup_nil
    | cons n ns ih =>
      intro dir hd hnd hwf
      rw [depthList_cons] at hd
      have hdn : n.depth ≤ 0 := Nat.le_trans (Nat.le_max_left _ _) hd
      have hds : depthList ns ≤ 0 := Nat.le_trans (Nat.le_max_right _ _) hd
      have hnd2 : (names ns).Nodup := (List.nodup_cons.mp hnd).2
      have hwf2 : wfList ns = true := by
        rw [wfList_iff] at hwf ⊢
        exact fun x hx => hwf x (List.mem_cons_of_mem _ hx)
      rw [visitsList_cons]
      cases n with
      | file name d =>
        rw [visits_file, List.singleton_append, List.nodup_cons]
        refine ⟨?_, ih dir hds hnd2 hwf2⟩
        intro hm
        rcases mem_visitsList skip 0 ns dir hds _ hm with ⟨_, d2, h2⟩ | ⟨nm, l, sub, _, h2⟩
        · exact (List.nodup_cons.mp hnd).1 (mem_names_of_mem (n := Node.file name d2) h2)
        · exact prefix_snoc_ne dir nm h2
      | dir name l sub => rw [depth_dir] at hdn; exact absurd hdn (Nat.not_succ_le_zero _)
      | other name => rw [visits_other, List.nil_append]; exact ih dir hds hnd2 hwf2
  | succ k ihk =>
    intro es
    induction es with
    | nil => intro dir _ _ _; rw [visitsList]; exact List.nodup_nil
    | cons n ns ih =>
      intro dir hd hnd hwf
      rw [depthList_cons] at hd
      have hdn : n.depth ≤ k + 1 := Nat.le_trans (Nat.le_max_left _ _) hd
      have hds : depthList ns ≤ k + 1 := Nat.le_trans (Nat.le_max_right _ _) hd
      have hnd2 : (names ns).Nodup := (List.nodup_cons.mp hnd).2
      have hwfn : n.wf = true := (wfList_iff _).mp hwf n (List.mem_cons_self _ _)
      have hwf2 : wfList ns = true := by
        rw [wfList_iff] at hwf ⊢
        exact fun x hx => hwf x (List.mem_cons_of_mem _ hx)
      rw [visitsList_cons]
      cases n with
      | file name d =>
        rw [visits_file, List.singleton_append, List.nodup_cons]
        refine ⟨?_, ih dir hds hnd2 hwf2⟩
        intro hm
        rcases mem_visitsList skip (k + 1) ns dir hds _ hm with
          ⟨_, d2, h2⟩ | ⟨nm, l, sub, _, h2⟩
        · exact (List.nodup_cons.mp hnd).1 (mem_names_of_mem (n := Node.file name d2) h2)
        · exact prefix_snoc_ne dir nm h2
      | dir name l sub =>
        rw [visits_dir]
        split
        · rw [List.nil_append]; exact ih dir hds hnd2 hwf2
        · rw [depth_dir] at hdn
          have hdsub : depthList sub ≤ k := Nat.le_of_succ_le_succ hdn
          rw [wf_dir, Bool.and_eq_true, decide_eq_true_eq] at hwfn
          rw [List.nodup_append]
          refine ⟨ihk sub (dir ++ [name]) hdsub hwfn.1 hwfn.2, ih dir hds hnd2 hwf2, ?_⟩
          intro x hx1 hx2
          have hp : (dir ++ [name]) <+: x.1 := by
            rcases mem_visitsList skip k sub (dir ++ [name]) hdsub x hx1 with
              ⟨h1, _⟩ | ⟨nm, _, _, _, h2⟩
            · rw [h1]
            · exact List.IsPrefix.trans (List.prefix_append _ _) h2
          rcases mem_visitsList skip (k + 1) ns dir hds x hx2 with
            ⟨h1, _⟩ | ⟨nm, l2, sub2, h1, h2⟩
          · rw [h1] at hp; exact prefix_snoc_ne dir name hp
          · have := prefix_snoc_inj hp h2
            apply (List.nodup_cons.mp hnd).1
            rw [show (Node.dir name l sub).name = nm from this]
            exact mem_names_of_mem h1
      | other name => rw [visits_other, List.nil_append]; exact ih dir hds hnd2 hwf2

end FS

/-- Counterexample for C14: in `Example.locked` the directory `private` cannot
be enumerated.  In both scripts and both modes `walk` ends with the exception
of `readdirSync` on `private`, after the two `readdirSync` calls and without
any `processFile` call: neither `private/ublock.txt` nor `notes.txt`, the two
regular files without an excluded ancestor, is visited. -/
theorem unreadable_directory_ends_walk :
    FS.visitsList RenameToAblock.shouldSkipDir [] Example.locked.entries =
      [(["private".toList], "ublock.txt".toList), ([], "notes.txt".toList)] ∧
    (RenameToAblock.walk false 3 [] Example.locked).status = .threw ∧
    (RenameToAblock.walk false 3 [] Example.locked).trace =
      [.readdirSync [], .readdirSync ["private".toList]] ∧
    (RenameToAblock.walk true 3 [] Example.locked).status = .threw ∧
    (RenameToAblock.walk true 3 [] Example.locked).trace =
      [.readdirSync [], .readdirSync ["private".toList]] ∧
    (SigmaRename.walk false 3 [] Example.locked).status = .threw ∧
    (SigmaRename.walk false 3 [] Example.locked).trace =
      [.readdirSync [], .readdirSync ["private".toList]] ∧
    (SigmaRename.walk true 3 [] Example.locked).status = .threw ∧
    (SigmaRename.walk true 3 [] Example.locked).trace =
      [.readdirSync [], .readdirSync ["private".toList]] := by
  refine ⟨by decide, by decide, by decide, by decide, by decide, by decide, by decide,
    by decide, by decide⟩

/-- Claim C14, amended: take a root directory that can be enumerated, with
entries `es` whose names are pairwise distinct in every directory, and more
fuel than the entries are deep.  In either script and either mode, when every
directory that `walk` enters can be enumerated, `walk(root)` returns, and its
events other than `readdirSync` calls are those of one `processFile` call for
each regular file without an ancestor directory named in `SKIP_DIRS`, in the
order of enumeration, depth first; no file occurs twice in that order. -/
theorem complete_single_visit (fuel : Nat) (name : Str) (es : List FS.Node) (APPLY : Bool)
    (hfuel : FS.depthList es < fuel) (hwf : (FS.Node.dir name true es).wf = true) :
    (FS.enterableList RenameToAblock.shouldSkipDir es = true →
      (RenameToAblock.walk APPLY fuel [] (.dir name true es)).status = .returned ∧
      FS.CallsOf (RenameToAblock.processFile APPLY)
        (FS.visitsList RenameToAblock.shouldSkipDir [] es)
        ((RenameToAblock.walk APPLY fuel [] (.dir name true es)).trace.filter
          (fun e => !e.isReaddir)) ∧
      (FS.visitsList RenameToAblock.shouldSkipDir [] es).Nodup) ∧
    (FS.enterableList SigmaRename.shouldSkipDir es = true →
      (SigmaRename.walk APPLY fuel [] (.dir name true es)).status = .returned ∧
      FS.CallsOf (SigmaRename.processFile APPLY)
        (FS.visitsList SigmaRename.shouldSkipDir [] es)
        ((SigmaRename.walk APPLY fuel [] (.dir name true es)).trace.filter
          (fun e => !e.isReaddir)) ∧
      (FS.visitsList SigmaRename.shouldSkipDir [] es).Nodup) := by
  have hwf2 := hwf
  rw [FS.wf_dir, Bool.and_eq_true, decide_eq_true_eq] at hwf2
  constructor
  · intro hent
    obtain ⟨h1, _, h3⟩ := FS.walkWith_visits RenameToAblock.processFile_spec APPLY fuel []
      name es hfuel hwf hent
    exact ⟨h1, h3, FS.visitsList_nodup _ _ es [] (Nat.le_refl _) hwf2.1 hwf2.2⟩
  · intro hent
    obtain ⟨h1, _, h3⟩ := FS.walkWith_visits SigmaRename.sigma_processFile_spec APPLY fuel []
      name es hfuel hwf hent
    exact ⟨h1, h3, FS.visitsList_nodup _ _ es [] (Nat.le_refl _) hwf2.1 hwf2.2⟩

/-- Witness for C14: the apply run of `rename-to-ablock.js` on
`Example.project` returns after one `processFile` call on each of
`ublock.txt`, `src/ublock/ublock-icon.png`, `src/ublock/sigma-notes.md` and
`src/A Block.md`, in this order; the file below `.git` and the entry that is
neither file nor directory are not visited. -/
theorem complete_single_visit_witness :
    FS.depthList Example.project.entries < 4 ∧
    (FS.Node.dir [] true Example.project.entries).wf = true ∧
    FS.enterableList RenameToAblock.shouldSkipDir Example.project.entries = true ∧
    FS.visitsList RenameToAblock.shouldSkipDir [] Example.project.entries =
      [([], "ublock.txt".toList),
       (["src".toList, "ublock".toList], "ublock-icon.png".toList),
       (["src".toList, "ublock".toList], "sigma-notes.md".toList),
       (["src".toList], "A Block.md".toList)] ∧
    (RenameToAblock.walk true 4 [] (.dir [] true Example.project.entries)).status = .returned ∧
    FS.CallsOf (RenameToAblock.processFile true)
      (FS.visitsList RenameToAblock.shouldSkipDir [] Example.project.entries)
      ((RenameToAblock.walk true 4 [] (.dir [] true Example.project.entries)).trace.filter
        (fun e => !e.isReaddir)) :=
  ⟨by decide, by decide, by decide, by decide,
    ((complete_single_visit 4 [] Example.project.entries true (by decide) (by decide)).1
      (by decide)).1,
    ((complete_single_visit 4 [] Example.project.entries true (by decide) (by decide)).1
      (by decide)).2.1⟩

/-! ## Failures on one file and the rest of the walk (C13) -/

namespace FS

theorem isDirAt_of_find {es : List Node} {m : Str} {n : Node} (h : find es m = some n) :
    isDirAt es m = n.isDir := by
  unfold isDirAt; rw [h]

theorem isDirAt_of_find_eq {c1 c2 : List Node} {m k : Str} (h : find c1 m = find c2 k) :
    isDirAt c1 m = isDirAt c2 k := by
  unfold isDirAt; rw [h]

/-- After a rename to another name nothing is left under the old name. -/
theorem find_rename_old (es : List Node) (old new : Str) (h : old ≠ new) :
    find ((es.filter (fun n => n.name != new)).map
      (fun n => if n.name == old then n.rename new else n)) old = none := by
  induction es with
  | nil => rfl
  | cons x xs ih =>
    rw [List.filter_cons]
    by_cases hx : x.name = new
    · have hb : (x.name != new) = false := by simp [hx]
      rw [hb]
      exact ih
    · have hb : (x.name != new) = true := by simp [hx]
      rw [hb, if_pos rfl, List.map_cons, find_cons]
      by_cases hxo : x.name = old
      · have hbo : (x.name == old) = true := by simp [hxo]
        rw [hbo, if_pos rfl, rename_name, if_neg (fun he => h he.symm)]
        exact ih
      · have hbo : (x.name == old) = false := by simp [hxo]
        rw [hbo]
        simp only [Bool.false_eq_true, if_false]
        rw [if_neg hxo]
        exact ih

/-- After a rename to another name the new name holds the renamed source. -/
theorem find_rename_new (es : List Node) (old new : Str) (h : old ≠ new) :
    find ((es.filter (fun n => n.name != new)).map
      (fun n => if n.name == old then n.rename new else n)) new =
      (find es old).map (fun n => n.rename new) := by
  induction es with
  | nil => rfl
  | cons x xs ih =>
    rw [List.filter_cons]
    by_cases hx : x.name = new
    · have hb : (x.name != new) = false := by simp [hx]
      have hxo : ¬ x.name = old := fun he => h (he.symm.trans hx)
      rw [hb, find_cons x xs old, if_neg hxo]
      exact ih
    · have hb : (x.name != new) = true := by simp [hx]
      rw [hb, if_pos rfl, List.map_cons, find_cons, find_cons x xs old]
      by_cases hxo : x.name = old
      · have hbo : (x.name == old) = true := by simp [hxo]
        rw [hbo, if_pos rfl, rename_name, if_pos rfl, if_pos hxo]
        rfl
      · have hbo : (x.name == old) = false := by simp [hxo]
        rw [hbo]
        simp only [Bool.false_eq_true, if_false]
        rw [if_neg hx, if_neg hxo]
        exact ih

theorem isDirAt_after_write {es c1 : List Node} {name data : Str}
    (h : writeFileSync es name data = some c1) (k : Str) : isDirAt c1 k = isDirAt es k := by
  rw [writeFileSync_some h]
  unfold isDirAt
  rw [find_after_write]
  cases find es k with
  | none => rfl
  | some n =>
    simp only [Option.map]
    split
    · exact written_isDir n data
    · rfl

theorem isDirAt_after_rename {es c1 : List Node} {old new : Str}
    (h : renameSync es old new = some c1) (hold : isDirAt es old = false) (k : Str) :
    isDirAt c1 k = isDirAt es k := by
  rcases renameSync_some h with hc | ⟨hne, hnew, hc⟩
  · rw [hc]
  · rw [hc]
    by_cases hk1 : k = old
    · rw [hk1, hold]
      unfold isDirAt
      rw [find_rename_old es old new hne]
    · by_cases hk2 : k = new
      · rw [hk2]
        have h2 : isDirAt es new = false := by
          unfold isDirAt
          cases hf : find es new with
          | none => rfl
          | some n => exact hnew n hf
        rw [h2]
        unfold isDirAt at hold ⊢
        rw [find_rename_new es old new hne]
        cases hf : find es old with
        | none => rfl
        | some n =>
          rw [hf] at hold
          simp only [Option.map]
          rw [rename_isDir]
          exact hold
      · exact isDirAt_of_find_eq (find_after_rename es old new k hk1 hk2)

/-- Writing and renaming a file that is not a directory changes under no name
whether a directory is found there. -/
theorem touched_isDirAt {name new : Str} {cur c2 : List Node} (h : Touched name new cur c2) :
    isDirAt cur name = false → ∀ k, isDirAt c2 k = isDirAt cur k := by
  induction h with
  | refl cur => intro _ k; rfl
  | write hw _ ih =>
    intro h0 k
    rw [ih ((isDirAt_after_write hw name).trans h0) k]
    exact isDirAt_after_write hw k
  | rename hr _ ih =>
    intro h0 k
    rw [ih ((isDirAt_after_rename hr h0 name).trans h0) k]
    exact isDirAt_after_rename hr h0 k

/-- Writing and renaming the file `name` leave every entry called neither
`name` nor `new` as it is. -/
theorem touched_find {name new : Str} {cur c2 : List Node} (h : Touched name new cur c2) :
    ∀ m, m ≠ name → m ≠ new → find c2 m = find cur m := by
  induction h with
  | refl cur => intro m _ _; rfl
  | write hw _ ih =>
    intro m h1 h2
    rw [ih m h1 h2]
    exact (write_step hw).2.2.2.1 m h1
  | rename hr _ ih =>
    intro m h1 h2
    rw [ih m h1 h2]
    rcases renameSync_some hr with hc | ⟨_, _, hc⟩
    · rw [hc]
    · rw [hc]; exact find_after_rename _ _ _ m h1 h2

theorem statSync_congr {c1 c2 : List Node} {m : Str} (h : find c1 m = find c2 m) :
    statSync c1 m = statSync c2 m := by
  unfold statSync; rw [h]

theorem readFileSync_congr {c1 c2 : List Node} {m : Str} (h : find c1 m = find c2 m) :
    readFileSync c1 m = readFileSync c2 m := by
  unfold readFileSync; rw [h]

/-- On listings that agree outside `D`, writing a file whose name is not in `D`
fails on both or succeeds on both, and the results agree outside `D`. -/
theorem write_congr {D : List Str} {c1 c2 : List Node} {m : Str} (data : Str)
    (hA : AgreeOn D c1 c2) (hm : m ∉ D) :
    (writeFileSync c1 m data = none ∧ writeFileSync c2 m data = none) ∨
      ∃ s1 s2, writeFileSync c1 m data = some s1 ∧ writeFileSync c2 m data = some s2 ∧
        AgreeOn D s1 s2 := by
  have hf := hA m hm
  have hsame : ∀ c : List Node, find c m = find c1 m →
      writeFileSync c m data =
        match find c1 m with
        | some (.file _ d) =>
            if d.writable then
              some (c.map (fun n => if n.name == m then n.written data else n))
            else none
        | _ => none := by
    intro c hc
    unfold writeFileSync
    rw [hc]
  have w1 := hsame c1 rfl
  have w2 := hsame c2 hf.symm
  cases hfm : find c1 m with
  | none =>
    rw [hfm] at w1 w2
    exact Or.inl ⟨w1, w2⟩
  | some n =>
    rw [hfm] at w1 w2
    cases n with
    | dir nm l sub => exact Or.inl ⟨w1, w2⟩
    | other nm => exact Or.inl ⟨w1, w2⟩
    | file nm d =>
      simp only at w1 w2
      by_cases hw : d.writable = true
      · rw [if_pos hw] at w1 w2
        refine Or.inr ⟨_, _, w1, w2, ?_⟩
        intro k hk
        rw [find_after_write, find_after_write, hA k hk]
      · rw [if_neg hw] at w1 w2
        exact Or.inl ⟨w1, w2⟩

theorem renameSync_blocked {es : List Node} {old new : Str} {n : Node}
    (h0 : find es old = some n) (hne : old ≠ new) (hd : isDirAt es new = true) :
    renameSync es old new = none := by
  have hb : (old == new) = false := by simpa using hne
  unfold isDirAt at hd
  unfold renameSync
  rw [h0]
  cases hfn : find es new with
  | none => rw [hfn] at hd; exact Bool.noConfusion hd
  | some x =>
    rw [hfn] at hd
    cases x with
    | dir nm l sub => simp [hb]
    | file nm d => exact Bool.noConfusion hd
    | other nm => exact Bool.noConfusion hd

theorem renameSync_moved {es : List Node} {old new : Str} {n : Node}
    (h0 : find es old = some n) (hmov : n.movable = true) (hne : old ≠ new)
    (hd : isDirAt es new = false) :
    renameSync es old new =
      some ((es.filter (fun n => n.name != new)).map
        (fun n => if n.name == old then n.rename new else n)) := by
  have hb : (old == new) = false := by simpa using hne
  unfold isDirAt at hd
  unfold renameSync
  rw [h0]
  cases hfn : find es new with
  | none => simp [hb, hmov]
  | some x =>
    rw [hfn] at hd
    cases x with
    | dir nm l sub => exact Bool.noConfusion hd
    | file nm d => simp [hb, hmov]
    | other nm => simp [hb, hmov]

theorem renameSync_same {es : List Node} {old : Str} {n : Node}
    (h0 : find es old = some n) (hmov : n.movable = true) :
    renameSync es old old = some es := by
  unfold renameSync
  rw [h0]
  simp [hmov]

/-- On listings that agree outside `D` and hold directories under the same
names, renaming a file whose name is not in `D` fails on both or succeeds on
both, and the results agree outside `D`. -/
theorem rename_congr {D : List Str} {c1 c2 : List Node} {m : Str} (new : Str)
    (hA : AgreeOn D c1 c2) (hK : SameKind c1 c2) (hm : m ∉ D) :
    (renameSync c1 m new = none ∧ renameSync c2 m new = none) ∨
      ∃ s1 s2, renameSync c1 m new = some s1 ∧ renameSync c2 m new = some s2 ∧
        AgreeOn D s1 s2 := by
  have hf := hA m hm
  have hk := hK new
  cases hfm : find c1 m with
  | none =>
    left
    unfold renameSync
    rw [← hf, hfm]
    exact ⟨rfl, rfl⟩
  | some n =>
    have hfm2 : find c2 m = some n := hf ▸ hfm
    cases hmov : n.movable with
    | false => exact Or.inl ⟨renameSync_unmovable hfm hmov, renameSync_unmovable hfm2 hmov⟩
    | true =>
      by_cases hmn : m = new
      · subst hmn
        exact Or.inr ⟨c1, c2, renameSync_same hfm hmov, renameSync_same hfm2 hmov, hA⟩
      · cases hd : isDirAt c1 new with
        | true =>
          have hd2 : isDirAt c2 new = true := hk ▸ hd
          exact Or.inl ⟨renameSync_blocked hfm hmn hd, renameSync_blocked hfm2 hmn hd2⟩
        | false =>
          have hd2 : isDirAt c2 new = false := hk ▸ hd
          refine Or.inr ⟨_, _, renameSync_moved hfm hmov hmn hd,
            renameSync_moved hfm2 hmov hmn hd2, ?_⟩
          intro k hk
          by_cases hk1 : k = m
          · rw [hk1, find_rename_old c1 m new hmn, find_rename_old c2 m new hmn]
          · by_cases hk2 : k = new
            · rw [hk2, find_rename_new c1 m new hmn, find_rename_new c2 m new hmn, hf]
            · rw [find_after_rename c1 m new k hk1 hk2, find_after_rename c2 m new k hk1 hk2]
              exact hA k hk

end FS

namespace RenameToAblock
open FS

theorem processContent_congr (b : Bool) (p : RelPath) (m : Str) {D : List Str}
    {c1 c2 : List Node} (hA : AgreeOn D c1 c2) (hm : m ∉ D) :
    (processContent b p m c1).2 = (processContent b p m c2).2 ∧
      AgreeOn D (processContent b p m c1).1 (processContent b p m c2).1 := by
  unfold processContent
  rw [readFileSync_congr (hA m hm)]
  cases readFileSync c2 m with
  | none => exact ⟨rfl, hA⟩
  | some content =>
    simp only
    split
    · cases b with
      | false => exact ⟨rfl, hA⟩
      | true =>
        simp only [if_true]
        rcases write_congr (JS.join (processLines (JS.split content ['\n']) ([], false)).1 ['\n'])
          hA hm with ⟨w1, w2⟩ | ⟨s1, s2, w1, w2, hs⟩
        · rw [w1, w2]; exact ⟨rfl, hA⟩
        · rw [w1, w2]; exact ⟨rfl, hs⟩
    · exact ⟨rfl, hA⟩

theorem processContent_isDirAt (b : Bool) (p : RelPath) (m : Str) (fs : List Node) (k : Str) :
    isDirAt (processContent b p m fs).1 k = isDirAt fs k := by
  rcases processContent_state b p m fs with h | ⟨data, h⟩
  · rw [h]
  · exact isDirAt_after_write h k

theorem processRename_congr (b : Bool) (dir : RelPath) (m : Str) {D : List Str}
    {c1 c2 : List Node} (hA : AgreeOn D c1 c2) (hK : SameKind c1 c2) (hm : m ∉ D) :
    (processRename b dir m c1).2 = (processRename b dir m c2).2 ∧
      AgreeOn D (processRename b dir m c1).1 (processRename b dir m c2).1 := by
  unfold processRename
  simp only
  split
  · cases b with
    | false => exact ⟨rfl, hA⟩
    | true =>
      simp only [if_true]
      rcases rename_congr (applyFilenameReplacements m) hA hK hm with
        ⟨w1, w2⟩ | ⟨s1, s2, w1, w2, hs⟩
      · rw [w1, w2]; exact ⟨rfl, hA⟩
      · rw [w1, w2]; exact ⟨rfl, hs⟩
  · exact ⟨rfl, hA⟩

theorem processFile_congr (b : Bool) (dir : RelPath) (m : Str) {D : List Str}
    {c1 c2 : List Node} (hA : AgreeOn D c1 c2) (hK : SameKind c1 c2) (hm : m ∉ D) :
    (processFile b dir m c1).2 = (processFile b dir m c2).2 ∧
      AgreeOn D (processFile b dir m c1).1 (processFile b dir m c2).1 := by
  unfold processFile
  simp only
  have hs : shouldSkipFile c1 m = shouldSkipFile c2 m := by
    unfold shouldSkipFile
    rw [statSync_congr (hA m hm)]
  rw [hs]
  split
  · exact ⟨rfl, hA⟩
  · obtain ⟨h1, h2⟩ := processContent_congr b (dir ++ [m]) m hA hm
    have hK2 : SameKind (processContent b (dir ++ [m]) m c1).1
        (processContent b (dir ++ [m]) m c2).1 := by
      intro k
      rw [processContent_isDirAt, processContent_isDirAt]
      exact hK k
    obtain ⟨h3, h4⟩ := processRename_congr b dir m h2 hK2 hm
    exact ⟨by rw [h1, h3], h4⟩

theorem processFile_subject (b : Bool) (dir : RelPath) (m : Str) (cur : List Node) :
    ∀ e ∈ (processFile b dir m cur).2, e.paths.head? = some (dir ++ [m]) := by
  intro e he
  rcases processFile_events b dir m cur e he with h | (h | ⟨d, h⟩ | ⟨a, h⟩ | h) |
    (h | ⟨a, h⟩ | h) <;> rw [h] <;> rfl

theorem processFile_local : ProcessFileLocal processFile where
  congr := fun b _ _ _ dir m hA hK hm => processFile_congr b dir m hA hK hm
  subject := processFile_subject

end RenameToAblock

namespace SigmaRename
open FS

theorem sigma_processRename_congr (b : Bool) (dir : RelPath) (m : Str) {D : List Str}
    {c1 c2 : List Node} (hA : AgreeOn D c1 c2) (hK : SameKind c1 c2) (hm : m ∉ D) :
    (processRename b dir m c1).2 = (processRename b dir m c2).2 ∧
      AgreeOn D (processRename b dir m c1).1 (processRename b dir m c2).1 := by
  unfold processRename
  simp only
  split
  · cases b with
    | false => exact ⟨rfl, hA⟩
    | true =>
      simp only [if_true]
      rcases rename_congr (applyNameReplacements m) hA hK hm with
        ⟨w1, w2⟩ | ⟨s1, s2, w1, w2, hs⟩
      · rw [w1, w2]; exact ⟨rfl, hA⟩
      · rw [w1, w2]; exact ⟨rfl, hs⟩
  · exact ⟨rfl, hA⟩

theorem sigma_processFile_congr (b : Bool) (dir : RelPath) (m : Str) {D : List Str}
    {c1 c2 : List Node} (hA : AgreeOn D c1 c2) (hK : SameKind c1 c2) (hm : m ∉ D) :
    (processFile b dir m c1).2 = (processFile b dir m c2).2 ∧
      AgreeOn D (processFile b dir m c1).1 (processFile b dir m c2).1 := by
  have ht : isTextFile dir m c1 = isTextFile dir m c2 := by
    unfold isTextFile
    rw [statSync_congr (hA m hm)]
  have hc1 : (if (isTextFile dir m c1).1 then processContent b (dir ++ [m]) m c1
      else (c1, [])) = (c1, (if (isTextFile dir m c1).1 then
        processContent b (dir ++ [m]) m c1 else (c1, [])).2) := by
    split
    · exact Prod.ext (sigma_processContent_quiet b _ m c1).1 rfl
    · rfl
  have hc2 : (if (isTextFile dir m c2).1 then processContent b (dir ++ [m]) m c2
      else (c2, [])) = (c2, (if (isTextFile dir m c2).1 then
        processContent b (dir ++ [m]) m c2 else (c2, [])).2) := by
    split
    · exact Prod.ext (sigma_processContent_quiet b _ m c2).1 rfl
    · rfl
  have hev : (if (isTextFile dir m c1).1 then processContent b (dir ++ [m]) m c1
      else (c1, [])).2 = (if (isTextFile dir m c2).1 then processContent b (dir ++ [m]) m c2
      else (c2, [])).2 := by
    rw [ht]
    split
    · rw [processContent_eq, processContent_eq, readFileSync_congr (hA m hm)]
      cases readFileSync c2 m <;> rfl
    · rfl
  obtain ⟨h3, h4⟩ := sigma_processRename_congr b dir m hA hK hm
  unfold processFile
  simp only
  rw [hc1, hc2]
  simp only
  exact ⟨by rw [hev, h3, ht], h4⟩

theorem sigma_processFile_subject (b : Bool) (dir : RelPath) (m : Str) (cur : List Node) :
    ∀ e ∈ (processFile b dir m cur).2, e.paths.head? = some (dir ++ [m]) := by
  intro e he
  rcases sigma_processFile_events b dir m cur e he with h | (h | ⟨d, h⟩ | ⟨a, h⟩ | h) |
    (h | ⟨a, h⟩ | h) <;> rw [h] <;> rfl

theorem sigma_processFile_local : ProcessFileLocal processFile where
  congr := fun b _ _ _ dir m hA hK hm => sigma_processFile_congr b dir m hA hK hm
  subject := sigma_processFile_subject

end SigmaRename

namespace FS

theorem others_append (p : RelPath) (a b : List Event) :
    others p (a ++ b) = others p a ++ others p b := by
  unfold others; exact List.filter_append _ _

theorem others_of_subject {p : RelPath} {t : List Event}
    (h : ∀ e ∈ t, e.paths.head? = some p) : others p t = [] := by
  unfold others
  rw [List.filter_eq_nil_iff]
  intro e he
  rw [h e he]
  simp

theorem walkLoop_file (skip : Str → Bool)
    (pf : RelPath → Str → List Node → List Node × List Event)
    (walkDir : RelPath → Node → Outcome Node) (dir : RelPath) (name : Str)
    (rest : List Dirent) (cur : List Node) :
    walkLoop skip pf walkDir dir (⟨name, .file⟩ :: rest) cur =
      ⟨(walkLoop skip pf walkDir dir rest (pf dir name cur).1).state,
        (pf dir name cur).2 ++ (walkLoop skip pf walkDir dir rest (pf dir name cur).1).trace,
        (walkLoop skip pf walkDir dir rest (pf dir name cur).1).status⟩ := rfl

theorem walkEntry_file (skip : Str → Bool)
    (pf : RelPath → Str → List Node → List Node × List Event)
    (walkDir : RelPath → Node → Outcome Node) (dir : RelPath) (cur : List Node)
    (entry : Dirent) (hk : entry.kind = .file) :
    walkEntry skip pf walkDir dir cur entry =
      ⟨(pf dir entry.name cur).1, (pf dir entry.name cur).2, .returned⟩ := by
  unfold walkEntry
  simp only [hk]

theorem walkEntry_other (skip : Str → Bool)
    (pf : RelPath → Str → List Node → List Node × List Event)
    (walkDir : RelPath → Node → Outcome Node) (dir : RelPath) (cur : List Node)
    (entry : Dirent) (hk : entry.kind = .other) :
    walkEntry skip pf walkDir dir cur entry = ⟨cur, [], .returned⟩ := by
  unfold walkEntry
  simp only [hk]

theorem walkEntry_directory (skip : Str → Bool)
    (pf : RelPath → Str → List Node → List Node × List Event)
    (walkDir : RelPath → Node → Outcome Node) (dir : RelPath) (cur : List Node)
    (entry : Dirent) (hk : entry.kind = .directory) :
    walkEntry skip pf walkDir dir cur entry =
      if skip entry.name then ⟨cur, [], .returned⟩
      else
        match find cur entry.name with
        | none => ⟨cur, [.readdirSync (dir ++ [entry.name])], .threw⟩
        | some child =>
            ⟨cur.map (fun n => if n.name == entry.name then
                (walkDir (dir ++ [entry.name]) child).state else n),
              (walkDir (dir ++ [entry.name]) child).trace,
              (walkDir (dir ++ [entry.name]) child).status⟩ := by
  unfold walkEntry
  simp only [hk]

theorem find_replace_same {cur : List Node} {m : Str} {child : Node} (c : Node)
    (hf : find cur m = some child) (hc : c.name = m) :
    find (cur.map (fun n => if n.name == m then c else n)) m = some c := by
  have hpres : ∀ n : Node, (if n.name == m then c else n).name = n.name := by
    intro n
    split
    · next h => rw [hc]; exact (by simpa using h : n.name = m).symm
    · rfl
  rw [find_map_same_name _ hpres, hf]
  have : (child.name == m) = true := by simp [(find_some hf).1]
  simp only [Option.map, this, if_true]

theorem isDirAt_replace {cur : List Node} {m : Str} {child : Node} (c : Node)
    (hf : find cur m = some child) (hc : c.name = m) (hd : c.isDir = child.isDir) (k : Str) :
    isDirAt (cur.map (fun n => if n.name == m then c else n)) k = isDirAt cur k := by
  by_cases hk : k = m
  · rw [hk, isDirAt_of_find (find_replace_same c hf hc), isDirAt_of_find hf, hd]
  · exact isDirAt_of_find_eq (find_replace_other cur m k c hc hk)

/-- With a directory under the new name no rename of the file succeeds, and
writing and renaming the file leave every entry of another name as it is. -/
theorem touched_find_blocked {name new : Str} {cur c2 : List Node}
    (h : Touched name new cur c2) :
    isDirAt cur new = true → name ≠ new → ∀ m, m ≠ name → find c2 m = find cur m := by
  induction h with
  | refl cur => intro _ _ m _; rfl
  | write hw _ ih =>
    intro hd hne m hm
    rw [ih ((isDirAt_after_write hw new).trans hd) hne m hm]
    exact (write_step hw).2.2.2.1 m hm
  | rename hr _ ih =>
    intro hd hne m hm
    rcases renameSync_some hr with hc | ⟨_, hnew, _⟩
    · rw [hc] at ih
      exact ih hd hne m hm
    · exfalso
      unfold isDirAt at hd
      cases hf : find _ new with
      | none => rw [hf] at hd; exact Bool.noConfusion hd
      | some n =>
        rw [hf] at hd
        have hd1 : n.isDir = true := hd
        have := hnew n hf
        rw [hd1] at this
        exact Bool.noConfusion this

/-- One turn of the loop of `walk` on two listings that agree outside `D`, for
an entry that is neither file nor directory or whose name is not in `D`: both
runs do the same. -/
theorem walkEntry_isolated {skip : Str → Bool}
    {pf : Bool → RelPath → Str → List Node → List Node × List Event} {rewrite : Str → Str}
    {writes : Str → FileData → Bool} (hspec : ProcessFileSpec pf rewrite writes)
    (hloc : ProcessFileLocal pf) (b : Bool)
    (walkDir : RelPath → Node → Outcome Node)
    (hwd : ∀ p child, (walkDir p child).state.name = child.name ∧
      (walkDir p child).state.isDir = child.isDir)
    (dir : RelPath) (D : List Str)
    (c1 c2 : List Node) (entry : Dirent) (hA : AgreeOn D c1 c2) (hK : SameKind c1 c2)
    (hfile : entry.kind = .file → isDirAt c1 entry.name = false)
    (hent : entry.name ∉ D ∨ entry.kind = .other) :
    (walkEntry skip (pf b) walkDir dir c1 entry).trace =
        (walkEntry skip (pf b) walkDir dir c2 entry).trace ∧
      (walkEntry skip (pf b) walkDir dir c1 entry).status =
        (walkEntry skip (pf b) walkDir dir c2 entry).status ∧
      AgreeOn D (walkEntry skip (pf b) walkDir dir c1 entry).state
        (walkEntry skip (pf b) walkDir dir c2 entry).state ∧
      SameKind (walkEntry skip (pf b) walkDir dir c1 entry).state
        (walkEntry skip (pf b) walkDir dir c2 entry).state ∧
      ∀ k, isDirAt (walkEntry skip (pf b) walkDir dir c1 entry).state k = isDirAt c1 k := by
  cases hkind : entry.kind with
  | other =>
    rw [walkEntry_other _ _ _ _ _ _ hkind, walkEntry_other _ _ _ _ _ _ hkind]
    exact ⟨rfl, rfl, hA, hK, fun _ => rfl⟩
  | file =>
    have hD : entry.name ∉ D := by
      rcases hent with hD | he
      · exact hD
      · rw [he] at hkind; exact Kind.noConfusion hkind
    rw [walkEntry_file _ _ _ _ _ _ hkind, walkEntry_file _ _ _ _ _ _ hkind]
    have h1 : isDirAt c1 entry.name = false := hfile hkind
    have h2 : isDirAt c2 entry.name = false := (hK entry.name).symm.trans h1
    have s1 := touched_isDirAt (hspec.touched b dir entry.name c1) h1
    have s2 := touched_isDirAt (hspec.touched b dir entry.name c2) h2
    obtain ⟨e1, e2⟩ := hloc.congr b D c1 c2 dir entry.name hA hK hD
    refine ⟨e1, rfl, e2, ?_, s1⟩
    intro k
    show isDirAt (pf b dir entry.name c1).1 k = isDirAt (pf b dir entry.name c2).1 k
    rw [s1 k, s2 k]
    exact hK k
  | directory =>
    have hD : entry.name ∉ D := by
      rcases hent with hD | he
      · exact hD
      · rw [he] at hkind; exact Kind.noConfusion hkind
    rw [walkEntry_directory _ _ _ _ _ _ hkind, walkEntry_directory _ _ _ _ _ _ hkind]
    by_cases hs : skip entry.name = true
    · rw [if_pos hs, if_pos hs]
      exact ⟨rfl, rfl, hA, hK, fun _ => rfl⟩
    · rw [if_neg hs, if_neg hs, ← hA entry.name hD]
      cases hf : find c1 entry.name with
      | none => exact ⟨rfl, rfl, hA, hK, fun _ => rfl⟩
      | some child =>
        have hf2 : find c2 entry.name = some child := (hA entry.name hD) ▸ hf
        obtain ⟨w1, w2⟩ := hwd (dir ++ [entry.name]) child
        have hcn : (walkDir (dir ++ [entry.name]) child).state.name = entry.name := by
          rw [w1]; exact (find_some hf).1
        have sh1 := isDirAt_replace (walkDir (dir ++ [entry.name]) child).state hf hcn w2
        have sh2 := isDirAt_replace (walkDir (dir ++ [entry.name]) child).state hf2 hcn w2
        refine ⟨rfl, rfl, ?_, ?_, sh1⟩
        · intro k hk
          show find (c1.map _) k = find (c2.map _) k
          by_cases hke : k = entry.name
          · rw [hke, find_replace_same _ hf hcn, find_replace_same _ hf2 hcn]
          · rw [find_replace_other c1 entry.name k _ hcn hke,
              find_replace_other c2 entry.name k _ hcn hke]
            exact hA k hk
        · intro k
          show isDirAt (c1.map _) k = isDirAt (c2.map _) k
          rw [sh1 k, sh2 k]
          exact hK k

/-- The loop of `walk` over entries that are neither file nor directory or
whose names are not in `D`, on two listings that agree outside `D`: both runs
do the same. -/
theorem walkLoop_isolated {skip : Str → Bool}
    {pf : Bool → RelPath → Str → List Node → List Node × List Event} {rewrite : Str → Str}
    {writes : Str → FileData → Bool} (hspec : ProcessFileSpec pf rewrite writes)
    (hloc : ProcessFileLocal pf) (b : Bool)
    (walkDir : RelPath → Node → Outcome Node)
    (hwd : ∀ p child, (walkDir p child).state.name = child.name ∧
      (walkDir p child).state.isDir = child.isDir)
    (dir : RelPath) (D : List Str) :
    ∀ (entries : List Dirent) (c1 c2 : List Node), AgreeOn D c1 c2 → SameKind c1 c2 →
      (∀ e ∈ entries, e.kind = .file → isDirAt c1 e.name = false) →
      (∀ e ∈ entries, e.name ∉ D ∨ e.kind = .other) →
      (walkLoop skip (pf b) walkDir dir entries c1).trace =
          (walkLoop skip (pf b) walkDir dir entries c2).trace ∧
        (walkLoop skip (pf b) walkDir dir entries c1).status =
          (walkLoop skip (pf b) walkDir dir entries c2).status := by
  intro entries
  induction entries with
  | nil => intro c1 c2 _ _ _ _; exact ⟨rfl, rfl⟩
  | cons entry rest ih =>
    intro c1 c2 hA hK hfile hent
    obtain ⟨e1, e2, e3, e4, e5⟩ := walkEntry_isolated hspec hloc b walkDir hwd dir D
      c1 c2 entry hA hK (hfile entry (List.mem_cons_self _ _))
      (hent entry (List.mem_cons_self _ _))
    obtain ⟨i1, i2⟩ := ih _ _ e3 e4
      (fun e he hk => (e5 e.name).trans (hfile e (List.mem_cons_of_mem _ he) hk))
      (fun e he => hent e (List.mem_cons_of_mem _ he))
    rw [walkLoop_cons, walkLoop_cons, ← e2]
    cases hst : (walkEntry skip (pf b) walkDir dir c1 entry).status with
    | returned => exact ⟨by rw [e1, i1], i2⟩
    | threw => exact ⟨e1, hst.trans (e2 ▸ hst).symm⟩
    | outOfFuel => exact ⟨e1, hst.trans (e2 ▸ hst).symm⟩

/-- The turn of the file `name` itself, on two listings that agree outside
`name`: afterwards the listings agree outside `name` and, in an apply run with
no directory under the rewritten name, outside the rewritten name. -/
theorem step_isolated
    {pf : Bool → RelPath → Str → List Node → List Node × List Event} {rewrite : Str → Str}
    {writes : Str → FileData → Bool} (hspec : ProcessFileSpec pf rewrite writes)
    (b : Bool) (dir : RelPath) (name : Str) (c1 c2 : List Node)
    (hA : AgreeOn [name] c1 c2) (hK : SameKind c1 c2) (h0 : isDirAt c1 name = false) :
    AgreeOn (if b && !isDirAt c1 (rewrite name) then [name, rewrite name] else [name])
        (pf b dir name c1).1 (pf b dir name c2).1 ∧
      SameKind (pf b dir name c1).1 (pf b dir name c2).1 ∧
      ∀ k, isDirAt (pf b dir name c1).1 k = isDirAt c1 k := by
  have h2 : isDirAt c2 name = false := (hK name).symm.trans h0
  have s1 := touched_isDirAt (hspec.touched b dir name c1) h0
  have s2 := touched_isDirAt (hspec.touched b dir name c2) h2
  refine ⟨?_, fun k => by rw [s1 k, s2 k]; exact hK k, s1⟩
  cases b with
  | false =>
    simp only [Bool.false_and, Bool.false_eq_true, if_false]
    rw [hspec.dry_state, hspec.dry_state]
    exact hA
  | true =>
    cases hd : isDirAt c1 (rewrite name) with
    | false =>
      simp only [Bool.true_and, Bool.not_false, if_true]
      intro k hk
      have hk1 : k ≠ name := fun he => hk (he ▸ List.mem_cons_self _ _)
      have hk2 : k ≠ rewrite name := fun he =>
        hk (he ▸ List.mem_cons_of_mem _ (List.mem_singleton_self _))
      rw [touched_find (hspec.touched true dir name c1) k hk1 hk2,
        touched_find (hspec.touched true dir name c2) k hk1 hk2]
      exact hA k (fun hm => hk1 (List.mem_singleton.mp hm))
    | true =>
      simp only [Bool.true_and, Bool.not_true, Bool.false_eq_true, if_false]
      have hd2 : isDirAt c2 (rewrite name) = true := (hK (rewrite name)).symm.trans hd
      have hne : name ≠ rewrite name := by
        intro he
        rw [← he, h0] at hd
        exact Bool.noConfusion hd
      intro k hk
      have hk1 : k ≠ name := fun he => hk (he ▸ List.mem_singleton_self _)
      rw [touched_find_blocked (hspec.touched true dir name c1) hd hne k hk1,
        touched_find_blocked (hspec.touched true dir name c2) hd2 hne k hk1]
      exact hA k hk

/-- The loop of `walk` over entries `pre`, the regular file `name` and entries
`post`, on two listings that agree outside `name`: what the two runs do for the
entries other than `name` is the same. -/
theorem walkLoop_isolated_at {skip : Str → Bool}
    {pf : Bool → RelPath → Str → List Node → List Node × List Event} {rewrite : Str → Str}
    {writes : Str → FileData → Bool} (hspec : ProcessFileSpec pf rewrite writes)
    (hloc : ProcessFileLocal pf) (b : Bool)
    (walkDir : RelPath → Node → Outcome Node)
    (hwd : ∀ p child, (walkDir p child).state.name = child.name ∧
      (walkDir p child).state.isDir = child.isDir)
    (dir : RelPath) (name : Str) (post : List Dirent)
    (hpost : ∀ e ∈ post, e.name ≠ name)
    (hcol : b = true → rewrite name = name ∨
      ∀ e ∈ post, e.kind = .file → e.name ≠ rewrite name) :
    ∀ (pre : List Dirent) (c1 c2 : List Node), AgreeOn [name] c1 c2 → SameKind c1 c2 →
      (∀ e ∈ pre, e.name ≠ name) →
      (∀ e ∈ pre ++ ⟨name, .file⟩ :: post, e.kind = .file → isDirAt c1 e.name = false) →
      (∀ e ∈ post, e.kind = .directory → isDirAt c1 e.name = true) →
      others (dir ++ [name])
          (walkLoop skip (pf b) walkDir dir (pre ++ ⟨name, .file⟩ :: post) c1).trace =
        others (dir ++ [name])
          (walkLoop skip (pf b) walkDir dir (pre ++ ⟨name, .file⟩ :: post) c2).trace ∧
      (walkLoop skip (pf b) walkDir dir (pre ++ ⟨name, .file⟩ :: post) c1).status =
        (walkLoop skip (pf b) walkDir dir (pre ++ ⟨name, .file⟩ :: post) c2).status := by
  intro pre
  induction pre with
  | nil =>
    intro c1 c2 hA hK _ hfile hdirs
    have h0 : isDirAt c1 name = false := hfile ⟨name, .file⟩ (List.mem_cons_self _ _) rfl
    obtain ⟨a1, a2, a3⟩ := step_isolated hspec b dir name c1 c2 hA hK h0
    have hent : ∀ e ∈ post,
        e.name ∉ (if b && !isDirAt c1 (rewrite name) then [name, rewrite name] else [name]) ∨
          e.kind = .other := by
      intro e he
      cases hk : e.kind with
      | other => exact Or.inr rfl
      | file =>
        left
        intro hm
        split at hm
        · next hc =>
          rw [Bool.and_eq_true] at hc
          rcases List.mem_cons.mp hm with h | h
          · exact hpost e he h
          · have h2 : e.name = rewrite name := List.mem_singleton.mp h
            rcases hcol hc.1 with h3 | h3
            · exact hpost e he (h2.trans h3)
            · exact h3 e he hk h2
        · exact hpost e he (List.mem_singleton.mp hm)
      | directory =>
        left
        intro hm
        split at hm
        · next hc =>
          rw [Bool.and_eq_true] at hc
          rcases List.mem_cons.mp hm with h | h
          · exact hpost e he h
          · have h2 : e.name = rewrite name := List.mem_singleton.mp h
            have h3 := hdirs e he hk
            rw [h2] at h3
            rw [h3] at hc
            exact Bool.noConfusion hc.2
        · exact hpost e he (List.mem_singleton.mp hm)
    obtain ⟨i1, i2⟩ := @walkLoop_isolated skip pf rewrite writes hspec hloc b walkDir hwd dir
      _ post _ _ a1 a2
      (fun e he hk => (a3 e.name).trans (hfile e (List.mem_cons_of_mem _ he) hk)) hent
    rw [List.nil_append, walkLoop_file, walkLoop_file]
    simp only
    rw [others_append, others_append, others_of_subject (hloc.subject b dir name c1),
      others_of_subject (hloc.subject b dir name c2), i1]
    exact ⟨rfl, i2⟩
  | cons entry rest ih =>
    intro c1 c2 hA hK hpre hfile hdirs
    have hD : entry.name ∉ [name] := fun hm =>
      hpre entry (List.mem_cons_self _ _) (List.mem_singleton.mp hm)
    obtain ⟨e1, e2, e3, e4, e5⟩ := walkEntry_isolated hspec hloc b walkDir hwd dir [name]
      c1 c2 entry hA hK (hfile entry (List.mem_cons_self _ _)) (Or.inl hD)
    obtain ⟨i1, i2⟩ := ih _ _ e3 e4
      (fun e he => hpre e (List.mem_cons_of_mem _ he))
      (fun e he hk => (e5 e.name).trans (hfile e (List.mem_cons_of_mem _ he) hk))
      (fun e he hk => (e5 e.name).trans (hdirs e he hk))
    rw [List.cons_append, walkLoop_cons, walkLoop_cons, ← e2]
    cases hst : (walkEntry skip (pf b) walkDir dir c1 entry).status with
    | returned =>
      simp only
      rw [others_append, others_append, e1, i1]
      exact ⟨rfl, i2⟩
    | threw => exact ⟨by rw [e1], hst.trans (e2 ▸ hst).symm⟩
    | outOfFuel => exact ⟨by rw [e1], hst.trans (e2 ▸ hst).symm⟩

theorem walkWith_name_isDir (skip : Str → Bool)
    (pf : RelPath → Str → List Node → List Node × List Event) (fuel : Nat) (p : RelPath)
    (child : Node) :
    (walkWith skip pf fuel p child).state.name = child.name ∧
      (walkWith skip pf fuel p child).state.isDir = child.isDir := by
  cases fuel with
  | zero => exact ⟨rfl, rfl⟩
  | succ fuel =>
    unfold walkWith
    split
    · exact ⟨rfl, rfl⟩
    · cases child <;> exact ⟨rfl, rfl⟩

theorem find_append (a b : List Node) (m : Str) :
    find (a ++ b) m = (find a m).or (find b m) := by
  unfold find
  exact List.find?_append

/-- The events that a walk of a directory emits for entries other than the
regular file `name` do not depend on the data of that file (whether it can be
read, written or moved, and what it holds): in a dry run always, in an apply
run when the rewritten name of the file is not the name of a regular file
listed after it. -/
theorem walkWith_isolated {skip : Str → Bool}
    {pf : Bool → RelPath → Str → List Node → List Node × List Event} {rewrite : Str → Str}
    {writes : Str → FileData → Bool} (hspec : ProcessFileSpec pf rewrite writes)
    (hloc : ProcessFileLocal pf) (b : Bool)
    (fuel : Nat) (dir : RelPath) (nm : Str) (pre post : List Node) (name : Str)
    (d1 d2 : FileData) (hnd : (names (pre ++ .file name d1 :: post)).Nodup)
    (hcol : b = true → rewrite name = name ∨
      ∀ n ∈ post, n.isFile = true → n.name ≠ rewrite name) :
    others (dir ++ [name])
        (walkWith skip (pf b) fuel dir (.dir nm true (pre ++ .file name d1 :: post))).trace =
      others (dir ++ [name])
        (walkWith skip (pf b) fuel dir (.dir nm true (pre ++ .file name d2 :: post))).trace ∧
    (walkWith skip (pf b) fuel dir (.dir nm true (pre ++ .file name d1 :: post))).status =
      (walkWith skip (pf b) fuel dir (.dir nm true (pre ++ .file name d2 :: post))).status := by
  cases fuel with
  | zero => exact ⟨rfl, rfl⟩
  | succ fuel =>
    have hw : ∀ l : List Node, walkWith skip (pf b) (fuel + 1) dir (.dir nm true l) =
        ⟨(Node.dir nm true l).withEntries
            (walkLoop skip (pf b) (walkWith skip (pf b) fuel) dir (l.map Node.dirent) l).state,
          .readdirSync dir ::
            (walkLoop skip (pf b) (walkWith skip (pf b) fuel) dir (l.map Node.dirent) l).trace,
          (walkLoop skip (pf b) (walkWith skip (pf b) fuel) dir (l.map Node.dirent)
            l).status⟩ := fun _ => rfl
    have hmap : ∀ d : FileData, (pre ++ Node.file name d :: post).map Node.dirent =
        pre.map Node.dirent ++ ⟨name, .file⟩ :: post.map Node.dirent := by
      intro d
      rw [List.map_append, List.map_cons]
      rfl
    rw [hw, hw, hmap d1, hmap d2]
    simp only
    have hnames : names (pre ++ Node.file name d1 :: post) =
        names pre ++ name :: names post := by
      simp only [names, List.map_append, List.map_cons, Node.name]
    have hnd2 := hnd
    rw [hnames, List.nodup_append] at hnd2
    obtain ⟨_, hnd3, hdisj⟩ := hnd2
    rw [List.nodup_cons] at hnd3
    have hpre : ∀ n ∈ pre, n.name ≠ name := by
      intro n hn he
      exact hdisj (mem_names_of_mem hn) (by rw [he]; exact List.mem_cons_self _ _)
    have hpost : ∀ n ∈ post, n.name ≠ name := by
      intro n hn he
      exact hnd3.1 (he ▸ mem_names_of_mem hn)
    have hfpre : find pre name = none := by
      cases hf : find pre name with
      | none => rfl
      | some n => exact absurd (find_some hf).1 (hpre n (find_some hf).2)
    have hA : AgreeOn [name] (pre ++ Node.file name d1 :: post)
        (pre ++ Node.file name d2 :: post) := by
      intro m hm
      have hmn : ¬ name = m := fun he => hm (he ▸ List.mem_singleton_self _)
      rw [find_append, find_append, find_cons, find_cons]
      simp only [Node.name, if_neg hmn]
    have hK : SameKind (pre ++ Node.file name d1 :: post)
        (pre ++ Node.file name d2 :: post) := by
      intro m
      by_cases hmn : m = name
      · unfold isDirAt
        rw [hmn, find_append, find_append, hfpre, find_cons, find_cons]
        simp only [Node.name, if_true, Option.or]
        rfl
      · exact isDirAt_of_find_eq (hA m (fun hm => hmn (List.mem_singleton.mp hm)))
    have hfile : ∀ e ∈ pre.map Node.dirent ++ ⟨name, .file⟩ :: post.map Node.dirent,
        e.kind = .file → isDirAt (pre ++ Node.file name d1 :: post) e.name = false := by
      intro e he hk
      rw [← hmap d1] at he
      obtain ⟨n, hn, hn1⟩ := List.mem_map.mp he
      rw [← hn1, dirent_name, isDirAt_of_find (find_of_mem hnd hn)]
      exact isDir_of_dirent_file (hn1 ▸ hk)
    have hdirs : ∀ e ∈ post.map Node.dirent, e.kind = .directory →
        isDirAt (pre ++ Node.file name d1 :: post) e.name = true := by
      intro e he hk
      obtain ⟨n, hn, hn1⟩ := List.mem_map.mp he
      have hmem : n ∈ pre ++ Node.file name d1 :: post :=
        List.mem_append_right _ (List.mem_cons_of_mem _ hn)
      rw [← hn1, dirent_name, isDirAt_of_find (find_of_mem hnd hmem)]
      exact (isDir_iff_dirent n).mpr (hn1 ▸ hk)
    obtain ⟨f1, f2⟩ := walkLoop_isolated_at hspec hloc b (walkWith skip (pf b) fuel)
      (walkWith_name_isDir skip (pf b) fuel) dir name (post.map Node.dirent)
      (by
        intro e he
        obtain ⟨n, hn, hn1⟩ := List.mem_map.mp he
        rw [← hn1, dirent_name]
        exact hpost n hn)
      (by
        intro hb
        rcases hcol hb with h | h
        · exact Or.inl h
        · right
          intro e he hk
          obtain ⟨n, hn, hn1⟩ := List.mem_map.mp he
          rw [← hn1, dirent_name]
          apply h n hn
          cases n with
          | file nm2 dd => rfl
          | dir nm2 l sub => rw [← hn1] at hk; exact Kind.noConfusion hk
          | other nm2 => rw [← hn1] at hk; exact Kind.noConfusion hk)
      (pre.map Node.dirent) _ _ hA hK
      (by
        intro e he
        obtain ⟨n, hn, hn1⟩ := List.mem_map.mp he
        rw [← hn1, dirent_name]
        exact hpre n hn)
      hfile hdirs
    refine ⟨?_, f2⟩
    unfold others at f1 ⊢
    rw [List.filter_cons, List.filter_cons, f1]

end FS

namespace FS

theorem others_report (p : RelPath) (t : List Event) :
    others p (report t) = report (others p t) := by
  unfold others report
  rw [List.filter_filter, List.filter_filter]
  congr 1
  funext e
  exact Bool.and_comm _ _

end FS


/-- Counterexample for C13, in `sigma-rename.js`, whose apply run renames
`A Block.txt` to `ABlock.txt`, over the file of that name listed after it; what
is then processed as `ABlock.txt` is the former `A Block.txt`.  Read failure:
when `A Block.txt` cannot be read the run prints a `[SKIP ] read error` line
for `ABlock.txt` too, when it can be read the run prints nothing for
`ABlock.txt`.  Rename failure: with `ABlock.txt` unreadable, the run prints a
`[SKIP ] read error` line for `ABlock.txt` when the rename of `A Block.txt`
fails and nothing for `ABlock.txt` when the rename succeeds.  In both cases the
report lines that do not concern `A Block.txt` differ.  Remaining entries: in
`Example.lockedAfter` the unreadable `notes.txt` is followed by a directory
that cannot be enumerated; after the `[SKIP ] read error` line the walk of
either script throws there, and `zeta.txt`, which is to be visited, is never
processed. -/
theorem failure_reaches_later_entry :
    FS.report (SigmaRename.walk true 2 []
        (Example.twoFiles ⟨some 4, none, true, true⟩
          ⟨some 4, some "fine".toList, true, true⟩)).trace =
      [.warnRead ["A Block.txt".toList],
        .logRename true ["A Block.txt".toList] ["ABlock.txt".toList],
        .warnRead ["ABlock.txt".toList]] ∧
    FS.report (SigmaRename.walk true 2 []
        (Example.twoFiles ⟨some 4, some "fine".toList, true, true⟩
          ⟨some 4, some "fine".toList, true, true⟩)).trace =
      [.logRename true ["A Block.txt".toList] ["ABlock.txt".toList]] ∧
    FS.others ["A Block.txt".toList]
        (FS.report (SigmaRename.walk true 2 []
          (Example.twoFiles ⟨some 4, none, true, true⟩
            ⟨some 4, some "fine".toList, true, true⟩)).trace) ≠
      FS.others ["A Block.txt".toList]
        (FS.report (SigmaRename.walk true 2 []
          (Example.twoFiles ⟨some 4, some "fine".toList, true, true⟩
            ⟨some 4, some "fine".toList, true, true⟩)).trace) ∧
    FS.report (SigmaRename.walk true 2 []
        (Example.twoFiles ⟨some 4, some "fine".toList, true, false⟩
          ⟨some 4, none, true, true⟩)).trace =
      [.warnRename ["A Block.txt".toList], .warnRead ["ABlock.txt".toList]] ∧
    FS.report (SigmaRename.walk true 2 []
        (Example.twoFiles ⟨some 4, some "fine".toList, true, true⟩
          ⟨some 4, none, true, true⟩)).trace =
      [.logRename true ["A Block.txt".toList] ["ABlock.txt".toList]] ∧
    FS.others ["A Block.txt".toList]
        (FS.report (SigmaRename.walk true 2 []
          (Example.twoFiles ⟨some 4, some "fine".toList, true, false⟩
            ⟨some 4, none, true, true⟩)).trace) ≠
      FS.others ["A Block.txt".toList]
        (FS.report (SigmaRename.walk true 2 []
          (Example.twoFiles ⟨some 4, some "fine".toList, true, true⟩
            ⟨some 4, none, true, true⟩)).trace) ∧
    FS.visitsList RenameToAblock.shouldSkipDir [] Example.lockedAfter.entries =
      [([], "notes.txt".toList), (["private".toList], "ublock.txt".toList),
        ([], "zeta.txt".toList)] ∧
    (RenameToAblock.walk true 3 [] Example.lockedAfter).status = .threw ∧
    (RenameToAblock.walk true 3 [] Example.lockedAfter).trace =
      [.readdirSync [], .statSync ["notes.txt".toList], .readFileSync ["notes.txt".toList],
        .warnRead ["notes.txt".toList], .readdirSync ["private".toList]] ∧
    (SigmaRename.walk true 3 [] Example.lockedAfter).status = .threw ∧
    FS.report (SigmaRename.walk true 3 [] Example.lockedAfter).trace =
      [.warnRead ["notes.txt".toList]] := by
  refine ⟨by decide, by decide, by decide, by decide, by decide, by decide, by decide,
    by decide, by decide, by decide, by decide⟩

/-- Claim C13, amended: in both scripts, (1) when `readFileSync` throws on a
file whose content is to be read, `processFile` prints one `[SKIP ] read error`
line for it and goes on to the rename step; (2) when, in apply mode,
`renameSync` throws, `processFile` prints one `[SKIP ] rename failed` line for
the file and leaves the listing as it was; (3) whatever the files of a tree
are, readable or not, movable or not, a walk with more fuel than the tree is
deep, over pairwise distinct names and directories that can be enumerated,
returns after one `processFile` call for every file to visit; (4) in a
directory with pairwise distinct entry names, the events (hence the report
lines) that a walk emits for the entries other than one regular file, and
whether the walk returns, do not depend on the data of that file, hence are
the same when reading it or renaming it fails as when that operation
succeeds: in a dry run always, and in an apply run when the rewritten name of
the file is not the name of a regular file listed after it in its
directory. -/
theorem recoverable_errors_do_not_abort (APPLY : Bool) :
    (∀ dir name fs, FS.readFileSync fs name = none →
      (RenameToAblock.shouldSkipFile fs name = false →
        RenameToAblock.processFile APPLY dir name fs =
          ((RenameToAblock.processRename APPLY dir name fs).1,
            .statSync (dir ++ [name]) :: .readFileSync (dir ++ [name]) ::
              .warnRead (dir ++ [name]) ::
              (RenameToAblock.processRename APPLY dir name fs).2)) ∧
      ((SigmaRename.isTextFile dir name fs).1 = true →
        SigmaRename.processFile APPLY dir name fs =
          ((SigmaRename.processRename APPLY dir name fs).1,
            (SigmaRename.isTextFile dir name fs).2 ++
              .readFileSync (dir ++ [name]) :: .warnRead (dir ++ [name]) ::
              (SigmaRename.processRename APPLY dir name fs).2))) ∧
    (∀ dir name fs,
      (RenameToAblock.applyFilenameReplacements name ≠ name →
        FS.renameSync fs name (RenameToAblock.applyFilenameReplacements name) = none →
        RenameToAblock.processRename true dir name fs =
          (fs, [.renameSync (dir ++ [name])
              (dir ++ [RenameToAblock.applyFilenameReplacements name]),
            .warnRename (dir ++ [name])])) ∧
      (SigmaRename.applyNameReplacements name ≠ name →
        FS.renameSync fs name (SigmaRename.applyNameReplacements name) = none →
        SigmaRename.processRename true dir name fs =
          (fs, [.renameSync (dir ++ [name]) (dir ++ [SigmaRename.applyNameReplacements name]),
            .warnRename (dir ++ [name])]))) ∧
    (∀ fuel nm es, FS.depthList es < fuel → (FS.Node.dir nm true es).wf = true →
      (FS.enterableList RenameToAblock.shouldSkipDir es = true →
        (RenameToAblock.walk APPLY fuel [] (.dir nm true es)).status = .returned ∧
        FS.CallsOf (RenameToAblock.processFile APPLY)
          (FS.visitsList RenameToAblock.shouldSkipDir [] es)
          ((RenameToAblock.walk APPLY fuel [] (.dir nm true es)).trace.filter
            (fun e => !e.isReaddir))) ∧
      (FS.enterableList SigmaRename.shouldSkipDir es = true →
        (SigmaRename.walk APPLY fuel [] (.dir nm true es)).status = .returned ∧
        FS.CallsOf (SigmaRename.processFile APPLY)
          (FS.visitsList SigmaRename.shouldSkipDir [] es)
          ((SigmaRename.walk APPLY fuel [] (.dir nm true es)).trace.filter
            (fun e => !e.isReaddir)))) ∧
    (∀ fuel dir nm pre post name d1 d2,
      (FS.names (pre ++ FS.Node.file name d1 :: post)).Nodup →
      ((APPLY = true → RenameToAblock.applyFilenameReplacements name = name ∨
          ∀ n ∈ post, n.isFile = true → n.name ≠ RenameToAblock.applyFilenameReplacements name) →
        FS.others (dir ++ [name])
            (RenameToAblock.walk APPLY fuel dir
              (.dir nm true (pre ++ FS.Node.file name d1 :: post))).trace =
          FS.others (dir ++ [name])
            (RenameToAblock.walk APPLY fuel dir
              (.dir nm true (pre ++ FS.Node.file name d2 :: post))).trace ∧
        FS.others (dir ++ [name])
            (FS.report (RenameToAblock.walk APPLY fuel dir
              (.dir nm true (pre ++ FS.Node.file name d1 :: post))).trace) =
          FS.others (dir ++ [name])
            (FS.report (RenameToAblock.walk APPLY fuel dir
              (.dir nm true (pre ++ FS.Node.file name d2 :: post))).trace) ∧
        (RenameToAblock.walk APPLY fuel dir
            (.dir nm true (pre ++ FS.Node.file name d1 :: post))).status =
          (RenameToAblock.walk APPLY fuel dir
            (.dir nm true (pre ++ FS.Node.file name d2 :: post))).status) ∧
      ((APPLY = true → SigmaRename.applyNameReplacements name = name ∨
          ∀ n ∈ post, n.isFile = true → n.name ≠ SigmaRename.applyNameReplacements name) →
        FS.others (dir ++ [name])
            (SigmaRename.walk APPLY fuel dir
              (.dir nm true (pre ++ FS.Node.file name d1 :: post))).trace =
          FS.others (dir ++ [name])
            (SigmaRename.walk APPLY fuel dir
              (.dir nm true (pre ++ FS.Node.file name d2 :: post))).trace ∧
        FS.others (dir ++ [name])
            (FS.report (SigmaRename.walk APPLY fuel dir
              (.dir nm true (pre ++ FS.Node.file name d1 :: post))).trace) =
          FS.others (dir ++ [name])
            (FS.report (SigmaRename.walk APPLY fuel dir
              (.dir nm true (pre ++ FS.Node.file name d2 :: post))).trace) ∧
        (SigmaRename.walk APPLY fuel dir
            (.dir nm true (pre ++ FS.Node.file name d1 :: post))).status =
          (SigmaRename.walk APPLY fuel dir
            (.dir nm true (pre ++ FS.Node.file name d2 :: post))).status)) := by
  refine ⟨?_, ?_, ?_, ?_⟩
  · intro dir name fs hread
    constructor
    · intro hs
      have hc : RenameToAblock.processContent APPLY (dir ++ [name]) name fs =
          (fs, [.readFileSync (dir ++ [name]), .warnRead (dir ++ [name])]) := by
        unfold RenameToAblock.processContent
        rw [hread]
      unfold RenameToAblock.processFile
      simp only [hs, Bool.false_eq_true, if_false, hc, List.cons_append, List.nil_append]
    · intro ht
      have hc : SigmaRename.processContent APPLY (dir ++ [name]) name fs =
          (fs, [.readFileSync (dir ++ [name]), .warnRead (dir ++ [name])]) := by
        unfold SigmaRename.processContent
        rw [hread]
      unfold SigmaRename.processFile
      simp only [ht, if_true, hc, List.cons_append, List.nil_append, List.append_assoc]
  · intro dir name fs
    constructor
    · intro hne hr
      unfold RenameToAblock.processRename
      have hb : (RenameToAblock.applyFilenameReplacements name != name) = true := by
        simpa using hne
      simp only [hb, if_true, hr]
    · intro hne hr
      unfold SigmaRename.processRename
      have hb : (SigmaRename.applyNameReplacements name != name) = true := by
        simpa using hne
      simp only [hb, if_true, hr]
  · intro fuel nm es hfuel hwf
    constructor
    · intro hent
      obtain ⟨h1, _, h3⟩ := FS.walkWith_visits RenameToAblock.processFile_spec APPLY fuel []
        nm es hfuel hwf hent
      exact ⟨h1, h3⟩
    · intro hent
      obtain ⟨h1, _, h3⟩ := FS.walkWith_visits SigmaRename.sigma_processFile_spec APPLY fuel []
        nm es hfuel hwf hent
      exact ⟨h1, h3⟩
  · intro fuel dir nm pre post name d1 d2 hnd
    constructor
    · intro hcol
      obtain ⟨h1, h2⟩ := FS.walkWith_isolated RenameToAblock.processFile_spec
        RenameToAblock.processFile_local APPLY fuel dir nm pre post name d1 d2 hnd hcol
      refine ⟨h1, ?_, h2⟩
      rw [FS.others_report, FS.others_report]
      exact congrArg FS.report h1
    · intro hcol
      obtain ⟨h1, h2⟩ := FS.walkWith_isolated SigmaRename.sigma_processFile_spec
        SigmaRename.sigma_processFile_local APPLY fuel dir nm pre post name d1 d2 hnd hcol
      refine ⟨h1, ?_, h2⟩
      rw [FS.others_report, FS.others_report]
      exact congrArg FS.report h1

/-- Witness for C13: in `Example.faulty` the file `notes.txt` cannot be read
and the file `sigma` cannot be moved.  The apply run of `rename-to-ablock.js`
returns after one `processFile` call for each of the four files; it prints one
`[SKIP ]` line for each of the two files and then processes `ublock.md` and
`zeta.txt`; what it prints for the entries other than `notes.txt` is what it
prints when `notes.txt` can be read, and what it prints for the entries other
than `sigma` is what it prints when `sigma` can be moved. -/
theorem recoverable_errors_do_not_abort_witness :
    FS.report (RenameToAblock.walk true 2 [] Example.faulty).trace =
      [.warnRead ["notes.txt".toList],
        .warnRename ["sigma".toList],
        .logContent true ["ublock.md".toList],
        .logRename true ["ublock.md".toList] ["ablock.md".toList],
        .logContent true ["zeta.txt".toList]] ∧
    (FS.depthList Example.faulty.entries < 2 ∧
      (FS.Node.dir [] true Example.faulty.entries).wf = true ∧
      FS.enterableList RenameToAblock.shouldSkipDir Example.faulty.entries = true ∧
      FS.visitsList RenameToAblock.shouldSkipDir [] Example.faulty.entries =
        [([], "notes.txt".toList), ([], "sigma".toList), ([], "ublock.md".toList),
          ([], "zeta.txt".toList)]) ∧
    ((RenameToAblock.walk true 2 [] (.dir [] true Example.faulty.entries)).status = .returned ∧
      FS.CallsOf (RenameToAblock.processFile true)
        (FS.visitsList RenameToAblock.shouldSkipDir [] Example.faulty.entries)
        ((RenameToAblock.walk true 2 [] (.dir [] true Example.faulty.entries)).trace.filter
          (fun e => !e.isReaddir))) ∧
    FS.others ([] ++ ["notes.txt".toList])
        (FS.report (RenameToAblock.walk true 2 []
          (.dir [] true ([] ++ FS.Node.file "notes.txt".toList ⟨some 4, none, true, true⟩ ::
            (FS.Node.file "sigma".toList ⟨some 1, some "x".toList, true, false⟩ ::
              Example.afterSigma)))).trace) =
      FS.others ([] ++ ["notes.txt".toList])
        (FS.report (RenameToAblock.walk true 2 []
          (.dir [] true ([] ++
            FS.Node.file "notes.txt".toList ⟨some 4, some "fine".toList, true, true⟩ ::
            (FS.Node.file "sigma".toList ⟨some 1, some "x".toList, true, false⟩ ::
              Example.afterSigma)))).trace) ∧
    FS.others ([] ++ ["sigma".toList])
        (FS.report (RenameToAblock.walk true 2 []
          (.dir [] true ([Example.unreadable "notes.txt"] ++
            FS.Node.file "sigma".toList ⟨some 1, some "x".toList, true, false⟩ ::
              Example.afterSigma))).trace) =
      FS.others ([] ++ ["sigma".toList])
        (FS.report (RenameToAblock.walk true 2 []
          (.dir [] true ([Example.unreadable "notes.txt"] ++
            FS.Node.file "sigma".toList ⟨some 1, some "x".toList, true, true⟩ ::
              Example.afterSigma))).trace) ∧
    FS.report (RenameToAblock.walk true 2 []
        (.dir [] true ([Example.unreadable "notes.txt"] ++
          FS.Node.file "sigma".toList ⟨some 1, some "x".toList, true, true⟩ ::
            Example.afterSigma))).trace =
      [.warnRead ["notes.txt".toList],
        .logRename true ["sigma".toList] ["ablock".toList],
        .logContent true ["ublock.md".toList],
        .logRename true ["ublock.md".toList] ["ablock.md".toList],
        .logContent true ["zeta.txt".toList]] :=
  ⟨by decide, ⟨by decide, by decide, by decide, by decide⟩,
    ((recoverable_errors_do_not_abort true).2.2.1 2 [] Example.faulty.entries
      (by decide) (by decide)).1 (by decide),
    (((recoverable_errors_do_not_abort true).2.2.2 2 [] [] [] _ "notes.txt".toList
      ⟨some 4, none, true, true⟩ ⟨some 4, some "fine".toList, true, true⟩
      (by decide)).1 (fun _ => Or.inl (by decide))).2.1,
    (((recoverable_errors_do_not_abort true).2.2.2 2 [] [] [Example.unreadable "notes.txt"]
      Example.afterSigma "sigma".toList
      ⟨some 1, some "x".toList, true, false⟩ ⟨some 1, some "x".toList, true, true⟩
      (by decide)).1 (fun _ => Or.inr (by decide))).2.1,
    by decide⟩
